import Mathlib

/-!
# EventManager: the event / data-layer coordinator

A shallow embedding of `src/EventManager.js` and the properties of its
bootstrap state machine, callback registry and event dispatcher.

## Modelling conventions

* The module-scoped variables (`_callbacks`, `_ddListener`, `_digitalData`, ...)
  are the fields of one record, `World`; every method is a function on `World`.
* A method that can throw returns a `Completion` next to the world it leaves
  behind: side effects made before the throw stay.
* JavaScript functions are values `Val.fn id`.  What function `id` does when it
  is called is given by `Env.run`: it sees its arguments and the shared data
  and returns or throws.  Every call is appended to `World.log` with the place
  of the call, the registry entry, the arguments and the shared state of that
  moment, which is how "handler `h` was invoked with `x`" is observed.  Handlers
  do not re-enter the coordinator and do not mutate the shared data themselves.
* `_digitalData` is the record `DigitalData`: the two queues `events` and
  `changes` and `data`, all its other properties.  Key paths address `data`.
* The replaced `push` methods of the three queues are the fields
  `eventsPush`, `changesPush` and `ddListenerPush`.
* The helpers that are imported from other modules (`DDHelper.get`,
  `DDHelper.set`, `jsonIsEqual`, `EventDataEnricher.enrichCommonData`) are
  fields of `Env`; `clone` is the identity on values.
-/

namespace EventManager

/-! ## Values -/

/-- A JavaScript value. `fn id` is a function, known by its identity. -/
inductive Val where
  | undefined
  | null
  | bool (b : Bool)
  | num (n : Int)
  | str (s : String)
  | fn (id : Nat)
  | arr (items : List Val)
  | obj (fields : List (String × Val))

instance : Inhabited Val := ⟨Val.undefined⟩

/-- JavaScript truthiness, as tested by `if (v)`. -/
def Val.truthy : Val → Bool
  | .undefined => false
  | .null => false
  | .bool b => b
  | .num n => n != 0
  | .str s => s != ""
  | .fn _ => true
  | .arr _ => true
  | .obj _ => true

/-- The test `v !== undefined`. -/
def Val.isDefined : Val → Bool
  | .undefined => false
  | _ => true

/-- The test `v === false`. -/
def Val.isFalse : Val → Bool
  | .bool false => true
  | _ => false

/-- The value thrown when something that is not a function is called, or a
property of `null` / `undefined` is read. -/
def typeError : Val := .str "TypeError"

/-- The constant `VIEWED_PAGE` of `./events/semanticEvents`. -/
def VIEWED_PAGE : String := "Viewed Page"

/-- An element of `digitalData.events`. The fields the coordinator reads or
writes are named; `payload` holds every other property. -/
structure Event where
  name : String
  /-- `none` when the property is absent. -/
  timestamp : Option Nat := none
  /-- Truthiness of the property `hasFired`. -/
  hasFired : Bool := false
  /-- `false` exactly when the property is the literal `false`. -/
  enrichEventData : Bool := true
  /-- The identity of the function in the property `callback`, if it holds one. -/
  callback : Option Nat := none
  payload : Val := .undefined

/-- An element of `digitalData.changes`: `[key, value]`. -/
abbrev ChangeOp := String × Val

/-- The shared state `_digitalData`. -/
structure DigitalData where
  data : Val := .obj []
  events : List Event := []
  changes : List ChangeOp := []

/-- What a function can be called with. -/
inductive Arg where
  | val (v : Val)
  | state (d : DigitalData)
  | event (e : Event)
  | list (vs : List Val)

/-- How a call ends. -/
inductive Completion where
  | returned (v : Val)
  | threw (e : Val)

/-- Where in `EventManager.js` a function value is called. -/
inductive Site where
  /-- `callback.handler(value)` in `fireDefine` (line 212). -/
  | define
  /-- `handler(nv, pv)` in `fireChange` (line 226). -/
  | change
  /-- `beforeEventCallback.handler(event)` in `beforeFireEvent` (line 270). -/
  | beforeEvent
  /-- `eventCallback.handler(eventCopy)` in `fireEvent` (line 313). -/
  | event
  /-- `event.callback(...)` in `fireEvent` (lines 292 and 322). -/
  | completion
  /-- `handler(eventCopy)` in `applyCallbackForPastEvents` (line 358). -/
  | replay
  deriving DecidableEq

/-- One recorded call of a function value: where it was called, the identity
of the registry entry whose handler it is (`none` for a completion callback
and for a replay), the function, its arguments, and the shared state at the
time of the call. -/
structure Call where
  site : Site
  entry : Option Nat
  fn : Nat
  args : List Arg
  state : DigitalData

/-- An element of `_callbacks[type]`: `{ key, handler }`. `id` is the identity
of the object, which `indexOf` compares. -/
structure Entry where
  id : Nat
  key : Option String
  handler : Val

/-- The `push` installed on `digitalData.events`. -/
inductive EventsPush where
  /-- `Array.prototype.push`. -/
  | native
  /-- The closure of `initialize` that waits for "Viewed Page" (lines 97-106). -/
  | waiting
  /-- The closure of `enableEventsTracking` (lines 118-121). -/
  | tracking
  deriving DecidableEq

/-- The `push` installed on `digitalData.changes`. -/
inductive ChangesPush where
  | native
  /-- The closure of `enableChangesTracking` (lines 127-130). -/
  | tracking
  deriving DecidableEq

/-- The `push` installed on `_ddListener`. -/
inductive ListenerPush where
  | native
  /-- The closure of `initialize` (lines 77-80). -/
  | live
  deriving DecidableEq

/-- A call made to a collaborator object. -/
inductive Collab where
  | track (customEvent : Nat)
  | trackerInit (tracker : Nat)
  | addTracker (tracker : Nat) (key : Option String) (handler : Val)

/-- The module state of `EventManager.js` and what it has done so far. -/
structure World where
  callbacks : List (String × List Entry) := []
  ddListener : List Val := []
  previousDigitalData : Val := .obj []
  digitalData : DigitalData := {}
  checkForChangesIntervalId : Option Nat := none
  viewabilityTracker : Option Nat := none
  isInitialized : Bool := false
  sendViewedPageEvent : Bool := false
  customEvents : List Nat := []
  eventsPush : EventsPush := .native
  changesPush : ChangesPush := .native
  ddListenerPush : ListenerPush := .native
  /-- The intervals that are running. -/
  timers : List Nat := []
  /-- The next fresh identity (entries, intervals). -/
  nextId : Nat := 0
  /-- The value of `Date.now()`. -/
  now : Nat := 1
  /-- Every call of a function value, oldest first. -/
  log : List Call := []
  /-- What was passed to `errorLog`, oldest first. -/
  errorLog : List Val := []
  /-- The calls to collaborators, oldest first. -/
  collab : List Collab := []

/-- The imported helpers and the behaviour of the function values. -/
structure Env where
  /-- What the function `id` does when called with `args`. -/
  run : Nat → List Arg → DigitalData → Completion
  /-- `DDHelper.get(key, object)`. -/
  get : String → Val → Val
  /-- `DDHelper.set(key, value, object)`. -/
  set : String → Val → Val → Val
  /-- `EventDataEnricher.enrichCommonData(event, digitalData)`. -/
  enrich : Event → DigitalData → Event
  /-- `jsonIsEqual(a, b)`. -/
  jsonIsEqual : Val → Val → Bool

/-! ## Small helpers -/

/-- `_callbacks[type]`. -/
def getCallbacks (type : String) : List (String × List Entry) → Option (List Entry)
  | [] => none
  | (k, v) :: rest => if k = type then some v else getCallbacks type rest

/-- `_callbacks[type] = entries`. -/
def setCallbacks (type : String) (entries : List Entry) :
    List (String × List Entry) → List (String × List Entry)
  | [] => [(type, entries)]
  | (k, v) :: rest =>
    if k = type then (k, entries) :: rest else (k, v) :: setCallbacks type entries rest

/-- Truthiness of `callback.key`. -/
def keyTruthy : Option String → Bool
  | none => false
  | some s => s != ""

/-- Calling `f(...args)` at `site`, `f` being the handler of the registry
entry `entry`. -/
def call (env : Env) (site : Site) (entry : Option Nat) (f : Val) (args : List Arg)
    (w : World) : World × Completion :=
  match f with
  | .fn id =>
    ({ w with log := w.log ++ [⟨site, entry, id, args, w.digitalData⟩] },
      env.run id args w.digitalData)
  | _ => (w, .threw typeError)

/-- `errorLog(e)`. -/
def logError (e : Val) (w : World) : World :=
  { w with errorLog := w.errorLog ++ [e] }

/-- `digitalData.events = events`, as the effect of writes into the array. -/
def setEvents (events : List Event) (w : World) : World :=
  { w with digitalData := { w.digitalData with events := events } }

/-- `_getCopyWithoutEvents(digitalData)`: the copy without `events` and `changes`. -/
def _getCopyWithoutEvents (digitalData : DigitalData) : Val :=
  digitalData.data

/-- The pieces of `s.split(sep)`, on characters. -/
def splitChars (sep : Char) : List Char → List Char → List (List Char)
  | [], cur => [cur.reverse]
  | c :: cs, cur =>
    if c = sep then cur.reverse :: splitChars sep cs [] else splitChars sep cs (c :: cur)

/-- `eventInfo.split(':')`. -/
def splitColon (s : String) : List String :=
  (splitChars ':' s.toList []).map String.mk

/-! ## Event dispatch -/

/-- The loop of `beforeFireEvent` (lines 269-274) over `_callbacks.beforeEvent`.
A handler that throws ends the loop: the call is not inside a `try`. -/
def beforeFireEventLoop (env : Env) (event : Event) : List Entry → World → World × Completion
  | [], w => (w, .returned (.bool true))
  | beforeEventCallback :: rest, w =>
    match call env .beforeEvent (some beforeEventCallback.id) beforeEventCallback.handler
        [.event event] w with
    | (w1, .threw e) => (w1, .threw e)
    | (w1, .returned result) =>
      if result.isFalse then (w1, .returned (.bool false))
      else beforeFireEventLoop env event rest w1

/-- `beforeFireEvent(event)` (lines 262-276). -/
def beforeFireEvent (env : Env) (event : Event) (w : World) : World × Completion :=
  match getCallbacks "beforeEvent" w.callbacks with
  | none => (w, .returned (.bool true))
  | some entries => beforeFireEventLoop env event entries w

/-- The locals `results` and `errors` of `fireEvent`, and the counter inside `ready`. -/
structure Aggregate where
  results : List Val := []
  errors : List Val := []
  readyCalls : Nat := 0

/-- Modelled from the spec: `after(times, func)` of `./functions/after`, which is
not among the sources. "Every handler's completion increments a counter; when
the counter reaches the total handler count, invoke" the function: the call
number `calls` of the returned function calls `func` iff `calls = times`. -/
def afterFires (times calls : Nat) : Bool :=
  calls == times

/-- `ready()` (lines 290-294): counts the call and, when `after` lets it through,
calls `event.callback(results, errors)` if that is a function. The event is the
element `i` of the queue. -/
def ready (env : Env) (i times : Nat) (agg : Aggregate) (w : World) :
    Aggregate × World × Completion :=
  let agg1 := { agg with readyCalls := agg.readyCalls + 1 }
  if afterFires times agg1.readyCalls then
    match (w.digitalData.events[i]?).bind (fun event => event.callback) with
    | some f =>
      let r := call env .completion none (.fn f) [.list agg1.results, .list agg1.errors] w
      (agg1, r.1, r.2)
    | none => (agg1, w, .returned .undefined)
  else (agg1, w, .returned .undefined)

/-- `eventCallbackOnComplete(error, result)` (lines 296-304). -/
def eventCallbackOnComplete (env : Env) (i times : Nat) (error result : Val)
    (agg : Aggregate) (w : World) : Aggregate × World × Completion :=
  let agg1 := if result.isDefined then { agg with results := agg.results ++ [result] } else agg
  let agg2 := if error.truthy then { agg1 with errors := agg1.errors ++ [error] } else agg1
  ready env i times agg2 w

/-- The copy of the event a handler gets (lines 307-311 and 352-356): `clone`,
`deleteProperty(eventCopy, 'callback')`, and `enrichEventWithData` unless
`enrichEventData` is `false`. -/
def eventCopyFor (env : Env) (event : Event) (w : World) : Event :=
  let eventCopy := { event with callback := none }
  if eventCopy.enrichEventData then env.enrich eventCopy w.digitalData else eventCopy

/-- The `catch (e)` block of the handler loop (lines 315-318):
`eventCallbackOnComplete(e); errorLog(e)`. What `event.callback` throws in
here is not caught. -/
def fireEventCatch (env : Env) (i times : Nat) (e : Val) (agg : Aggregate) (w : World) :
    Aggregate × World × Completion :=
  match eventCallbackOnComplete env i times e .undefined agg w with
  | (agg1, w1, .threw e1) => (agg1, w1, .threw e1)
  | (agg1, w1, .returned _) => (agg1, logError e w1, .returned .undefined)

/-- The loop of `fireEvent` over `_callbacks.event` (lines 306-319). In the `try`
block are the call of the handler and `eventCallbackOnComplete(null, result)`. -/
def fireEventLoop (env : Env) (i times : Nat) :
    List Entry → Aggregate → World → Aggregate × World × Completion
  | [], agg, w => (agg, w, .returned .undefined)
  | eventCallback :: rest, agg, w =>
    match w.digitalData.events[i]? with
    | none => (agg, w, .threw typeError)
    | some event =>
      match call env .event (some eventCallback.id) eventCallback.handler
          [.event (eventCopyFor env event w)] w with
      | (w1, .returned result) =>
        match eventCallbackOnComplete env i times .null result agg w1 with
        | (agg2, w2, .returned _) => fireEventLoop env i times rest agg2 w2
        | (agg2, w2, .threw e) =>
          match fireEventCatch env i times e agg2 w2 with
          | (agg3, w3, .threw e3) => (agg3, w3, .threw e3)
          | (agg3, w3, .returned _) => fireEventLoop env i times rest agg3 w3
      | (w1, .threw e) =>
        match fireEventCatch env i times e agg w1 with
        | (agg3, w3, .threw e3) => (agg3, w3, .threw e3)
        | (agg3, w3, .returned _) => fireEventLoop env i times rest agg3 w3

/-- Truthiness of `event.timestamp`. -/
def timestampTruthy : Option Nat → Bool
  | none => false
  | some t => t != 0

/-- The start of `fireEvent` (lines 279-281): `event.timestamp = Date.now()`
unless the event has a truthy `timestamp`. The test is `!event.timestamp`, so a
timestamp that is defined as `0` is overwritten too, whereas the comment of
line 279 speaks of one that is defined. -/
def withTimestamp (now : Nat) (event : Event) : Event :=
  if timestampTruthy event.timestamp then event else { event with timestamp := some now }

/-- `event.hasFired = true` for the element `i` of the queue. -/
def markFired (i : Nat) (w : World) : World :=
  match w.digitalData.events[i]? with
  | none => w
  | some event => setEvents (w.digitalData.events.set i { event with hasFired := true }) w

/-- The part of `fireEvent` after the beforeEvent gate (lines 286-326): the
event handlers or, without any, the completion callback, and `hasFired`.
`event` is the event with its timestamp. -/
def fireEventHandlers (env : Env) (i : Nat) (event : Event) (w1 : World) : World × Completion :=
  match getCallbacks "event" w1.callbacks with
  | some entries =>
    match fireEventLoop env i entries.length entries {} w1 with
    | (_, w2, .threw e) => (w2, .threw e)
    | (_, w2, .returned _) => (markFired i w2, .returned .undefined)
  | none =>
    match event.callback with
    | some f =>
      match call env .completion none (.fn f) [] w1 with
      | (w2, .threw e) => (w2, .threw e)
      | (w2, .returned _) => (markFired i w2, .returned .undefined)
    | none => (markFired i w1, .returned .undefined)

/-- `fireEvent(event)` (lines 278-327), for the event that is element `i` of
`digitalData.events`. Returns `false` when a beforeEvent handler vetoes. -/
def fireEvent (env : Env) (i : Nat) (w : World) : World × Completion :=
  match w.digitalData.events[i]? with
  | none => (w, .threw typeError)
  | some event0 =>
    let event := withTimestamp w.now event0
    let w0 := setEvents (w.digitalData.events.set i event) w
    match beforeFireEvent env event w0 with
    | (w1, .threw e) => (w1, .threw e)
    | (w1, .returned r) =>
      if !r.truthy then (w1, .returned (.bool false))
      else fireEventHandlers env i event w1

/-- The loop of `fireUnfiredEvents` (lines 368-372): the array iterator is at
index `i`; `fuel` bounds the number of iterations. -/
def fireUnfiredEventsFrom (env : Env) : Nat → Nat → World → World × Completion
  | 0, _, w => (w, .returned .undefined)
  | fuel + 1, i, w =>
    match w.digitalData.events[i]? with
    | none => (w, .returned .undefined)
    | some event =>
      if !event.hasFired then
        match fireEvent env i w with
        | (w1, .threw e) => (w1, .threw e)
        | (w1, .returned _) => fireUnfiredEventsFrom env fuel (i + 1) w1
      else fireUnfiredEventsFrom env fuel (i + 1) w

/-- `fireUnfiredEvents()` (lines 366-373). -/
def fireUnfiredEvents (env : Env) (w : World) : World × Completion :=
  fireUnfiredEventsFrom env w.digitalData.events.length 0 w

/-- `enableEventsTracking()` (lines 116-122). -/
def enableEventsTracking (w : World) : World :=
  { w with eventsPush := .tracking }

/-- `isViewedPageSent()` (lines 182-190). -/
def isViewedPageSent (w : World) : Bool :=
  w.digitalData.events.any (fun event => event.name == VIEWED_PAGE)

/-- The event `{ name: VIEWED_PAGE, source: 'DDManager' }` of line 194. -/
def syntheticViewedPage : Event :=
  { name := VIEWED_PAGE, payload := .obj [("source", .str "DDManager")] }

/-- `addViewedPageEvent(event)` (lines 192-197). -/
def addViewedPageEvent (event : Option Event) (w : World) : World :=
  let event1 : Event :=
    match event with
    | some e => e
    | none => syntheticViewedPage
  setEvents (event1 :: w.digitalData.events) w

/-! ## Subscriptions -/

/-- The loop of `applyCallbackForPastEvents` (lines 350-363). -/
def applyCallbackForPastEventsLoop (env : Env) (handler : Val) : List Event → World → World
  | [], w => w
  | event :: rest, w =>
    if event.hasFired then
      match call env .replay none handler [.event (eventCopyFor env event w)] w with
      | (w1, .threw e) => applyCallbackForPastEventsLoop env handler rest (logError e w1)
      | (w1, .returned _) => applyCallbackForPastEventsLoop env handler rest w1
    else applyCallbackForPastEventsLoop env handler rest w

/-- `applyCallbackForPastEvents(handler)` (lines 347-364). -/
def applyCallbackForPastEvents (env : Env) (handler : Val) (w : World) : World :=
  applyCallbackForPastEventsLoop env handler w.digitalData.events w

/-- The names of the properties that the object `_callbacks = {}` inherits from
`Object.prototype`. For such a name `_callbacks[type]` is not `undefined` and
has no method `push`. -/
def objectPrototypeKeys : List String :=
  ["constructor", "hasOwnProperty", "isPrototypeOf", "propertyIsEnumerable", "toLocaleString",
    "toString", "valueOf", "__proto__", "__defineGetter__", "__defineSetter__",
    "__lookupGetter__", "__lookupSetter__"]

/-- The method `on(eventInfo, handler, processPastEvents)` (lines 329-345),
the `subscribe` of the specification (`on` is reserved here). An argument that
is left out is `undefined`. For a kind that names an inherited property of
`_callbacks`, `_callbacks[type] || []` is that property and the call of its
`push` (line 338) throws a `TypeError`. -/
def subscribe (env : Env) (eventInfo handler processPastEvents : Val) (w : World) :
    World × Completion :=
  match eventInfo with
  | .str info =>
    let parts := splitColon info
    let type := parts.headD ""
    let key := parts[1]?
    if type = "view" then
      match w.viewabilityTracker with
      | some tracker =>
        ({ w with collab := w.collab ++ [.addTracker tracker key handler] }, .returned .undefined)
      | none => (w, .threw typeError)
    else if objectPrototypeKeys.contains type then (w, .threw typeError)
    else
      let entries := (getCallbacks type w.callbacks).getD []
      let w1 := { w with
        callbacks := setCallbacks type (entries ++ [⟨w.nextId, key, handler⟩]) w.callbacks
        nextId := w.nextId + 1 }
      if w1.isInitialized && type == "event" && processPastEvents.truthy then
        (applyCallbackForPastEvents env handler w1, .returned .undefined)
      else (w1, .returned .undefined)
  | _ => (w, .threw typeError)

/-- `addCallback(callbackInfo, processPastEvents)` (lines 162-180). -/
def addCallback (env : Env) (callbackInfo processPastEvents : Val) (w : World) :
    World × Completion :=
  let processPastEvents1 := if !processPastEvents.isFalse then Val.bool true else processPastEvents
  match callbackInfo with
  | .arr items =>
    if items.length < 2 then (w, .returned .undefined)
    else
      match items[0]? with
      | some (Val.str "on") =>
        if items.length < 3 then (w, .returned .undefined)
        else subscribe env (items[1]?.getD .undefined) (items[2]?.getD .undefined) processPastEvents1 w
      | _ => (w, .returned .undefined)
  | _ => (w, .returned .undefined)

/-- The loop of `addEarlyCallbacks` (lines 377-379). -/
def addEarlyCallbacksLoop (env : Env) : List Val → World → World × Completion
  | [], w => (w, .returned .undefined)
  | callbackInfo :: rest, w =>
    match addCallback env callbackInfo .undefined w with
    | (w1, .threw e) => (w1, .threw e)
    | (w1, .returned _) => addEarlyCallbacksLoop env rest w1

/-- `addEarlyCallbacks()` (lines 375-380). -/
def addEarlyCallbacks (env : Env) (w : World) : World × Completion :=
  addEarlyCallbacksLoop env w.ddListener w

/-! ## Define and change dispatch -/

/-- `_callbacks.define.indexOf(callback)`: the first index that holds the object. -/
def indexOfEntry (callback : Entry) (entries : List Entry) : Nat :=
  entries.findIdx (fun e => e.id == callback.id)

/-- The value a define entry waits for (lines 203-209): `DDHelper.get(key,
_digitalData)` when the entry has a key, `_digitalData` itself otherwise. -/
def defineValue (env : Env) (callback : Entry) (w : World) : Arg :=
  if keyTruthy callback.key then .val (env.get (callback.key.getD "") w.digitalData.data)
  else .state w.digitalData

/-- The test `value !== undefined` on an argument. -/
def Arg.isDefined : Arg → Bool
  | .val v => v.isDefined
  | _ => true

/-- The body of the `if` in `fireDefine` (lines 211-216): the call of the
handler inside `try`, `errorLog` in `catch`, and the `splice` of the entry. -/
def fireDefineEntry (env : Env) (callback : Entry) (value : Arg) (w : World) : World :=
  let r := call env .define (some callback.id) callback.handler [value] w
  let w1 :=
    match r.2 with
    | .threw e => logError e r.1
    | .returned _ => r.1
  let entries := (getCallbacks "define" w1.callbacks).getD []
  { w1 with
    callbacks := setCallbacks "define" (entries.eraseIdx (indexOfEntry callback entries))
      w1.callbacks }

/-- The loop of `fireDefine` (lines 202-218): the array iterator is at index
`i` of `_callbacks.define`, which the body shortens with `splice`; `fuel`
bounds the number of iterations. -/
def fireDefineLoop (env : Env) : Nat → Nat → World → World
  | 0, _, w => w
  | fuel + 1, i, w =>
    match ((getCallbacks "define" w.callbacks).getD [])[i]? with
    | none => w
    | some callback =>
      if (defineValue env callback w).isDefined then
        fireDefineLoop env fuel (i + 1) (fireDefineEntry env callback (defineValue env callback w) w)
      else fireDefineLoop env fuel (i + 1) w

/-- `fireDefine()` (lines 199-220). -/
def fireDefine (env : Env) (w : World) : World :=
  match getCallbacks "define" w.callbacks with
  | none => w
  | some entries => if entries.length > 0 then fireDefineLoop env entries.length 0 w else w

/-- `callHandler(handler, nv, pv)` of `fireChange` (lines 224-230), for the
handler of the registry entry `entry`. -/
def callHandler (env : Env) (entry : Nat) (handler nv pv : Val) (w : World) : World :=
  match call env .change (some entry) handler [.val nv, .val pv] w with
  | (w1, .threw e) => logError e w1
  | (w1, .returned _) => w1

/-- The loop of `fireChange` (lines 233-244). -/
def fireChangeLoop (env : Env) (newValue previousValue : Val) : List Entry → World → World
  | [], w => w
  | callback :: rest, w =>
    if keyTruthy callback.key then
      let key := callback.key.getD ""
      let newKeyValue := env.get key newValue
      let previousKeyValue := env.get key previousValue
      if !env.jsonIsEqual newKeyValue previousKeyValue then
        fireChangeLoop env newValue previousValue rest
          (callHandler env callback.id callback.handler newKeyValue previousKeyValue w)
      else fireChangeLoop env newValue previousValue rest w
    else
      fireChangeLoop env newValue previousValue rest
        (callHandler env callback.id callback.handler newValue previousValue w)

/-- `fireChange(newValue, previousValue)` (lines 222-246). -/
def fireChange (env : Env) (newValue previousValue : Val) (w : World) : World :=
  match getCallbacks "change" w.callbacks with
  | none => w
  | some entries =>
    if entries.length > 0 then fireChangeLoop env newValue previousValue entries w else w

/-- The guard of `checkForChanges` (line 151). -/
def hasChangeOrDefine (w : World) : Bool :=
  (match getCallbacks "change" w.callbacks with
    | some entries => decide (entries.length > 0)
    | none => false) ||
  (match getCallbacks "define" w.callbacks with
    | some entries => decide (entries.length > 0)
    | none => false)

/-- `checkForChanges()` (lines 150-160). The stored snapshot has no `events`
and `changes`, so the second `_getCopyWithoutEvents` copies it as it is. -/
def checkForChanges (env : Env) (w : World) : World :=
  if hasChangeOrDefine w then
    let digitalDataWithoutEvents := _getCopyWithoutEvents w.digitalData
    if !env.jsonIsEqual w.previousDigitalData digitalDataWithoutEvents then
      let previousDigitalDataWithoutEvents := w.previousDigitalData
      let w1 := { w with previousDigitalData := digitalDataWithoutEvents }
      let w2 := fireDefine env w1
      fireChange env digitalDataWithoutEvents previousDigitalDataWithoutEvents w2
    else w
  else w

/-- `applyChange(changeInfo)` (lines 257-260). -/
def applyChange (env : Env) (changeInfo : ChangeOp) (w : World) : World :=
  { w with digitalData :=
      { w.digitalData with data := env.set changeInfo.1 changeInfo.2 w.digitalData.data } }

/-- `applyEarlyChanges()` (lines 248-255). -/
def applyEarlyChanges (env : Env) (w : World) : World :=
  w.digitalData.changes.foldl (fun acc changeInfo => applyChange env changeInfo acc) w

/-- `enableChangesTracking()` (lines 124-136): replaces `changes.push` and
starts the interval. -/
def enableChangesTracking (w : World) : World :=
  { w with
    changesPush := .tracking
    checkForChangesIntervalId := some w.nextId
    timers := w.timers ++ [w.nextId]
    nextId := w.nextId + 1 }

/-- The function run by the interval (lines 132-135). -/
def tick (env : Env) (w : World) : World :=
  checkForChanges env (fireDefine env w)

/-! ## Life cycle and the three queues -/

/-- The `digitalData` argument of the constructor: `events` and `changes` are
`none` when the property is not an array. -/
structure RawDigitalData where
  data : Val := .obj []
  events : Option (List Event) := none
  changes : Option (List ChangeOp) := none

/-- `constructor(digitalData, ddListener)` (lines 34-44). An object or array
that is passed in is a new one, with the `push` of `Array.prototype`. -/
def construct (digitalData : Option RawDigitalData) (ddListener : Option (List Val))
    (w : World) : World :=
  let w1 : World :=
    match digitalData with
    | some raw =>
      { w with
        digitalData := { data := raw.data, events := raw.events.getD [], changes := raw.changes.getD [] }
        eventsPush := .native
        changesPush := .native }
    | none => w
  let w2 : World :=
    match ddListener with
    | some listener => { w1 with ddListener := listener, ddListenerPush := .native }
    | none => w1
  { w2 with previousDigitalData := _getCopyWithoutEvents w2.digitalData }

/-- `setSendViewedPageEvent(sendViewedPageEvent)` (lines 138-140). -/
def setSendViewedPageEvent (sendViewedPageEvent : Bool) (w : World) : World :=
  { w with sendViewedPageEvent := sendViewedPageEvent }

/-- `getSendViewedPageEvent()` (lines 142-144). -/
def getSendViewedPageEvent (w : World) : Bool :=
  w.sendViewedPageEvent

/-- `setViewabilityTracker(viewabilityTracker)` (lines 146-148). -/
def setViewabilityTracker (viewabilityTracker : Option Nat) (w : World) : World :=
  { w with viewabilityTracker := viewabilityTracker }

/-- The end of `initialize` (lines 109-113). -/
def initializeEnd (w : World) : World :=
  let w1 : World :=
    match w.viewabilityTracker with
    | some tracker => { w with collab := w.collab ++ [Collab.trackerInit tracker] }
    | none => w
  { w1 with isInitialized := true }

/-- The part of `initialize` that processes the events (lines 87-107). -/
def initializeEvents (env : Env) (w : World) : World × Completion :=
  if isViewedPageSent w then
    match fireUnfiredEvents env w with
    | (w1, .threw e) => (w1, .threw e)
    | (w1, .returned _) => (enableEventsTracking w1, .returned .undefined)
  else if w.sendViewedPageEvent && !isViewedPageSent w then
    match fireUnfiredEvents env (addViewedPageEvent none w) with
    | (w1, .threw e) => (w1, .threw e)
    | (w1, .returned _) => (enableEventsTracking w1, .returned .undefined)
  else ({ w with eventsPush := .waiting }, .returned .undefined)

/-- The start of `initialize` (lines 67-85): the custom events, the callbacks
and the changes. -/
def initializeStart (env : Env) (w : World) : World × Completion :=
  let w1 := { w with collab := w.collab ++ w.customEvents.map (fun customEvent => Collab.track customEvent) }
  match addEarlyCallbacks env w1 with
  | (w2, .threw e) => (w2, .threw e)
  | (w2, .returned _) =>
    let w3 := fireDefine env w2
    let w4 := { w3 with ddListenerPush := .live }
    let w5 := applyEarlyChanges env w4
    (enableChangesTracking w5, .returned .undefined)

/-- The method `initialize()` (lines 66-114); its name is reserved here. -/
def initializeManager (env : Env) (w : World) : World × Completion :=
  match initializeStart env w with
  | (w1, .threw e) => (w1, .threw e)
  | (w1, .returned _) =>
    match initializeEvents env w1 with
    | (w2, .threw e) => (w2, .threw e)
    | (w2, .returned _) => (initializeEnd w2, .returned .undefined)

/-- `reset()` (lines 386-399). -/
def reset (w : World) : World :=
  { w with
    timers := w.timers.filter (fun t => some t != w.checkForChangesIntervalId)
    ddListener := []
    digitalData := { w.digitalData with changes := [] }
    ddListenerPush := .native
    changesPush := .native
    callbacks := []
    viewabilityTracker := none
    sendViewedPageEvent := false }

/-- `digitalData.events.push(event)`, with the `push` that is installed. -/
def pushEvent (env : Env) (event : Event) (w : World) : World × Completion :=
  match w.eventsPush with
  | .native => (setEvents (w.digitalData.events ++ [event]) w, .returned .undefined)
  | .waiting =>
    if event.name = VIEWED_PAGE then
      fireUnfiredEvents env (enableEventsTracking (addViewedPageEvent (some event) w))
    else (setEvents (w.digitalData.events ++ [event]) w, .returned .undefined)
  | .tracking =>
    fireEvent env w.digitalData.events.length (setEvents (w.digitalData.events ++ [event]) w)

/-- `digitalData.changes.push(changeInfo)`, with the `push` that is installed. -/
def pushChange (env : Env) (changeInfo : ChangeOp) (w : World) : World :=
  let w1 := { w with digitalData := { w.digitalData with changes := w.digitalData.changes ++ [changeInfo] } }
  match w.changesPush with
  | .native => w1
  | .tracking => applyChange env changeInfo w1

/-- `_ddListener.push(callbackInfo)`, with the `push` that is installed. -/
def pushListener (env : Env) (callbackInfo : Val) (w : World) : World × Completion :=
  match w.ddListenerPush with
  | .native => ({ w with ddListener := w.ddListener ++ [callbackInfo] }, .returned .undefined)
  | .live =>
    match addCallback env callbackInfo .undefined w with
    | (w1, .threw e) => (w1, .threw e)
    | (w1, .returned _) =>
      ({ w1 with ddListener := w1.ddListener ++ [callbackInfo] }, .returned .undefined)

end EventManager

namespace EventManager

/-! ## Observations and conditions -/

/-- The world without the two records of what was called and logged. -/
def core (w : World) : World :=
  { w with log := [], errorLog := [] }

/-- The calls made at `site`, oldest first. -/
def callsAt (site : Site) (calls : List Call) : List Call :=
  calls.filter (fun c => decide (c.site = site))

/-- What `eventCallbackOnComplete` puts into `results` and `errors` for one handler. -/
def recordOutcome (o : Completion) (agg : Aggregate) : Aggregate :=
  match o with
  | .returned v => if v.isDefined then { agg with results := agg.results ++ [v] } else agg
  | .threw e => if e.truthy then { agg with errors := agg.errors ++ [e] } else agg

/-- The counter of `ready` after one more call. -/
def counted (agg : Aggregate) : Aggregate :=
  { agg with readyCalls := agg.readyCalls + 1 }

/-- The beforeEvent handler `h` lets `event` through: it returns, and not `false`. -/
def Passes (env : Env) (h : Val) (event : Event) : Prop :=
  ∀ entry w, ∃ v,
    (call env .beforeEvent entry h [.event event] w).2 = .returned v ∧ v.isFalse = false

/-- The beforeEvent handler `h` returns `false` for `event`. -/
def Vetoes (env : Env) (h : Val) (event : Event) : Prop :=
  ∀ entry w, (call env .beforeEvent entry h [.event event] w).2 = .returned (.bool false)

/-- The beforeEvent gate of the registry `callbacks` lets `event` through:
every registered beforeEvent handler does. -/
def GateOpen (env : Env) (event : Event) (callbacks : List (String × List Entry)) : Prop :=
  ∀ entries, getCallbacks "beforeEvent" callbacks = some entries →
    ∀ b ∈ entries, Passes env b.handler event

/-- The outcome of the event handler `h` is always recorded: it returns a
value other than `undefined` or throws a truthy value. -/
def Recorded (env : Env) (h : Val) : Prop :=
  ∀ entry args w,
    (match (call env .event entry h args w).2 with
      | .returned v => v.isDefined
      | .threw e => e.truthy) = true

/-- The number of entries of `results` and `errors` together that a completion
call was given. -/
def recordedOutcomes (c : Call) : Nat :=
  match c.args with
  | [.list results, .list errors] => results.length + errors.length
  | _ => 0

/-- The function behind a handler, if it is one. -/
def fnId : Val → Option Nat
  | .fn id => some id
  | _ => none

/-- The functions registered as event handlers, in registration order. -/
def eventHandlers (callbacks : List (String × List Entry)) : List Nat :=
  ((getCallbacks "event" callbacks).getD []).filterMap (fun x => fnId x.handler)

/-- The record of the call of the event handler of the entry `x` with `copy`,
if the handler is a function. -/
def eventCallOf (copy : Event) (dd : DigitalData) (x : Entry) : Option Call :=
  (fnId x.handler).map (fun id => ⟨.event, some x.id, id, [.event copy], dd⟩)

/-- The handler and the event name of a dispatch. -/
def dispatchOf (c : Call) : Option (Nat × String) :=
  match c.args with
  | [.event e] => some (c.fn, e.name)
  | _ => none

/-- The dispatches to event handlers recorded in `log`, oldest first: which
function was called with the event of which name. -/
def dispatched (log : List Call) : List (Nat × String) :=
  (callsAt .event log).filterMap dispatchOf

/-- The completion callback of `event`, if it has one, always returns. -/
def CallbackReturns (env : Env) (event : Event) : Prop :=
  ∀ f, event.callback = some f → ∀ args dd, ∃ v, env.run f args dd = .returned v

/-- `events.push(e)` for every `e` of `events`, one after the other. A `push`
that throws does not keep the caller from the next one. -/
def pushEvents (env : Env) : List Event → World → World
  | [], w => w
  | e :: rest, w => pushEvents env rest (pushEvent env e w).1

/-- What `fireUnfiredEvents` makes of a queued event when no `fireEvent` is
vetoed or throws: an unfired event gets its timestamp and `hasFired`. -/
def afterFiring (now : Nat) (e : Event) : Event :=
  if e.hasFired then e else { withTimestamp now e with hasFired := true }

/-- The dispatches of the unfired events of `events`, in queue order, each to
every function among the event handlers, in registration order. -/
def dispatchesOf (callbacks : List (String × List Entry)) (events : List Event) :
    List (Nat × String) :=
  (events.filter (fun e => !e.hasFired)).flatMap
    (fun e => (eventHandlers callbacks).map (fun id => (id, e.name)))

/-- What the processing of the events queue reads of the world besides the
registry: the queue, its `push`, the flag, the clock and `_isInitialized`. -/
def queueView (w : World) : List Event × EventsPush × Bool × Nat × Bool :=
  (w.digitalData.events, w.eventsPush, w.sendViewedPageEvent, w.now, w.isInitialized)

/-- An event without what `fireEvent` writes into it. -/
def eraseFiring (e : Event) : Event :=
  { e with timestamp := none, hasFired := false }

/-- The world without its records and without what `fireEvent` writes into
the queued events. -/
def coreE (w : World) : World :=
  core (setEvents (w.digitalData.events.map eraseFiring) w)

/-- The record of the call of the beforeEvent handler of the entry `x` with
`event`, if the handler is a function. -/
def beforeCallOf (event : Event) (dd : DigitalData) (x : Entry) : Option Call :=
  (fnId x.handler).map (fun id => ⟨.beforeEvent, some x.id, id, [.event event], dd⟩)

/-- The log of `w1` is the log of `w` and then calls that all satisfy `P`. -/
def LogExt (P : Call → Prop) (w w1 : World) : Prop :=
  ∃ new, w1.log = w.log ++ new ∧ ∀ c ∈ new, P c

/-- A call at one of the places `S`, made when the data of the shared state
was `d`. -/
def CallIn (S : Site → Prop) (d : Val) (c : Call) : Prop :=
  S c.site ∧ c.state.data = d

/-- The view `V` of the world is not changed by a call at a place in `S`, by
`errorLog`, by an update of the registry for a kind in `K`, nor by a call to
a collaborator. -/
structure Frame {α : Type} (V : World → α) (S : Site → Prop) (K : String → Prop) : Prop where
  call : ∀ (env : Env) (site : Site) (entry : Option Nat) (f : Val) (args : List Arg)
    (w : World), S site → V (call env site entry f args w).1 = V w
  logError : ∀ (e : Val) (w : World), V (logError e w) = V w
  registry : ∀ (type : String) (entries : List Entry) (n : Nat) (w : World), K type →
    V { w with callbacks := setCallbacks type entries w.callbacks, nextId := n } = V w
  collab : ∀ (c : List Collab) (w : World), V { w with collab := c } = V w

/-- What the dispatch of events has logged, and the shared state. -/
def startView (w : World) : DigitalData × List Call × List Call × List Call :=
  (w.digitalData, callsAt .event w.log, callsAt .beforeEvent w.log, callsAt .completion w.log)

/-- The places of the calls of event dispatch. -/
def DispatchSite (s : Site) : Prop :=
  s = .beforeEvent ∨ s = .event ∨ s = .completion

/-- How the call of the event handler of the entry `x` with `copy` ends: what
the function does, or the `TypeError` of calling what is not a function. -/
def outcomeOf (env : Env) (copy : Event) (dd : DigitalData) (x : Entry) : Completion :=
  match x.handler with
  | .fn id => env.run id [.event copy] dd
  | _ => .threw typeError

/-- The entries of `results` for the outcomes of the handlers, in order: the
values returned that are not `undefined`. -/
def resultsOf (outcomes : List Completion) : List Val :=
  outcomes.filterMap (fun o =>
    match o with
    | .returned v => if v.isDefined then some v else none
    | .threw _ => none)

/-- The entries of `errors` for the outcomes of the handlers, in order: the
values thrown that are truthy. -/
def errorsOf (outcomes : List Completion) : List Val :=
  outcomes.filterMap (fun o =>
    match o with
    | .returned _ => none
    | .threw e => if e.truthy then some e else none)

/-- The world in which `fireEvent` for the element `i` of the queue, `event`,
runs the gate and the handlers: the queued event has its timestamp. -/
def stampedWorld (i : Nat) (event : Event) (w : World) : World :=
  setEvents (w.digitalData.events.set i (withTimestamp w.now event)) w

/-- The copy of the event that `fireEvent` for the element `i` gives to the
event handlers. -/
def handlerCopy (env : Env) (i : Nat) (event : Event) (w : World) : Event :=
  eventCopyFor env (withTimestamp w.now event) (stampedWorld i event w)

/-- How the calls of the event handlers `entries` in `fireEvent` for the
element `i` end, in registration order. -/
def handlerOutcomes (env : Env) (i : Nat) (event : Event) (w : World) (entries : List Entry) :
    List Completion :=
  entries.map (outcomeOf env (handlerCopy env i event w) (stampedWorld i event w).digitalData)

/-- The record of the call of the change handler of the entry `x` with the
values `nv` and `pv`, if the handler is a function. -/
def changeCallOf (nv pv : Val) (dd : DigitalData) (x : Entry) : List Call :=
  ((fnId x.handler).map
    (fun id => (⟨.change, some x.id, id, [.val nv, .val pv], dd⟩ : Call))).toList

/-- The calls that `fireChange(newValue, previousValue)` makes for the entry
`x`: for an entry with a key, one call with the two values at the key when
these are not equal; for an entry without key, one call with the two values. -/
def changeCallsOf (env : Env) (newValue previousValue : Val) (dd : DigitalData) (x : Entry) :
    List Call :=
  if keyTruthy x.key then
    if env.jsonIsEqual (env.get (x.key.getD "") newValue) (env.get (x.key.getD "") previousValue)
    then []
    else changeCallOf (env.get (x.key.getD "") newValue) (env.get (x.key.getD "") previousValue)
      dd x
  else changeCallOf newValue previousValue dd x

/-- What `fireDefine` leaves alone of the change dispatch: the log of the change
calls, the change entries, the shared state and the stored snapshot. -/
def changeView (w : World) : List Call × Option (List Entry) × DigitalData × Val :=
  (callsAt .change w.log, getCallbacks "change" w.callbacks, w.digitalData, w.previousDigitalData)

/-- The world after the plain append `events[events.length] = e`. -/
def withAppended (e : Event) (w : World) : World :=
  setEvents (w.digitalData.events ++ [e]) w

/-- A pass of `checkForChanges` on `w` detects a difference: the guard of line
151 holds and `jsonIsEqual` finds the stored snapshot and the fresh one unequal
(line 153). -/
def detectsDifference (env : Env) (w : World) : Bool :=
  hasChangeOrDefine w &&
    !env.jsonIsEqual w.previousDigitalData (_getCopyWithoutEvents w.digitalData)

/-- The shared state and the stored snapshot. -/
def snapshotView (w : World) : DigitalData × Val :=
  (w.digitalData, w.previousDigitalData)

/-- What a pass of `checkForChanges` reads besides the log: the registry, the
data of the shared state and the stored snapshot. -/
def passView (w : World) : List (String × List Entry) × Val × Val :=
  (w.callbacks, w.digitalData.data, w.previousDigitalData)

/-- The define entries of the registry, in registration order. -/
def defineEntries (w : World) : List Entry :=
  (getCallbacks "define" w.callbacks).getD []

/-- The registry entries whose define handler was called, oldest call first. -/
def defineCalled (w : World) : List Nat :=
  (callsAt .define w.log).filterMap Call.entry

/-- No define entry is a duplicate, no entry was called twice, no entry that
was called is still registered, and the identities in use are older than the
next fresh one. -/
structure DefineInv (w : World) : Prop where
  entries : ((defineEntries w).map Entry.id).Nodup
  called : (defineCalled w).Nodup
  removed : ∀ x ∈ defineEntries w, x.id ∉ defineCalled w
  entriesFresh : ∀ x ∈ defineEntries w, x.id < w.nextId
  calledFresh : ∀ id ∈ defineCalled w, id < w.nextId

/-- What decides `DefineInv`: the define calls of the log, the define entries
of the registry and the next fresh identity. -/
def defineView (w : World) : List Call × Option (List Entry) × Nat :=
  (callsAt .define w.log, getCallbacks "define" w.callbacks, w.nextId)

/-- The events queue dispatches and holds the gate event. -/
def Dispatching (w : World) : Prop :=
  w.eventsPush = .tracking ∧ isViewedPageSent w = true

/-- What can happen to a coordinator from outside. -/
inductive Op where
  /-- `digitalData.events.push(e)`. -/
  | append (e : Event)
  /-- A call of `initialize()`. -/
  | init
  /-- A call of `reset()`. -/
  | reset
  /-- `digitalData.changes.push(c)`. -/
  | change (c : ChangeOp)
  /-- `_ddListener.push(c)`. -/
  | command (c : Val)
  /-- The interval fires. -/
  | tick
  /-- `on(eventInfo, handler, processPastEvents)`. -/
  | subscribe (eventInfo handler processPastEvents : Val)

/-- The world after `op`, whether the call returned or threw. -/
def step (env : Env) : Op → World → World
  | .append e, w => (pushEvent env e w).1
  | .init, w => (initializeManager env w).1
  | .reset, w => reset w
  | .change c, w => pushChange env c w
  | .command c, w => (pushListener env c w).1
  | .tick, w => tick env w
  | .subscribe eventInfo handler processPastEvents, w =>
    (subscribe env eventInfo handler processPastEvents w).1

/-- The world after `ops`, one after the other. -/
def run (env : Env) (ops : List Op) (w : World) : World :=
  ops.foldl (fun acc op => step env op acc) w

/-- The gate event has been observed and `w` is the world right after: it was
in the queue at an `initialize()` that returned, or was synthesized by it, or
was appended while the queue was waiting. -/
def GateObserved (env : Env) (w : World) : Prop :=
  (∃ w0 v, initializeManager env w0 = (w, .returned v) ∧
    (isViewedPageSent w0 = true ∨ w0.sendViewedPageEvent = true)) ∨
  (∃ w0 g c, w0.eventsPush = .waiting ∧ g.name = VIEWED_PAGE ∧ pushEvent env g w0 = (w, c))

end EventManager

namespace EventManager

/-! ## Sample worlds -/

/-- A sample environment. Function 1 returns `1`, function 2 throws `'boom'`,
function 3 returns `false`, function 4 throws `0`, every other function returns
`undefined`; `get` and `set`
read and write top-level keys; the enricher adds nothing. -/
def sampleEnv : Env where
  run := fun id _ _ =>
    match id with
    | 1 => .returned (.num 1)
    | 2 => .threw (.str "boom")
    | 3 => .returned (.bool false)
    | 4 => .threw (.num 0)
    | _ => .returned .undefined
  get := fun key object =>
    match object with
    | .obj fields => (fields.lookup key).getD .undefined
    | _ => .undefined
  set := fun key value object =>
    match object with
    | .obj fields => .obj ((key, value) :: fields.filter (fun kv => kv.1 != key))
    | _ => .obj [(key, value)]
  enrich := fun event _ => event
  jsonIsEqual := fun _ _ => false

/-- The event `{ name: 'Clicked Button', callback: f9 }`. -/
def clickedButton : Event :=
  { name := "Clicked Button", callback := some 9 }

/-- `new EventManager({ events: [clickedButton] })` and then
`on('beforeEvent', f3)`, where `f3` returns `false`. -/
def vetoWorld : World :=
  (subscribe sampleEnv (.str "beforeEvent") (.fn 3) .undefined
    (construct (some { events := some [clickedButton] }) none {})).1

/-- `new EventManager({ events: [clickedButton] })` and then `on('event', f0)`,
where `f0` returns `undefined`. -/
def silentWorld : World :=
  (subscribe sampleEnv (.str "event") (.fn 0) .undefined
    (construct (some { events := some [clickedButton] }) none {})).1

/-- The event `{ name: 'Viewed Page' }`. -/
def viewedPage : Event :=
  { name := "Viewed Page" }

/-- `new EventManager({ events: [] }, [])`, then `on('event', f0)`, then
`initialize()`: no "Viewed Page" is queued and the flag is off. -/
def waitingWorld : World :=
  (initializeManager sampleEnv
    (subscribe sampleEnv (.str "event") (.fn 0) .undefined
      (construct (some { events := some [] }) (some []) {})).1).1

/-- `new EventManager({})`, then `on('define', f0)` and `on('define', f1)`: two
define entries without key, whose value (the whole state) is never `undefined`. -/
def twoDefinesWorld : World :=
  (subscribe sampleEnv (.str "define") (.fn 1) .undefined
    (subscribe sampleEnv (.str "define") (.fn 0) .undefined
      (construct (some {}) none {})).1).1

/-- `new EventManager({ events: [viewedPage] })`, then `on('beforeEvent', f2)`,
where `f2` throws, and `on('beforeEvent', f0)`. -/
def throwWorld : World :=
  (subscribe sampleEnv (.str "beforeEvent") (.fn 0) .undefined
    (subscribe sampleEnv (.str "beforeEvent") (.fn 2) .undefined
      (construct (some { events := some [viewedPage] }) none {})).1).1

/-- `new EventManager({ events: [viewedPage] }, [])` and `initialize()`: the
queued "Viewed Page" is fired and the events queue dispatches. -/
def activeWorld : World :=
  (initializeManager sampleEnv (construct (some { events := some [viewedPage] }) (some []) {})).1

/-- `new EventManager({ events: [] }, [])` and `on('event', f0)`: not yet
initialized, no "Viewed Page" queued, the flag off. -/
def freshWorld : World :=
  (subscribe sampleEnv (.str "event") (.fn 0) .undefined
    (construct (some { events := some [] }) (some []) {})).1

/-- `new EventManager({ events: [clickedButton] }, [])`, `on('event', f0)` and
`setSendViewedPageEvent(true)`: no "Viewed Page" queued, the flag on. -/
def forcedWorld : World :=
  setSendViewedPageEvent true
    (subscribe sampleEnv (.str "event") (.fn 0) .undefined
      (construct (some { events := some [clickedButton] }) (some []) {})).1

/-- The event `{ name: 'Added Product', hasFired: true }`. -/
def addedProduct : Event :=
  { name := "Added Product", hasFired := true }

/-- `new EventManager({ events: [addedProduct, viewedPage, clickedButton] }, [])`
and `on('event', f0)`. -/
def queuedWorld : World :=
  (subscribe sampleEnv (.str "event") (.fn 0) .undefined
    (construct (some { events := some (addedProduct :: [viewedPage, clickedButton]) })
      (some []) {})).1

/-- `new EventManager({ events: [viewedPage], changes: [['user.id', '42']] }, [])`
and `on('event', f0)`. -/
def changesWorld : World :=
  (subscribe sampleEnv (.str "event") (.fn 0) .undefined
    (construct (some { events := some [viewedPage], changes := some [("user.id", .str "42")] })
      (some []) {})).1

/-- `new EventManager({ events: [clickedButton] })` and then `on('event', f4)`,
where `f4` throws `0`. -/
def falsyThrowWorld : World :=
  (subscribe sampleEnv (.str "event") (.fn 4) .undefined
    (construct (some { events := some [clickedButton] }) none {})).1

/-- `new EventManager({ events: [clickedButton] })` and then `on('event', f2)`,
`on('event', f1)` and `on('event', f0)`: `f2` throws `'boom'`, `f1` returns `1`
and `f0` returns `undefined`. -/
def mixedWorld : World :=
  (subscribe sampleEnv (.str "event") (.fn 0) .undefined
    (subscribe sampleEnv (.str "event") (.fn 1) .undefined
      (subscribe sampleEnv (.str "event") (.fn 2) .undefined
        (construct (some { events := some [clickedButton] }) none {})).1).1).1

/-- The event `{ name: 'Clicked Button', callback: f2 }`, whose completion
callback throws `'boom'`. -/
def failingButton : Event :=
  { name := "Clicked Button", callback := some 2 }

/-- `new EventManager({ events: [failingButton] })`: nothing is subscribed. -/
def failingWorld : World :=
  construct (some { events := some [failingButton] }) none {}

/-- `new EventManager({ events: [viewedPage, failingButton] }, [])`: "Viewed
Page" is queued, nothing is subscribed, and the completion callback of the
second event throws. -/
def failingQueueWorld : World :=
  construct (some { events := some [viewedPage, failingButton] }) (some []) {}

/-- `new EventManager({ events: [viewedPage, clickedButton] }, [])`, then
`on('beforeEvent', f3)`, where `f3` returns `false`, and `on('event', f0)`. -/
def vetoQueueWorld : World :=
  (subscribe sampleEnv (.str "event") (.fn 0) .undefined
    (subscribe sampleEnv (.str "beforeEvent") (.fn 3) .undefined
      (construct (some { events := some [viewedPage, clickedButton] }) (some []) {})).1).1

/-- `new EventManager({ events: [failingButton] }, [])` and
`setSendViewedPageEvent(true)`: no "Viewed Page" is queued, nothing is
subscribed, and the completion callback of the queued event throws. -/
def forcedFailingWorld : World :=
  setSendViewedPageEvent true
    (construct (some { events := some [failingButton] }) (some []) {})

/-- `new EventManager({ events: [clickedButton] }, [])`, `on('beforeEvent', f3)`,
where `f3` returns `false`, `on('event', f0)` and `setSendViewedPageEvent(true)`. -/
def forcedVetoWorld : World :=
  setSendViewedPageEvent true
    (subscribe sampleEnv (.str "event") (.fn 0) .undefined
      (subscribe sampleEnv (.str "beforeEvent") (.fn 3) .undefined
        (construct (some { events := some [clickedButton] }) (some []) {})).1).1

/-- `new EventManager({ events: [clickedButton] })`: nothing is subscribed. -/
def plainWorld : World :=
  construct (some { events := some [clickedButton] }) none {}

/-- `new EventManager({ events: [viewedPage, clickedButton] }, [])` and
`initialize()`: both events are fired. -/
def replayWorld : World :=
  (initializeManager sampleEnv
    (construct (some { events := some [viewedPage, clickedButton] }) (some []) {})).1

/-- `new EventManager({ events: [viewedPage] }, [])`, `on('event', f4)`,
`on('event', f2)` and `initialize()`: the events queue dispatches to `f4`, which
throws `0`, and `f2`, which throws `'boom'`. -/
def dispatchingWorld : World :=
  (initializeManager sampleEnv
    (subscribe sampleEnv (.str "event") (.fn 2) .undefined
      (subscribe sampleEnv (.str "event") (.fn 4) .undefined
        (construct (some { events := some [viewedPage] }) (some []) {})).1).1).1

/-- A coordinator constructed anew, with nothing subscribed, over the shared
state that `reset()` leaves of `activeWorld`. -/
def rebuiltWorld : World :=
  construct (some
    { data := (reset activeWorld).digitalData.data
      events := some (reset activeWorld).digitalData.events
      changes := some (reset activeWorld).digitalData.changes }) (some []) {}

mutual
/-- Structural equality of two values. -/
def Val.eqv : Val → Val → Bool
  | .undefined, .undefined => true
  | .null, .null => true
  | .bool a, .bool b => a == b
  | .num a, .num b => a == b
  | .str a, .str b => a == b
  | .fn a, .fn b => a == b
  | .arr a, .arr b => Val.eqvList a b
  | .obj a, .obj b => Val.eqvFields a b
  | _, _ => false
/-- Structural equality of two arrays. -/
def Val.eqvList : List Val → List Val → Bool
  | [], [] => true
  | a :: as, b :: bs => Val.eqv a b && Val.eqvList as bs
  | _, _ => false
/-- Structural equality of the properties of two objects. -/
def Val.eqvFields : List (String × Val) → List (String × Val) → Bool
  | [], [] => true
  | (k, a) :: as, (l, b) :: bs => k == l && Val.eqv a b && Val.eqvFields as bs
  | _, _ => false
end

/-- The sample environment with structural equality as `jsonIsEqual`. -/
def structEnv : Env :=
  { sampleEnv with jsonIsEqual := Val.eqv }

/-- An initialized coordinator with two change subscriptions, `change:user.id`
with `f0` and `change` with `f1`, after `changes.push(['user.id', '42'])`. -/
def changedWorld : World :=
  pushChange structEnv ("user.id", .str "42")
    (initializeManager structEnv
      (subscribe structEnv (.str "change") (.fn 1) .undefined
        (subscribe structEnv (.str "change:user.id") (.fn 0) .undefined
          (construct (some { events := some [] }) (some []) {})).1).1).1

end EventManager

namespace EventManager

theorem core_call (env : Env) (site : Site) (entry : Option Nat) (f : Val) (args : List Arg)
    (w : World) : core (call env site entry f args w).1 = core w := by
  unfold call
  cases f <;> rfl

theorem core_logError (e : Val) (w : World) : core (logError e w) = core w := rfl

theorem core_beforeFireEventLoop (env : Env) (event : Event) (entries : List Entry) (w : World) :
    core (beforeFireEventLoop env event entries w).1 = core w := by
  induction entries generalizing w with
  | nil => rfl
  | cons x rest ih =>
    have hc := core_call env .beforeEvent (some x.id) x.handler [.event event] w
    simp only [beforeFireEventLoop]
    rcases h : call env .beforeEvent (some x.id) x.handler [.event event] w with ⟨w1, c⟩
    rw [h] at hc
    cases c with
    | threw e => exact hc
    | returned r =>
      simp only
      split
      · exact hc
      · rw [ih]; exact hc

theorem core_beforeFireEvent (env : Env) (event : Event) (w : World) :
    core (beforeFireEvent env event w).1 = core w := by
  unfold beforeFireEvent
  split
  · rfl
  · exact core_beforeFireEventLoop env event _ w

theorem core_ready (env : Env) (i times : Nat) (agg : Aggregate) (w : World) :
    core (ready env i times agg w).2.1 = core w := by
  unfold ready
  simp only
  split
  · split
    · exact core_call _ _ _ _ _ _
    · rfl
  · rfl

theorem core_eventCallbackOnComplete (env : Env) (i times : Nat) (error result : Val)
    (agg : Aggregate) (w : World) :
    core (eventCallbackOnComplete env i times error result agg w).2.1 = core w := by
  unfold eventCallbackOnComplete
  exact core_ready _ _ _ _ _

theorem core_fireEventCatch (env : Env) (i times : Nat) (e : Val) (agg : Aggregate) (w : World) :
    core (fireEventCatch env i times e agg w).2.1 = core w := by
  have h := core_eventCallbackOnComplete env i times e .undefined agg w
  unfold fireEventCatch
  generalize eventCallbackOnComplete env i times e .undefined agg w = r at h ⊢
  rcases r with ⟨a, w1, c⟩
  cases c <;> exact h

theorem core_fireEventLoop (env : Env) (i times : Nat) (entries : List Entry)
    (agg : Aggregate) (w : World) :
    core (fireEventLoop env i times entries agg w).2.1 = core w := by
  induction entries generalizing agg w with
  | nil => rfl
  | cons x rest ih =>
    simp only [fireEventLoop]
    cases hev : w.digitalData.events[i]? with
    | none => rfl
    | some event =>
      simp only
      have hc := core_call env .event (some x.id) x.handler
        [.event (eventCopyFor env event w)] w
      generalize call env .event (some x.id) x.handler
        [.event (eventCopyFor env event w)] w = r at hc ⊢
      rcases r with ⟨w1, c⟩
      cases c with
      | returned result =>
        simp only
        have h2 := core_eventCallbackOnComplete env i times .null result agg w1
        generalize eventCallbackOnComplete env i times .null result agg w1 = r2 at h2 ⊢
        rcases r2 with ⟨a2, w2, c2⟩
        cases c2 with
        | returned v => simp only; rw [ih]; exact h2.trans hc
        | threw e =>
          simp only
          have h3 := core_fireEventCatch env i times e a2 w2
          generalize fireEventCatch env i times e a2 w2 = r3 at h3 ⊢
          rcases r3 with ⟨a3, w3, c3⟩
          cases c3 with
          | threw e3 => exact h3.trans (h2.trans hc)
          | returned v => simp only; rw [ih]; exact h3.trans (h2.trans hc)
      | threw e =>
        simp only
        have h3 := core_fireEventCatch env i times e agg w1
        generalize fireEventCatch env i times e agg w1 = r3 at h3 ⊢
        rcases r3 with ⟨a3, w3, c3⟩
        cases c3 with
        | threw e3 => exact h3.trans hc
        | returned v => simp only; rw [ih]; exact h3.trans hc

end EventManager

namespace EventManager

theorem recordOutcome_readyCalls (o : Completion) (agg : Aggregate) :
    (recordOutcome o agg).readyCalls = agg.readyCalls := by
  unfold recordOutcome
  cases o <;> simp only <;> split <;> rfl

theorem digitalData_of_core {a b : World} (h : core a = core b) :
    a.digitalData = b.digitalData := by
  have h1 := congrArg World.digitalData h
  exact h1

theorem callbacks_of_core {a b : World} (h : core a = core b) : a.callbacks = b.callbacks := by
  have h1 := congrArg World.callbacks h
  exact h1

theorem call_digitalData (env : Env) (site : Site) (entry : Option Nat) (f : Val)
    (args : List Arg) (w : World) :
    (call env site entry f args w).1.digitalData = w.digitalData :=
  digitalData_of_core (core_call env site entry f args w)

theorem callsAt_append (site : Site) (a b : List Call) :
    callsAt site (a ++ b) = callsAt site a ++ callsAt site b := by
  simp [callsAt]

theorem callsAt_single (site : Site) (entry : Option Nat) (f : Nat) (args : List Arg)
    (dd : DigitalData) :
    callsAt site [⟨site, entry, f, args, dd⟩] = [⟨site, entry, f, args, dd⟩] := by
  simp [callsAt]

theorem callsAt_call_ne (env : Env) (site site1 : Site) (entry : Option Nat) (f : Val)
    (args : List Arg) (w : World) (h : site1 ≠ site) :
    callsAt site (call env site1 entry f args w).1.log = callsAt site w.log := by
  unfold call
  cases f <;> simp [callsAt, h]

theorem callsAt_logError (site : Site) (e : Val) (w : World) :
    callsAt site (logError e w).log = callsAt site w.log := rfl

theorem ready_skip (env : Env) (i times : Nat) (agg : Aggregate) (w : World)
    (h : agg.readyCalls + 1 ≠ times) :
    ready env i times agg w = (counted agg, w, .returned .undefined) := by
  simp [ready, afterFires, h, counted]

theorem ready_fire (env : Env) (i times : Nat) (agg : Aggregate) (w : World) (event : Event)
    (f : Nat) (h : agg.readyCalls + 1 = times) (hev : w.digitalData.events[i]? = some event)
    (hcb : event.callback = some f) :
    ready env i times agg w =
      (counted agg,
        { w with log := w.log ++
          [⟨.completion, none, f, [.list agg.results, .list agg.errors], w.digitalData⟩] },
        env.run f [.list agg.results, .list agg.errors] w.digitalData) := by
  simp [ready, afterFires, h, hev, hcb, call, counted]

theorem onComplete_returned (env : Env) (i times : Nat) (result : Val) (agg : Aggregate)
    (w : World) :
    eventCallbackOnComplete env i times .null result agg w =
      ready env i times (recordOutcome (.returned result) agg) w := by
  unfold eventCallbackOnComplete recordOutcome
  by_cases h : result.isDefined <;> simp [h, Val.truthy]

theorem onComplete_threw (env : Env) (i times : Nat) (e : Val) (agg : Aggregate) (w : World) :
    eventCallbackOnComplete env i times e .undefined agg w =
      ready env i times (recordOutcome (.threw e) agg) w := by
  unfold eventCallbackOnComplete recordOutcome
  by_cases h : e.truthy <;> simp [h, Val.isDefined]

end EventManager

namespace EventManager

theorem fireEventCatch_skip (env : Env) (i times : Nat) (e : Val) (agg : Aggregate) (w : World)
    (h : agg.readyCalls + 1 ≠ times) :
    fireEventCatch env i times e agg w =
      (counted (recordOutcome (.threw e) agg), logError e w, .returned .undefined) := by
  unfold fireEventCatch
  rw [onComplete_threw, ready_skip _ _ _ _ _ (by rw [recordOutcome_readyCalls]; exact h)]

theorem fireEventLoop_completion (env : Env) (i times : Nat) (event : Event) (f : Nat)
    (Q : Aggregate → Prop) (entries : List Entry) (hcb : event.callback = some f) :
    ∀ (agg : Aggregate) (w : World),
      w.digitalData.events[i]? = some event →
      entries ≠ [] →
      agg.readyCalls + entries.length = times →
      Q agg →
      (∀ x ∈ entries, ∀ args w1 a, Q a →
        Q (counted (recordOutcome (call env .event (some x.id) x.handler args w1).2 a))) →
      ∃ a, Q a ∧ a.readyCalls = times ∧
        callsAt .completion (fireEventLoop env i times entries agg w).2.1.log =
          callsAt .completion w.log ++
            [⟨.completion, none, f, [.list a.results, .list a.errors], w.digitalData⟩] := by
  induction entries with
  | nil => intro agg w _ hne; exact absurd rfl hne
  | cons x rest ih =>
    intro agg w hev _ hcount hQ hstep
    have hdd := call_digitalData env .event (some x.id) x.handler
      [.event (eventCopyFor env event w)] w
    have hlog := callsAt_call_ne env .completion .event (some x.id) x.handler
      [.event (eventCopyFor env event w)] w (by decide)
    have hQ1 := hstep x (List.mem_cons_self _ _) [.event (eventCopyFor env event w)] w agg hQ
    simp only [fireEventLoop, hev]
    generalize call env .event (some x.id) x.handler
      [.event (eventCopyFor env event w)] w = r at hdd hlog hQ1 ⊢
    rcases r with ⟨w1, o⟩
    simp only at hdd hlog hQ1
    have hev1 : w1.digitalData.events[i]? = some event := by rw [hdd]; exact hev
    by_cases hrest : rest = []
    · subst hrest
      have hfire : agg.readyCalls + 1 = times := by simpa using hcount
      have hfire1 : (recordOutcome o agg).readyCalls + 1 = times := by
        rw [recordOutcome_readyCalls]; exact hfire
      refine ⟨counted (recordOutcome o agg), hQ1, hfire1, ?_⟩
      · cases o with
        | returned result =>
          simp only [onComplete_returned]
          rw [ready_fire env i times _ w1 event f hfire1 hev1 hcb]
          generalize env.run f _ w1.digitalData = c
          cases c with
          | returned v => simp [fireEventLoop, callsAt_append, hlog, hdd, callsAt_single, counted]
          | threw e =>
            simp only
            rw [fireEventCatch_skip _ _ _ _ _ _ (by simp [counted]; omega)]
            simp [fireEventLoop, callsAt_append, hlog, hdd, callsAt_single, counted, logError]
        | threw e =>
          simp only [fireEventCatch, onComplete_threw]
          rw [ready_fire env i times _ w1 event f hfire1 hev1 hcb]
          generalize env.run f _ w1.digitalData = c
          cases c with
          | returned v => simp [fireEventLoop, callsAt_append, hlog, hdd, callsAt_single, counted, logError]
          | threw e => simp [fireEventLoop, callsAt_append, hlog, hdd, callsAt_single, counted]
    · have hlen : 0 < rest.length := List.length_pos.mpr hrest
      have hskip : agg.readyCalls + 1 ≠ times := by simp at hcount; omega
      have hskip1 : (recordOutcome o agg).readyCalls + 1 ≠ times := by
        rw [recordOutcome_readyCalls]; exact hskip
      have hstep1 : ∀ y ∈ rest, ∀ args w1 a, Q a →
          Q (counted (recordOutcome (call env .event (some y.id) y.handler args w1).2 a)) :=
        fun y hy => hstep y (List.mem_cons_of_mem _ hy)
      cases o with
      | returned result =>
        simp only [onComplete_returned]
        rw [ready_skip _ _ _ _ _ hskip1]
        simp only
        obtain ⟨a, ha, hat, hcalls⟩ := ih (counted (recordOutcome (.returned result) agg)) w1
          hev1 hrest (by simp [counted, recordOutcome_readyCalls]; simp at hcount; omega) hQ1 hstep1
        exact ⟨a, ha, hat, by rw [← hlog, ← hdd]; exact hcalls⟩
      | threw e =>
        simp only
        rw [fireEventCatch_skip _ _ _ _ _ _ hskip]
        simp only
        obtain ⟨a, ha, hat, hcalls⟩ := ih (counted (recordOutcome (.threw e) agg)) (logError e w1)
          hev1 hrest (by simp [counted, recordOutcome_readyCalls]; simp at hcount; omega) hQ1 hstep1
        exact ⟨a, ha, hat, by rw [← hlog, ← hdd]; exact hcalls⟩

end EventManager

namespace EventManager

theorem callsAt_beforeFireEventLoop (env : Env) (event : Event) (site : Site)
    (hs : site ≠ .beforeEvent) (entries : List Entry) (w : World) :
    callsAt site (beforeFireEventLoop env event entries w).1.log = callsAt site w.log := by
  induction entries generalizing w with
  | nil => rfl
  | cons x rest ih =>
    have hc := callsAt_call_ne env site .beforeEvent (some x.id) x.handler [.event event] w
      (Ne.symm hs)
    simp only [beforeFireEventLoop]
    generalize call env .beforeEvent (some x.id) x.handler [.event event] w = r at hc ⊢
    rcases r with ⟨w1, c⟩
    cases c with
    | threw e => exact hc
    | returned r =>
      simp only
      split
      · exact hc
      · rw [ih]; exact hc

theorem callsAt_beforeFireEvent (env : Env) (event : Event) (site : Site)
    (hs : site ≠ .beforeEvent) (w : World) :
    callsAt site (beforeFireEvent env event w).1.log = callsAt site w.log := by
  unfold beforeFireEvent
  split
  · rfl
  · exact callsAt_beforeFireEventLoop env event site hs _ w

theorem beforeFireEventLoop_pass (env : Env) (event : Event) (entries : List Entry) (w : World)
    (h : ∀ b ∈ entries, Passes env b.handler event) :
    (beforeFireEventLoop env event entries w).2 = .returned (.bool true) := by
  induction entries generalizing w with
  | nil => rfl
  | cons x rest ih =>
    obtain ⟨v, hv, hf⟩ := h x (List.mem_cons_self _ _) (some x.id) w
    simp only [beforeFireEventLoop]
    generalize call env .beforeEvent (some x.id) x.handler [.event event] w = r at hv ⊢
    rcases r with ⟨w1, c⟩
    simp only at hv
    subst hv
    simp only [hf]
    exact ih w1 (fun b hb => h b (List.mem_cons_of_mem _ hb))

theorem beforeFireEvent_pass (env : Env) (event : Event) (w : World)
    (h : GateOpen env event w.callbacks) :
    (beforeFireEvent env event w).2 = .returned (.bool true) := by
  unfold beforeFireEvent
  cases hreg : getCallbacks "beforeEvent" w.callbacks with
  | none => rfl
  | some entries => exact beforeFireEventLoop_pass env event entries w (h entries hreg)

theorem beforeFireEventLoop_veto (env : Env) (event : Event) (pre post : List Entry) (x : Entry)
    (w : World) (hpre : ∀ b ∈ pre, Passes env b.handler event) (hx : Vetoes env x.handler event) :
    (beforeFireEventLoop env event (pre ++ x :: post) w).2 = .returned (.bool false) := by
  induction pre generalizing w with
  | nil =>
    have hv := hx (some x.id) w
    simp only [List.nil_append, beforeFireEventLoop]
    generalize call env .beforeEvent (some x.id) x.handler [.event event] w = r at hv ⊢
    rcases r with ⟨w1, c⟩
    simp only at hv
    subst hv
    rfl
  | cons p rest ih =>
    obtain ⟨v, hv, hf⟩ := hpre p (List.mem_cons_self _ _) (some p.id) w
    simp only [List.cons_append, beforeFireEventLoop]
    generalize call env .beforeEvent (some p.id) p.handler [.event event] w = r at hv ⊢
    rcases r with ⟨w1, c⟩
    simp only at hv
    subst hv
    simp only [hf]
    exact ih w1 (fun b hb => hpre b (List.mem_cons_of_mem _ hb))

theorem withTimestamp_hasFired (now : Nat) (event : Event) :
    (withTimestamp now event).hasFired = event.hasFired := by
  unfold withTimestamp; split <;> rfl

theorem withTimestamp_callback (now : Nat) (event : Event) :
    (withTimestamp now event).callback = event.callback := by
  unfold withTimestamp; split <;> rfl

theorem withTimestamp_name (now : Nat) (event : Event) :
    (withTimestamp now event).name = event.name := by
  unfold withTimestamp; split <;> rfl

theorem getElem?_set_of_getElem? {α : Type} (l : List α) (i : Nat) (a b : α)
    (h : l[i]? = some a) : (l.set i b)[i]? = some b := by
  have hi : i < l.length := by
    rcases List.getElem?_eq_some.mp h with ⟨hi, _⟩
    exact hi
  exact List.getElem?_set_self hi

theorem markFired_log (i : Nat) (w : World) : (markFired i w).log = w.log := by
  unfold markFired; split <;> rfl

end EventManager

namespace EventManager

/-- What `fireEvent` does once the beforeEvent gate has let the event through
and event handlers are registered. -/
theorem fireEvent_open_some (env : Env) (i : Nat) (w : World) (event : Event)
    (entries : List Entry)
    (hev : w.digitalData.events[i]? = some event)
    (hgate : GateOpen env (withTimestamp w.now event) w.callbacks)
    (hreg : getCallbacks "event" w.callbacks = some entries) :
    ∃ w1, core w1 = core (setEvents (w.digitalData.events.set i (withTimestamp w.now event)) w) ∧
      (∀ site, site ≠ .beforeEvent → callsAt site w1.log = callsAt site w.log) ∧
      fireEvent env i w =
        match fireEventLoop env i entries.length entries {} w1 with
        | (_, w2, .threw e) => (w2, .threw e)
        | (_, w2, .returned _) => (markFired i w2, .returned .undefined) := by
  have hb := beforeFireEvent_pass env (withTimestamp w.now event)
    (setEvents (w.digitalData.events.set i (withTimestamp w.now event)) w) hgate
  have hbl := fun site hs => callsAt_beforeFireEvent env (withTimestamp w.now event) site hs
    (setEvents (w.digitalData.events.set i (withTimestamp w.now event)) w)
  have hbc := core_beforeFireEvent env (withTimestamp w.now event)
    (setEvents (w.digitalData.events.set i (withTimestamp w.now event)) w)
  simp only [fireEvent, fireEventHandlers, hev]
  generalize beforeFireEvent env (withTimestamp w.now event)
    (setEvents (w.digitalData.events.set i (withTimestamp w.now event)) w) = r at hb hbl hbc ⊢
  rcases r with ⟨w1, c⟩
  simp only at hb hbl hbc
  subst hb
  have hcbs : w1.callbacks = w.callbacks := by
    have h1 := callbacks_of_core hbc
    exact h1
  refine ⟨w1, hbc, hbl, ?_⟩
  simp [Val.truthy, hcbs, hreg]

/-- What `fireEvent` does once the beforeEvent gate has let the event through
and no event handler is registered. -/
theorem fireEvent_open_none (env : Env) (i : Nat) (w : World) (event : Event)
    (hev : w.digitalData.events[i]? = some event)
    (hgate : GateOpen env (withTimestamp w.now event) w.callbacks)
    (hreg : getCallbacks "event" w.callbacks = none) :
    ∃ w1, core w1 = core (setEvents (w.digitalData.events.set i (withTimestamp w.now event)) w) ∧
      (∀ site, site ≠ .beforeEvent → callsAt site w1.log = callsAt site w.log) ∧
      fireEvent env i w =
        match event.callback with
        | some f =>
          match call env .completion none (.fn f) [] w1 with
          | (w2, .threw e) => (w2, .threw e)
          | (w2, .returned _) => (markFired i w2, .returned .undefined)
        | none => (markFired i w1, .returned .undefined) := by
  have hb := beforeFireEvent_pass env (withTimestamp w.now event)
    (setEvents (w.digitalData.events.set i (withTimestamp w.now event)) w) hgate
  have hbl := fun site hs => callsAt_beforeFireEvent env (withTimestamp w.now event) site hs
    (setEvents (w.digitalData.events.set i (withTimestamp w.now event)) w)
  have hbc := core_beforeFireEvent env (withTimestamp w.now event)
    (setEvents (w.digitalData.events.set i (withTimestamp w.now event)) w)
  simp only [fireEvent, fireEventHandlers, hev]
  generalize beforeFireEvent env (withTimestamp w.now event)
    (setEvents (w.digitalData.events.set i (withTimestamp w.now event)) w) = r at hb hbl hbc ⊢
  rcases r with ⟨w1, c⟩
  simp only at hb hbl hbc
  subst hb
  have hcbs : w1.callbacks = w.callbacks := by
    have h1 := callbacks_of_core hbc
    exact h1
  refine ⟨w1, hbc, hbl, ?_⟩
  simp [Val.truthy, hcbs, hreg, withTimestamp_callback]

theorem events_of_core_setEvents {w1 w : World} {events : List Event}
    (h : core w1 = core (setEvents events w)) : w1.digitalData.events = events := by
  have h1 := digitalData_of_core h
  rw [h1]; rfl

/-- The completion call made by `fireEvent` when event handlers are registered. -/
theorem fireEvent_completion_call (env : Env) (i : Nat) (w : World) (event : Event) (f : Nat)
    (entries : List Entry) (Q : Aggregate → Prop)
    (hev : w.digitalData.events[i]? = some event)
    (hcb : event.callback = some f)
    (hgate : GateOpen env (withTimestamp w.now event) w.callbacks)
    (hreg : getCallbacks "event" w.callbacks = some entries)
    (hne : entries ≠ [])
    (hQ : Q {})
    (hstep : ∀ x ∈ entries, ∀ args w1 a, Q a →
      Q (counted (recordOutcome (call env .event (some x.id) x.handler args w1).2 a))) :
    ∃ a, Q a ∧ a.readyCalls = entries.length ∧
      callsAt .completion (fireEvent env i w).1.log =
        callsAt .completion w.log ++ [⟨.completion, none, f,
          [.list a.results, .list a.errors],
          (setEvents (w.digitalData.events.set i (withTimestamp w.now event)) w).digitalData⟩] := by
  obtain ⟨w1, hcore, hlog, heq⟩ := fireEvent_open_some env i w event entries hev hgate hreg
  have hev1 : w1.digitalData.events[i]? = some (withTimestamp w.now event) := by
    rw [events_of_core_setEvents hcore]
    exact getElem?_set_of_getElem? _ _ _ _ hev
  obtain ⟨a, ha, hat, hcalls⟩ := fireEventLoop_completion env i entries.length
    (withTimestamp w.now event) f Q entries (by rw [withTimestamp_callback]; exact hcb)
    {} w1 hev1 hne (by simp) hQ hstep
  refine ⟨a, ha, hat, ?_⟩
  rw [heq, ← hlog .completion (by decide), ← digitalData_of_core hcore, ← hcalls]
  generalize fireEventLoop env i entries.length entries {} w1 = r
  rcases r with ⟨a2, w2, c⟩
  cases c with
  | returned v => simp only [markFired_log]
  | threw e => rfl

end EventManager

namespace EventManager

theorem callsAt_call_same (env : Env) (site : Site) (entry : Option Nat) (f : Val)
    (args : List Arg) (w : World) :
    callsAt site (call env site entry f args w).1.log =
      callsAt site w.log ++
        ((fnId f).map (fun id => (⟨site, entry, id, args, w.digitalData⟩ : Call))).toList := by
  unfold call
  cases f <;> simp [callsAt, fnId]

theorem ready_returns (env : Env) (i times : Nat) (agg : Aggregate) (w : World) (event : Event)
    (hev : w.digitalData.events[i]? = some event) (hret : CallbackReturns env event) :
    ∃ a w2 v, ready env i times agg w = (a, w2, .returned v) ∧ core w2 = core w ∧
      callsAt .event w2.log = callsAt .event w.log := by
  by_cases h : agg.readyCalls + 1 = times
  · cases hcb : event.callback with
    | none =>
      refine ⟨counted agg, w, .undefined, ?_, rfl, rfl⟩
      simp [ready, afterFires, h, hev, hcb, counted]
    | some f =>
      obtain ⟨v, hv⟩ := hret f hcb [.list agg.results, .list agg.errors] w.digitalData
      rw [ready_fire env i times agg w event f h hev hcb, hv]
      exact ⟨_, _, v, rfl, rfl, by simp [callsAt]⟩
  · exact ⟨counted agg, w, .undefined, ready_skip env i times agg w h, rfl, rfl⟩

theorem fireEventCatch_returns (env : Env) (i times : Nat) (e : Val) (agg : Aggregate)
    (w : World) (event : Event)
    (hev : w.digitalData.events[i]? = some event) (hret : CallbackReturns env event) :
    ∃ a w2 v, fireEventCatch env i times e agg w = (a, w2, .returned v) ∧ core w2 = core w ∧
      callsAt .event w2.log = callsAt .event w.log := by
  obtain ⟨a, w2, v, heq, hcore, hlog⟩ :=
    ready_returns env i times (recordOutcome (.threw e) agg) w event hev hret
  refine ⟨a, logError e w2, .undefined, ?_, hcore, hlog⟩
  unfold fireEventCatch
  rw [onComplete_threw, heq]

theorem eventCopyFor_congr (env : Env) (event : Event) {w1 w : World}
    (h : w1.digitalData = w.digitalData) : eventCopyFor env event w1 = eventCopyFor env event w := by
  unfold eventCopyFor
  rw [h]

/-- The handler loop of `fireEvent` calls every function among the handlers
once, in order, with the copy of the event, and returns, when the completion
callback of the event does not throw. -/
theorem fireEventLoop_dispatch (env : Env) (i times : Nat) (event : Event)
    (hret : CallbackReturns env event) (entries : List Entry) :
    ∀ (agg : Aggregate) (w : World), w.digitalData.events[i]? = some event →
      ∃ a w2 v, fireEventLoop env i times entries agg w = (a, w2, .returned v) ∧
        core w2 = core w ∧
        callsAt .event w2.log = callsAt .event w.log ++
          entries.filterMap (eventCallOf (eventCopyFor env event w) w.digitalData) := by
  induction entries with
  | nil => intro agg w _; exact ⟨agg, w, .undefined, rfl, rfl, by simp⟩
  | cons x rest ih =>
    intro agg w hev
    have hcc := core_call env .event (some x.id) x.handler
      [.event (eventCopyFor env event w)] w
    have hlog := callsAt_call_same env .event (some x.id) x.handler
      [.event (eventCopyFor env event w)] w
    simp only [fireEventLoop, hev]
    generalize call env .event (some x.id) x.handler
      [.event (eventCopyFor env event w)] w = r at hcc hlog ⊢
    rcases r with ⟨w1, o⟩
    simp only at hcc hlog
    have hev1 : w1.digitalData.events[i]? = some event := by
      rw [digitalData_of_core hcc]; exact hev
    have key : ∀ (a2 : Aggregate) (w2 : World), core w2 = core w1 →
        callsAt .event w2.log = callsAt .event w1.log →
        ∃ a w3 v, fireEventLoop env i times rest a2 w2 = (a, w3, .returned v) ∧
          core w3 = core w ∧
          callsAt .event w3.log = callsAt .event w.log ++
            (x :: rest).filterMap (eventCallOf (eventCopyFor env event w) w.digitalData) := by
      intro a2 w2 hc2 hl2
      have hev2 : w2.digitalData.events[i]? = some event := by
        rw [digitalData_of_core hc2]; exact hev1
      obtain ⟨a, w3, v, heq, hc3, hl3⟩ := ih a2 w2 hev2
      refine ⟨a, w3, v, heq, hc3.trans (hc2.trans hcc), ?_⟩
      rw [hl3, hl2, hlog, eventCopyFor_congr env event (digitalData_of_core (hc2.trans hcc)),
        digitalData_of_core (hc2.trans hcc)]
      cases hf : fnId x.handler <;> simp [List.filterMap_cons, eventCallOf, hf]
    cases o with
    | returned result =>
      simp only [onComplete_returned]
      obtain ⟨a2, w2, v2, heq2, hc2, hl2⟩ :=
        ready_returns env i times (recordOutcome (.returned result) agg) w1 event hev1 hret
      rw [heq2]
      exact key a2 w2 hc2 hl2
    | threw e =>
      simp only
      obtain ⟨a2, w2, v2, heq2, hc2, hl2⟩ :=
        fireEventCatch_returns env i times e agg w1 event hev1 hret
      rw [heq2]
      exact key a2 w2 hc2 hl2

end EventManager

namespace EventManager

theorem eventCopyFor_name (env : Env) (henrich : ∀ e dd, (env.enrich e dd).name = e.name)
    (event : Event) (w : World) : (eventCopyFor env event w).name = event.name := by
  unfold eventCopyFor
  simp only
  split
  · rw [henrich]
  · rfl

theorem core_setEvents_congr {a b : World} (events : List Event) (h : core a = core b) :
    core (setEvents events a) = core (setEvents events b) := by
  have h1 : core (setEvents events a) = setEvents events (core a) := rfl
  have h2 : core (setEvents events b) = setEvents events (core b) := rfl
  rw [h1, h2, h]

theorem markFired_of_getElem? (i : Nat) (w : World) (event : Event)
    (h : w.digitalData.events[i]? = some event) :
    markFired i w = setEvents (w.digitalData.events.set i { event with hasFired := true }) w := by
  unfold markFired
  rw [h]

theorem dispatched_append (a b : List Call) :
    dispatched (a ++ b) = dispatched a ++ dispatched b := by
  simp [dispatched, callsAt_append]

theorem dispatched_of_callsAt {l1 l2 : List Call} (h : callsAt .event l1 = callsAt .event l2) :
    dispatched l1 = dispatched l2 := by
  unfold dispatched
  rw [h]

theorem filterMap_dispatchOf_map (e : Event) (dd : DigitalData) (entries : List Entry) :
    (entries.filterMap (eventCallOf e dd)).filterMap dispatchOf =
      (entries.filterMap (fun x => fnId x.handler)).map (fun id => (id, e.name)) := by
  induction entries with
  | nil => rfl
  | cons x rest ih =>
    cases hf : fnId x.handler <;> simp [List.filterMap_cons, eventCallOf, hf, dispatchOf, ih]

theorem CallbackReturns_withTimestamp (env : Env) (now : Nat) (event : Event)
    (h : CallbackReturns env event) : CallbackReturns env (withTimestamp now event) := by
  intro f hf
  rw [withTimestamp_callback] at hf
  exact h f hf

/-- One `fireEvent` with the gate open and a completion callback that does not
throw: it returns, marks the event as fired, and dispatches the event once to
every function among the event handlers, in registration order. -/
theorem fireEvent_dispatch (env : Env) (henrich : ∀ e dd, (env.enrich e dd).name = e.name)
    (i : Nat) (w : World) (event : Event)
    (hev : w.digitalData.events[i]? = some event)
    (hgate : GateOpen env (withTimestamp w.now event) w.callbacks)
    (hret : CallbackReturns env event) :
    ∃ w1, fireEvent env i w = (w1, .returned .undefined) ∧
      core w1 = core (setEvents
        (w.digitalData.events.set i { withTimestamp w.now event with hasFired := true }) w) ∧
      dispatched w1.log =
        dispatched w.log ++ (eventHandlers w.callbacks).map (fun id => (id, event.name)) := by
  have hret1 := CallbackReturns_withTimestamp env w.now event hret
  cases hreg : getCallbacks "event" w.callbacks with
  | some entries =>
    obtain ⟨w1, hcore, hlog, heq⟩ := fireEvent_open_some env i w event entries hev hgate hreg
    have hev1 : w1.digitalData.events[i]? = some (withTimestamp w.now event) := by
      rw [events_of_core_setEvents hcore]
      exact getElem?_set_of_getElem? _ _ _ _ hev
    obtain ⟨a, w2, v, hloop, hc2, hl2⟩ := fireEventLoop_dispatch env i entries.length
      (withTimestamp w.now event) hret1 entries {} w1 hev1
    have hev2 : w2.digitalData.events[i]? = some (withTimestamp w.now event) := by
      rw [digitalData_of_core hc2]; exact hev1
    refine ⟨markFired i w2, ?_, ?_, ?_⟩
    · rw [heq, hloop]
    · rw [markFired_of_getElem? i w2 _ hev2, core_setEvents_congr _ (hc2.trans hcore)]
      rw [digitalData_of_core hc2, events_of_core_setEvents hcore]
      simp [setEvents, List.set_set]
    · rw [markFired_log]
      unfold dispatched
      rw [hl2, hlog .event (by decide), List.filterMap_append, filterMap_dispatchOf_map,
        eventCopyFor_name env henrich, withTimestamp_name]
      simp [eventHandlers, hreg]
  | none =>
    obtain ⟨w1, hcore, hlog, heq⟩ := fireEvent_open_none env i w event hev hgate hreg
    have hev1 : w1.digitalData.events[i]? = some (withTimestamp w.now event) := by
      rw [events_of_core_setEvents hcore]
      exact getElem?_set_of_getElem? _ _ _ _ hev
    have hfin : ∀ w2, core w2 = core w1 → callsAt .event w2.log = callsAt .event w1.log →
        core (markFired i w2) = core (setEvents
          (w.digitalData.events.set i { withTimestamp w.now event with hasFired := true }) w) ∧
        dispatched (markFired i w2).log =
          dispatched w.log ++ (eventHandlers w.callbacks).map (fun id => (id, event.name)) := by
      intro w2 hc2 hl2
      have hev2 : w2.digitalData.events[i]? = some (withTimestamp w.now event) := by
        rw [digitalData_of_core hc2]; exact hev1
      constructor
      · rw [markFired_of_getElem? i w2 _ hev2, core_setEvents_congr _ (hc2.trans hcore)]
        rw [digitalData_of_core hc2, events_of_core_setEvents hcore]
        simp [setEvents, List.set_set]
      · rw [markFired_log]
        unfold dispatched
        rw [hl2, hlog .event (by decide)]
        simp [eventHandlers, hreg]
    cases hcb : event.callback with
    | none =>
      refine ⟨markFired i w1, ?_, (hfin w1 rfl rfl).1, (hfin w1 rfl rfl).2⟩
      rw [heq, hcb]
    | some f =>
      obtain ⟨v, hv⟩ := hret f hcb [] w1.digitalData
      have h2 := hfin { w1 with log := w1.log ++ [⟨.completion, none, f, [], w1.digitalData⟩] } rfl
        (by simp [callsAt])
      refine ⟨markFired i { w1 with log := w1.log ++
        [⟨.completion, none, f, [], w1.digitalData⟩] }, ?_, h2.1, h2.2⟩
      rw [heq, hcb]
      simp only [call, hv]

end EventManager

namespace EventManager

theorem now_of_core {a b : World} (h : core a = core b) : a.now = b.now := by
  have h1 := congrArg World.now h
  exact h1

theorem eventsPush_of_core {a b : World} (h : core a = core b) : a.eventsPush = b.eventsPush := by
  have h1 := congrArg World.eventsPush h
  exact h1

theorem dispatchesOf_cons_fired (callbacks : List (String × List Entry)) (e : Event)
    (rest : List Event) (h : e.hasFired = true) :
    dispatchesOf callbacks (e :: rest) = dispatchesOf callbacks rest := by
  simp [dispatchesOf, h]

theorem dispatchesOf_cons_unfired (callbacks : List (String × List Entry)) (e : Event)
    (rest : List Event) (h : e.hasFired = false) :
    dispatchesOf callbacks (e :: rest) =
      (eventHandlers callbacks).map (fun id => (id, e.name)) ++ dispatchesOf callbacks rest := by
  simp [dispatchesOf, h]

/-- The loop of `fireUnfiredEvents` from index `done.length` on, when every
`fireEvent` passes the gate and no completion callback throws: it returns, has
fired the unfired events of the rest of the queue in queue order, and `fuel`
was enough. -/
theorem fireUnfiredEventsFrom_dispatch (env : Env)
    (henrich : ∀ e dd, (env.enrich e dd).name = e.name) (rest : List Event) :
    ∀ (fuel : Nat) (done : List Event) (w : World),
      w.digitalData.events = done ++ rest → rest.length ≤ fuel →
      (∀ e ∈ rest, GateOpen env (withTimestamp w.now e) w.callbacks) →
      (∀ e ∈ rest, CallbackReturns env e) →
      ∃ w1, fireUnfiredEventsFrom env fuel done.length w = (w1, .returned .undefined) ∧
        core w1 = core (setEvents (done ++ rest.map (afterFiring w.now)) w) ∧
        dispatched w1.log = dispatched w.log ++ dispatchesOf w.callbacks rest := by
  induction rest with
  | nil =>
    intro fuel done w hq _ _ _
    refine ⟨w, ?_, ?_, by simp [dispatchesOf]⟩
    · cases fuel with
      | zero => rfl
      | succ n =>
        simp only [fireUnfiredEventsFrom]
        rw [hq, List.getElem?_eq_none (by simp)]
    · simp only [List.map_nil, ← hq]
      rfl
  | cons e rest ih =>
    intro fuel done w hq hfuel hgate hret
    cases fuel with
    | zero => simp at hfuel
    | succ n =>
      have hn : rest.length ≤ n := by simpa using hfuel
      have hget : w.digitalData.events[done.length]? = some e := by
        rw [hq, List.getElem?_append_right (Nat.le_refl _)]; simp
      simp only [fireUnfiredEventsFrom, hget]
      by_cases hf : e.hasFired = true
      · simp only [hf, Bool.not_true, Bool.false_eq_true, if_false]
        obtain ⟨w1, heq, hcore, hdisp⟩ := ih n (done ++ [e]) w (by rw [hq]; simp) hn
          (fun x hx => hgate x (List.mem_cons_of_mem _ hx))
          (fun x hx => hret x (List.mem_cons_of_mem _ hx))
        refine ⟨w1, ?_, ?_, ?_⟩
        · rw [← heq]; simp
        · rw [hcore]; simp [afterFiring, hf]
        · rw [hdisp, dispatchesOf_cons_fired _ _ _ hf]
      · have hf0 : e.hasFired = false := by simpa using hf
        simp only [hf0, Bool.not_false, if_true]
        obtain ⟨w1, heq1, hcore1, hdisp1⟩ := fireEvent_dispatch env henrich done.length w e hget
          (hgate e (List.mem_cons_self _ _)) (hret e (List.mem_cons_self _ _))
        rw [heq1]
        simp only
        have hset : w.digitalData.events.set done.length
            { withTimestamp w.now e with hasFired := true } =
            (done ++ [afterFiring w.now e]) ++ rest := by
          rw [hq]; simp [afterFiring, hf0]
        rw [hset] at hcore1
        have hnow : w1.now = w.now := by
          have h1 := now_of_core hcore1
          exact h1
        have hcbs : w1.callbacks = w.callbacks := by
          have h1 := callbacks_of_core hcore1
          exact h1
        obtain ⟨w2, heq2, hcore2, hdisp2⟩ := ih n (done ++ [afterFiring w.now e]) w1
          (events_of_core_setEvents hcore1) hn
          (fun x hx => by rw [hnow, hcbs]; exact hgate x (List.mem_cons_of_mem _ hx))
          (fun x hx => hret x (List.mem_cons_of_mem _ hx))
        refine ⟨w2, ?_, ?_, ?_⟩
        · rw [← heq2]; simp
        · rw [hcore2, hnow, core_setEvents_congr _ hcore1]
          simp [setEvents, core]
        · rw [hdisp2, hdisp1, hcbs, dispatchesOf_cons_unfired _ _ _ hf0, List.append_assoc]

/-- `fireUnfiredEvents` when every `fireEvent` passes the gate and no
completion callback throws. -/
theorem fireUnfiredEvents_dispatch (env : Env)
    (henrich : ∀ e dd, (env.enrich e dd).name = e.name) (w : World)
    (hgate : ∀ e ∈ w.digitalData.events, GateOpen env (withTimestamp w.now e) w.callbacks)
    (hret : ∀ e ∈ w.digitalData.events, CallbackReturns env e) :
    ∃ w1, fireUnfiredEvents env w = (w1, .returned .undefined) ∧
      core w1 = core (setEvents (w.digitalData.events.map (afterFiring w.now)) w) ∧
      dispatched w1.log = dispatched w.log ++ dispatchesOf w.callbacks w.digitalData.events := by
  obtain ⟨w1, heq, hcore, hdisp⟩ := fireUnfiredEventsFrom_dispatch env henrich
    w.digitalData.events w.digitalData.events.length [] w rfl (Nat.le_refl _) hgate hret
  exact ⟨w1, heq, by simpa using hcore, hdisp⟩

theorem pushEvent_waiting_other (env : Env) (e : Event) (w : World)
    (hm : w.eventsPush = .waiting) (hn : e.name ≠ VIEWED_PAGE) :
    pushEvent env e w = (setEvents (w.digitalData.events ++ [e]) w, .returned .undefined) := by
  simp [pushEvent, hm, hn]

theorem pushEvents_waiting (env : Env) (evs : List Event) :
    ∀ w : World, w.eventsPush = .waiting → (∀ e ∈ evs, e.name ≠ VIEWED_PAGE) →
      pushEvents env evs w = setEvents (w.digitalData.events ++ evs) w := by
  induction evs with
  | nil => intro w _ _; simp [pushEvents, setEvents]
  | cons e rest ih =>
    intro w hm hevs
    simp only [pushEvents]
    rw [pushEvent_waiting_other env e w hm (hevs e (List.mem_cons_self _ _))]
    simp only
    rw [ih (setEvents (w.digitalData.events ++ [e]) w) hm
      (fun x hx => hevs x (List.mem_cons_of_mem _ hx))]
    simp [setEvents]

theorem pushEvent_waiting_gate (env : Env) (g : Event) (w : World)
    (hm : w.eventsPush = .waiting) (hg : g.name = VIEWED_PAGE) :
    pushEvent env g w =
      fireUnfiredEvents env (enableEventsTracking (addViewedPageEvent (some g) w)) := by
  simp [pushEvent, hm, hg]

end EventManager

namespace EventManager

/-- The replay loop calls the function `h` once for every fired event of the
queue, in queue order, with the copy of the event, and catches what it throws. -/
theorem applyCallbackForPastEventsLoop_log (env : Env) (h : Nat) (events : List Event) :
    ∀ w : World,
      core (applyCallbackForPastEventsLoop env (.fn h) events w) = core w ∧
      (applyCallbackForPastEventsLoop env (.fn h) events w).log = w.log ++
        (events.filter (fun e => e.hasFired)).map
          (fun e => (⟨.replay, none, h, [.event (eventCopyFor env e w)], w.digitalData⟩ : Call)) := by
  induction events with
  | nil => intro w; exact ⟨rfl, by simp [applyCallbackForPastEventsLoop]⟩
  | cons e rest ih =>
    intro w
    by_cases hf : e.hasFired = true
    · simp only [applyCallbackForPastEventsLoop, hf, if_true, call]
      cases env.run h [.event (eventCopyFor env e w)] w.digitalData with
      | returned v =>
        simp only
        obtain ⟨h1, h2⟩ := ih { w with log := w.log ++
          [⟨.replay, none, h, [.event (eventCopyFor env e w)], w.digitalData⟩] }
        refine ⟨h1, ?_⟩
        rw [h2]
        simp [hf, eventCopyFor]
      | threw err =>
        simp only
        obtain ⟨h1, h2⟩ := ih (logError err { w with log := w.log ++
          [⟨.replay, none, h, [.event (eventCopyFor env e w)], w.digitalData⟩] })
        refine ⟨h1, ?_⟩
        rw [h2]
        simp [hf, eventCopyFor, logError]
    · have hf0 : e.hasFired = false := by simpa using hf
      simp only [applyCallbackForPastEventsLoop, hf0, Bool.false_eq_true, if_false]
      obtain ⟨h1, h2⟩ := ih w
      exact ⟨h1, by rw [h2]; simp [hf0]⟩

theorem splitColon_event : splitColon "event" = ["event"] := by decide

/-- `on('event', handler, processPastEvents)`, spelled out. -/
theorem subscribe_event (env : Env) (handler processPastEvents : Val) (w : World) :
    subscribe env (.str "event") handler processPastEvents w =
      if w.isInitialized && processPastEvents.truthy then
        (applyCallbackForPastEvents env handler { w with
          callbacks := setCallbacks "event"
            ((getCallbacks "event" w.callbacks).getD [] ++ [⟨w.nextId, none, handler⟩]) w.callbacks
          nextId := w.nextId + 1 }, .returned .undefined)
      else
        ({ w with
          callbacks := setCallbacks "event"
            ((getCallbacks "event" w.callbacks).getD [] ++ [⟨w.nextId, none, handler⟩]) w.callbacks
          nextId := w.nextId + 1 }, .returned .undefined) := by
  unfold subscribe
  simp only [splitColon_event]
  have hp : objectPrototypeKeys.contains "event" = false := by decide
  simp only [List.headD_cons, hp, Bool.false_eq_true, if_false]
  simp

end EventManager

namespace EventManager

theorem queueView_of_core {a b : World} (h : core a = core b) : queueView a = queueView b := by
  have h1 : queueView (core a) = queueView (core b) := by rw [h]
  exact h1

theorem queueView_call (env : Env) (site : Site) (entry : Option Nat) (f : Val) (args : List Arg)
    (w : World) : queueView (call env site entry f args w).1 = queueView w :=
  queueView_of_core (core_call env site entry f args w)

theorem core_applyCallbackForPastEventsLoop (env : Env) (handler : Val) (events : List Event) :
    ∀ w : World, core (applyCallbackForPastEventsLoop env handler events w) = core w := by
  induction events with
  | nil => intro w; rfl
  | cons e rest ih =>
    intro w
    simp only [applyCallbackForPastEventsLoop]
    split
    · have hc := core_call env .replay none handler [.event (eventCopyFor env e w)] w
      generalize call env .replay none handler [.event (eventCopyFor env e w)] w = r at hc ⊢
      rcases r with ⟨w1, c⟩
      cases c with
      | returned v => simp only; rw [ih]; exact hc
      | threw err => simp only; rw [ih]; exact hc
    · exact ih w

theorem queueView_subscribe (env : Env) (eventInfo handler processPastEvents : Val) (w : World) :
    queueView (subscribe env eventInfo handler processPastEvents w).1 = queueView w := by
  unfold subscribe
  cases eventInfo <;> try rfl
  simp only
  split
  · split <;> rfl
  · split
    · rfl
    · split
      · simp only [applyCallbackForPastEvents]
        refine (queueView_of_core (core_applyCallbackForPastEventsLoop env handler _ _)).trans ?_
        rfl
      · rfl

theorem queueView_addCallback (env : Env) (callbackInfo processPastEvents : Val) (w : World) :
    queueView (addCallback env callbackInfo processPastEvents w).1 = queueView w := by
  unfold addCallback
  simp only
  split
  · split
    · rfl
    · split
      · split
        · rfl
        · exact queueView_subscribe _ _ _ _ _
      · rfl
  · rfl

theorem queueView_addEarlyCallbacksLoop (env : Env) (commands : List Val) :
    ∀ w : World, queueView (addEarlyCallbacksLoop env commands w).1 = queueView w := by
  induction commands with
  | nil => intro w; rfl
  | cons c rest ih =>
    intro w
    have h := queueView_addCallback env c .undefined w
    simp only [addEarlyCallbacksLoop]
    generalize addCallback env c .undefined w = r at h ⊢
    rcases r with ⟨w1, o⟩
    cases o with
    | threw e => exact h
    | returned v => simp only; rw [ih]; exact h

theorem queueView_fireDefineEntry (env : Env) (callback : Entry) (value : Arg) (w : World) :
    queueView (fireDefineEntry env callback value w) = queueView w := by
  have hc := queueView_call env .define (some callback.id) callback.handler [value] w
  unfold fireDefineEntry
  simp only
  generalize call env .define (some callback.id) callback.handler [value] w = r at hc ⊢
  rcases r with ⟨w1, o⟩
  cases o <;> exact hc

theorem queueView_fireDefineLoop (env : Env) (fuel : Nat) :
    ∀ (i : Nat) (w : World), queueView (fireDefineLoop env fuel i w) = queueView w := by
  induction fuel with
  | zero => intro i w; rfl
  | succ n ih =>
    intro i w
    simp only [fireDefineLoop]
    split
    · rfl
    · split
      · rw [ih]; exact queueView_fireDefineEntry _ _ _ _
      · exact ih _ _

theorem queueView_fireDefine (env : Env) (w : World) :
    queueView (fireDefine env w) = queueView w := by
  unfold fireDefine
  split
  · rfl
  · split
    · exact queueView_fireDefineLoop env _ _ _
    · rfl

theorem queueView_applyEarlyChanges (env : Env) (w : World) :
    queueView (applyEarlyChanges env w) = queueView w := by
  unfold applyEarlyChanges
  generalize w.digitalData.changes = changes
  induction changes generalizing w with
  | nil => rfl
  | cons c rest ih => simp only [List.foldl_cons]; rw [ih]; rfl

theorem queueView_initializeStart (env : Env) (w : World) :
    queueView (initializeStart env w).1 = queueView w := by
  unfold initializeStart
  simp only
  have h := queueView_addEarlyCallbacksLoop env w.ddListener
    { w with collab := w.collab ++ w.customEvents.map (fun customEvent => Collab.track customEvent) }
  unfold addEarlyCallbacks
  simp only
  generalize addEarlyCallbacksLoop env w.ddListener
    { w with collab := w.collab ++ w.customEvents.map (fun customEvent => Collab.track customEvent) }
    = r at h ⊢
  rcases r with ⟨w2, o⟩
  cases o with
  | threw e => exact h
  | returned v =>
    simp only
    have h3 := queueView_fireDefine env w2
    have h5 := queueView_applyEarlyChanges env { fireDefine env w2 with ddListenerPush := .live }
    have h6 : queueView (enableChangesTracking
        (applyEarlyChanges env { fireDefine env w2 with ddListenerPush := .live }))
        = queueView (applyEarlyChanges env { fireDefine env w2 with ddListenerPush := .live }) := rfl
    rw [h6, h5]
    exact h3.trans h

end EventManager

namespace EventManager

theorem queueView_callHandler (env : Env) (entry : Nat) (handler nv pv : Val) (w : World) :
    queueView (callHandler env entry handler nv pv w) = queueView w := by
  have hc := queueView_call env .change (some entry) handler [.val nv, .val pv] w
  unfold callHandler
  generalize call env .change (some entry) handler [.val nv, .val pv] w = r at hc ⊢
  rcases r with ⟨w1, o⟩
  cases o <;> exact hc

theorem queueView_fireChangeLoop (env : Env) (newValue previousValue : Val)
    (entries : List Entry) :
    ∀ w : World, queueView (fireChangeLoop env newValue previousValue entries w) = queueView w := by
  induction entries with
  | nil => intro w; rfl
  | cons x rest ih =>
    intro w
    simp only [fireChangeLoop]
    split
    · split
      · rw [ih]; exact queueView_callHandler _ _ _ _ _ _
      · exact ih w
    · rw [ih]; exact queueView_callHandler _ _ _ _ _ _

theorem queueView_fireChange (env : Env) (newValue previousValue : Val) (w : World) :
    queueView (fireChange env newValue previousValue w) = queueView w := by
  unfold fireChange
  split
  · rfl
  · split
    · exact queueView_fireChangeLoop _ _ _ _ _
    · rfl

theorem queueView_checkForChanges (env : Env) (w : World) :
    queueView (checkForChanges env w) = queueView w := by
  unfold checkForChanges
  split
  · simp only
    split
    · rw [queueView_fireChange, queueView_fireDefine]; rfl
    · rfl
  · rfl

theorem queueView_tick (env : Env) (w : World) : queueView (tick env w) = queueView w := by
  unfold tick
  rw [queueView_checkForChanges, queueView_fireDefine]

theorem queueView_pushChange (env : Env) (c : ChangeOp) (w : World) :
    queueView (pushChange env c w) = queueView w := by
  unfold pushChange
  simp only
  split <;> rfl

theorem queueView_pushListener (env : Env) (c : Val) (w : World) :
    queueView (pushListener env c w).1 = queueView w := by
  unfold pushListener
  split
  · rfl
  · have h := queueView_addCallback env c .undefined w
    generalize addCallback env c .undefined w = r at h ⊢
    rcases r with ⟨w1, o⟩
    cases o <;> exact h

theorem coreE_of_core {a b : World} (h : core a = core b) : coreE a = coreE b := by
  have h1 : coreE a = coreE (core a) := rfl
  have h2 : coreE b = coreE (core b) := rfl
  rw [h1, h2, h]

theorem map_set_of_eq {α β : Type} (f : α → β) (l : List α) (i : Nat) (a b : α)
    (h : l[i]? = some a) (hf : f b = f a) : (l.set i b).map f = l.map f := by
  induction l generalizing i with
  | nil => rfl
  | cons x rest ih =>
    cases i with
    | zero =>
      simp only [List.getElem?_cons_zero, Option.some.injEq] at h
      subst h
      simp [hf]
    | succ n =>
      simp only [List.getElem?_cons_succ] at h
      simp [ih n h]

theorem coreE_setEvents_set (i : Nat) (w : World) (e e1 : Event)
    (h : w.digitalData.events[i]? = some e) (he : eraseFiring e1 = eraseFiring e) :
    coreE (setEvents (w.digitalData.events.set i e1) w) = coreE w := by
  unfold coreE
  have h1 : (setEvents (w.digitalData.events.set i e1) w).digitalData.events.map eraseFiring
      = w.digitalData.events.map eraseFiring := map_set_of_eq eraseFiring _ i e e1 h he
  rw [h1]
  rfl

theorem eraseFiring_withTimestamp (now : Nat) (e : Event) :
    eraseFiring (withTimestamp now e) = eraseFiring e := by
  unfold withTimestamp
  split <;> rfl

theorem coreE_markFired (i : Nat) (w : World) : coreE (markFired i w) = coreE w := by
  unfold markFired
  split
  · rfl
  · rename_i e h
    exact coreE_setEvents_set i w e _ h rfl

/-- Whatever the handlers do, `fireEvent` changes the world only in its
records and in the timestamp and `hasFired` of queued events. -/
theorem coreE_fireEvent (env : Env) (i : Nat) (w : World) :
    coreE (fireEvent env i w).1 = coreE w := by
  unfold fireEvent fireEventHandlers
  split
  · rfl
  · rename_i e hev
    simp only
    have h0 : coreE (setEvents (w.digitalData.events.set i (withTimestamp w.now e)) w) = coreE w :=
      coreE_setEvents_set i w e _ hev (eraseFiring_withTimestamp _ _)
    have hb := coreE_of_core (core_beforeFireEvent env (withTimestamp w.now e)
      (setEvents (w.digitalData.events.set i (withTimestamp w.now e)) w))
    generalize beforeFireEvent env (withTimestamp w.now e)
      (setEvents (w.digitalData.events.set i (withTimestamp w.now e)) w) = r at hb ⊢
    rcases r with ⟨w1, c⟩
    simp only at hb
    have h1 : coreE w1 = coreE w := hb.trans h0
    cases c with
    | threw err => exact h1
    | returned r =>
      simp only
      split
      · exact h1
      · split
        · rename_i entries _
          have hl := coreE_of_core (core_fireEventLoop env i entries.length entries {} w1)
          generalize fireEventLoop env i entries.length entries {} w1 = r2 at hl ⊢
          rcases r2 with ⟨a, w2, c2⟩
          simp only at hl
          cases c2 with
          | threw err => exact hl.trans h1
          | returned v => simp only; rw [coreE_markFired]; exact hl.trans h1
        · split
          · rename_i f _
            have hc := coreE_of_core (core_call env .completion none (.fn f) [] w1)
            generalize call env .completion none (.fn f) [] w1 = r3 at hc ⊢
            rcases r3 with ⟨w2, c2⟩
            simp only at hc
            cases c2 with
            | threw err => exact hc.trans h1
            | returned v => simp only; rw [coreE_markFired]; exact hc.trans h1
          · rw [coreE_markFired]; exact h1

theorem coreE_fireUnfiredEventsFrom (env : Env) (fuel : Nat) :
    ∀ (i : Nat) (w : World), coreE (fireUnfiredEventsFrom env fuel i w).1 = coreE w := by
  induction fuel with
  | zero => intro i w; rfl
  | succ n ih =>
    intro i w
    simp only [fireUnfiredEventsFrom]
    split
    · rfl
    · split
      · have h := coreE_fireEvent env i w
        generalize fireEvent env i w = r at h ⊢
        rcases r with ⟨w1, c⟩
        cases c with
        | threw err => exact h
        | returned v => simp only; rw [ih]; exact h
      · exact ih _ _

theorem coreE_fireUnfiredEvents (env : Env) (w : World) :
    coreE (fireUnfiredEvents env w).1 = coreE w :=
  coreE_fireUnfiredEventsFrom env _ _ _

theorem eventsPush_of_coreE {a b : World} (h : coreE a = coreE b) :
    a.eventsPush = b.eventsPush := by
  have h1 := congrArg World.eventsPush h
  exact h1

theorem names_of_coreE {a b : World} (h : coreE a = coreE b) :
    a.digitalData.events.map Event.name = b.digitalData.events.map Event.name := by
  have h1 : a.digitalData.events.map eraseFiring = b.digitalData.events.map eraseFiring := by
    have h2 := congrArg (fun w => w.digitalData.events) h
    exact h2
  have h3 := congrArg (List.map Event.name) h1
  simpa [List.map_map, Function.comp_def, eraseFiring] using h3

theorem isViewedPageSent_eq_names (w : World) :
    isViewedPageSent w = (w.digitalData.events.map Event.name).any (fun n => n == VIEWED_PAGE) := by
  unfold isViewedPageSent
  induction w.digitalData.events with
  | nil => rfl
  | cons e rest ih => simp [List.any_cons, ih]

theorem isViewedPageSent_of_coreE {a b : World} (h : coreE a = coreE b) :
    isViewedPageSent a = isViewedPageSent b := by
  rw [isViewedPageSent_eq_names, isViewedPageSent_eq_names, names_of_coreE h]

theorem isViewedPageSent_of_queueView {a b : World} (h : queueView a = queueView b) :
    isViewedPageSent a = isViewedPageSent b := by
  have h1 : a.digitalData.events = b.digitalData.events := congrArg Prod.fst h
  simp [isViewedPageSent, h1]

end EventManager

namespace EventManager

theorem initializeEvents_waiting (env : Env) (w : World)
    (hsent : isViewedPageSent w = false) (hflag : w.sendViewedPageEvent = false) :
    initializeEvents env w = ({ w with eventsPush := .waiting }, .returned .undefined) := by
  simp [initializeEvents, hsent, hflag]

theorem isViewedPageSent_addViewedPageEvent (w : World) :
    isViewedPageSent (addViewedPageEvent none w) = true := by
  simp [isViewedPageSent, addViewedPageEvent, setEvents, syntheticViewedPage]

theorem initializeEvents_returned (env : Env) (w w1 : World) (v : Val)
    (h : initializeEvents env w = (w1, .returned v))
    (hobs : isViewedPageSent w = true ∨ w.sendViewedPageEvent = true) :
    Dispatching w1 := by
  unfold initializeEvents at h
  by_cases hsent : isViewedPageSent w = true
  · simp only [hsent, if_true] at h
    have hc := coreE_fireUnfiredEvents env w
    generalize fireUnfiredEvents env w = r at h hc
    rcases r with ⟨w2, c⟩
    cases c with
    | threw e => simp at h
    | returned v2 =>
      simp only [Prod.mk.injEq] at h
      rw [← h.1]
      exact ⟨rfl, by
        have h3 := isViewedPageSent_of_coreE hc
        simp only at h3
        exact h3.trans hsent⟩
  · have hflag : w.sendViewedPageEvent = true := by
      rcases hobs with h1 | h1
      · exact absurd h1 hsent
      · exact h1
    have hsent0 : isViewedPageSent w = false := by simpa using hsent
    simp only [hsent0, Bool.false_eq_true, if_false, hflag, Bool.not_false, Bool.and_self,
      if_true] at h
    have hc := coreE_fireUnfiredEvents env (addViewedPageEvent none w)
    generalize fireUnfiredEvents env (addViewedPageEvent none w) = r at h hc
    rcases r with ⟨w2, c⟩
    cases c with
    | threw e => simp at h
    | returned v2 =>
      simp only [Prod.mk.injEq] at h
      rw [← h.1]
      exact ⟨rfl, by
        have h3 := isViewedPageSent_of_coreE hc
        simp only at h3
        exact h3.trans (isViewedPageSent_addViewedPageEvent w)⟩

theorem initializeEvents_dispatching (env : Env) (w : World) (h : Dispatching w) :
    Dispatching (initializeEvents env w).1 := by
  unfold initializeEvents
  simp only [h.2, if_true]
  have hc := coreE_fireUnfiredEvents env w
  generalize fireUnfiredEvents env w = r at hc ⊢
  rcases r with ⟨w2, c⟩
  simp only at hc
  have h3 : isViewedPageSent w2 = true := (isViewedPageSent_of_coreE hc).trans h.2
  cases c with
  | threw e => exact ⟨(eventsPush_of_coreE hc).trans h.1, h3⟩
  | returned v => exact ⟨rfl, h3⟩

theorem dispatching_of_queueView {a b : World} (h : queueView a = queueView b)
    (hb : Dispatching b) : Dispatching a := by
  have h1 : a.eventsPush = b.eventsPush := congrArg (fun v => v.2.1) h
  exact ⟨h1.trans hb.1, (isViewedPageSent_of_queueView h).trans hb.2⟩

theorem initializeManager_dispatching (env : Env) (w : World) (h : Dispatching w) :
    Dispatching (initializeManager env w).1 := by
  unfold initializeManager
  have hs := dispatching_of_queueView (queueView_initializeStart env w) h
  generalize initializeStart env w = r at hs ⊢
  rcases r with ⟨w1, c⟩
  cases c with
  | threw e => exact hs
  | returned v =>
    simp only
    have he := initializeEvents_dispatching env w1 hs
    generalize initializeEvents env w1 = r2 at he ⊢
    rcases r2 with ⟨w2, c2⟩
    cases c2 with
    | threw e => exact he
    | returned v2 =>
      simp only
      unfold initializeEnd
      split <;> exact he

theorem initializeManager_returned (env : Env) (w0 w : World) (v : Val)
    (h : initializeManager env w0 = (w, .returned v))
    (hobs : isViewedPageSent w0 = true ∨ w0.sendViewedPageEvent = true) :
    Dispatching w := by
  unfold initializeManager at h
  have hq := queueView_initializeStart env w0
  generalize initializeStart env w0 = r at h hq
  rcases r with ⟨w1, c⟩
  cases c with
  | threw e => simp at h
  | returned v1 =>
    simp only at h hq
    have hobs1 : isViewedPageSent w1 = true ∨ w1.sendViewedPageEvent = true := by
      rw [isViewedPageSent_of_queueView hq]
      have h2 : w1.sendViewedPageEvent = w0.sendViewedPageEvent := congrArg (fun v => v.2.2.1) hq
      rw [h2]
      exact hobs
    cases hr : initializeEvents env w1 with
    | mk w2 c2 =>
      rw [hr] at h
      cases c2 with
      | threw e => simp at h
      | returned v2 =>
        simp only [Prod.mk.injEq] at h
        have hd := initializeEvents_returned env w1 w2 v2 hr hobs1
        rw [← h.1]
        unfold initializeEnd
        split <;> exact hd

/-- After an `initialize()` that returns, with no "Viewed Page" queued and the
flag off, the events queue waits and is as it was. -/
theorem initializeManager_waiting (env : Env) (w0 : World) (v : Val)
    (h : (initializeManager env w0).2 = .returned v)
    (hsent : isViewedPageSent w0 = false) (hflag : w0.sendViewedPageEvent = false) :
    (initializeManager env w0).1.eventsPush = .waiting ∧
    (initializeManager env w0).1.digitalData.events = w0.digitalData.events ∧
    callsAt .event (initializeManager env w0).1.log = callsAt .event (initializeStart env w0).1.log := by
  unfold initializeManager at h ⊢
  have hq := queueView_initializeStart env w0
  generalize initializeStart env w0 = r at h hq ⊢
  rcases r with ⟨w1, c⟩
  cases c with
  | threw e => simp at h
  | returned v1 =>
    simp only at hq
    have hsent1 : isViewedPageSent w1 = false := (isViewedPageSent_of_queueView hq).trans hsent
    have hflag1 : w1.sendViewedPageEvent = false :=
      (congrArg (fun v => v.2.2.1) hq : w1.sendViewedPageEvent = w0.sendViewedPageEvent).trans hflag
    have hev : w1.digitalData.events = w0.digitalData.events := congrArg Prod.fst hq
    simp only [initializeEvents_waiting env w1 hsent1 hflag1]
    unfold initializeEnd
    split <;> exact ⟨rfl, hev, rfl⟩

theorem pushEvent_tracking (env : Env) (e : Event) (w : World) (h : w.eventsPush = .tracking) :
    pushEvent env e w =
      fireEvent env w.digitalData.events.length (setEvents (w.digitalData.events ++ [e]) w) := by
  simp [pushEvent, h]

theorem pushEvent_dispatching (env : Env) (e : Event) (w : World) (h : Dispatching w) :
    Dispatching (pushEvent env e w).1 ∧
    (pushEvent env e w).1.digitalData.events.map Event.name =
      w.digitalData.events.map Event.name ++ [e.name] := by
  rw [pushEvent_tracking env e w h.1]
  have hc := coreE_fireEvent env w.digitalData.events.length
    (setEvents (w.digitalData.events ++ [e]) w)
  have hn := names_of_coreE hc
  have hn1 : (setEvents (w.digitalData.events ++ [e]) w).digitalData.events.map Event.name
      = w.digitalData.events.map Event.name ++ [e.name] := by simp [setEvents]
  refine ⟨⟨(eventsPush_of_coreE hc).trans h.1, ?_⟩, hn.trans hn1⟩
  rw [isViewedPageSent_eq_names, hn.trans hn1, List.any_append]
  rw [← isViewedPageSent_eq_names, h.2]
  rfl

theorem step_dispatching (env : Env) (op : Op) (w : World) (h : Dispatching w) :
    Dispatching (step env op w) := by
  cases op with
  | append e => exact (pushEvent_dispatching env e w h).1
  | init => exact initializeManager_dispatching env w h
  | reset => exact h
  | change c => exact dispatching_of_queueView (queueView_pushChange env c w) h
  | command c => exact dispatching_of_queueView (queueView_pushListener env c w) h
  | tick => exact dispatching_of_queueView (queueView_tick env w) h
  | subscribe a b c => exact dispatching_of_queueView (queueView_subscribe env a b c w) h

theorem run_dispatching (env : Env) (ops : List Op) :
    ∀ w : World, Dispatching w → Dispatching (run env ops w) := by
  induction ops with
  | nil => intro w h; exact h
  | cons op rest ih => intro w h; exact ih _ (step_dispatching env op w h)

theorem dispatching_of_gateObserved (env : Env) (w : World) (h : GateObserved env w) :
    Dispatching w := by
  rcases h with ⟨w0, v, hinit, hobs⟩ | ⟨w0, g, c, hmode, hg, hpush⟩
  · exact initializeManager_returned env w0 w v hinit hobs
  · rw [pushEvent_waiting_gate env g w0 hmode hg] at hpush
    have hc := coreE_fireUnfiredEvents env (enableEventsTracking (addViewedPageEvent (some g) w0))
    rw [hpush] at hc
    simp only at hc
    refine ⟨eventsPush_of_coreE hc, ?_⟩
    rw [isViewedPageSent_of_coreE hc]
    simp [isViewedPageSent, addViewedPageEvent, enableEventsTracking, setEvents, hg]

end EventManager

namespace EventManager

theorem log_initializeEnd (w : World) : (initializeEnd w).log = w.log := by
  unfold initializeEnd; split <;> rfl

theorem eventsPush_initializeEnd (w : World) : (initializeEnd w).eventsPush = w.eventsPush := by
  unfold initializeEnd; split <;> rfl

theorem digitalData_initializeEnd (w : World) :
    (initializeEnd w).digitalData = w.digitalData := by
  unfold initializeEnd; split <;> rfl

theorem changesPush_initializeEnd (w : World) :
    (initializeEnd w).changesPush = w.changesPush := by
  unfold initializeEnd; split <;> rfl

theorem changesPush_of_coreE {a b : World} (h : coreE a = coreE b) :
    a.changesPush = b.changesPush := by
  have h1 := congrArg World.changesPush h
  exact h1

theorem data_of_coreE {a b : World} (h : coreE a = coreE b) :
    a.digitalData.data = b.digitalData.data := by
  have h1 := congrArg (fun w => w.digitalData.data) h
  exact h1

theorem changes_of_coreE {a b : World} (h : coreE a = coreE b) :
    a.digitalData.changes = b.digitalData.changes := by
  have h1 := congrArg (fun w => w.digitalData.changes) h
  exact h1

theorem callbacks_of_coreE {a b : World} (h : coreE a = coreE b) :
    a.callbacks = b.callbacks := by
  have h1 := congrArg World.callbacks h
  exact h1

/-- The events part of `initialize()` when the gate event is queued. -/
theorem initializeEvents_sent (env : Env) (w : World) (h : isViewedPageSent w = true) :
    initializeEvents env w =
      match fireUnfiredEvents env w with
      | (w1, .threw e) => (w1, .threw e)
      | (w1, .returned _) => (enableEventsTracking w1, .returned .undefined) := by
  simp [initializeEvents, h]

/-- The events part of `initialize()` when no gate event is queued and the flag
is on. -/
theorem initializeEvents_forced (env : Env) (w : World) (h : isViewedPageSent w = false)
    (hflag : w.sendViewedPageEvent = true) :
    initializeEvents env w =
      match fireUnfiredEvents env (addViewedPageEvent none w) with
      | (w1, .threw e) => (w1, .threw e)
      | (w1, .returned _) => (enableEventsTracking w1, .returned .undefined) := by
  simp [initializeEvents, h, hflag]

/-- `initialize()` once its start has returned. -/
theorem initializeManager_of_start (env : Env) (w0 w : World) (v : Val)
    (h : initializeStart env w0 = (w, .returned v)) :
    initializeManager env w0 =
      match initializeEvents env w with
      | (w2, .threw e) => (w2, .threw e)
      | (w2, .returned _) => (initializeEnd w2, .returned .undefined) := by
  simp [initializeManager, h]

theorem queueView_of_start (env : Env) (w0 w : World) (c : Completion)
    (h : initializeStart env w0 = (w, c)) : queueView w = queueView w0 := by
  have hq := queueView_initializeStart env w0
  rw [h] at hq
  exact hq

end EventManager

namespace EventManager

theorem LogExt.refl (P : Call → Prop) (w : World) : LogExt P w w :=
  ⟨[], by simp, fun _ h => nomatch h⟩

theorem LogExt.trans {P : Call → Prop} {a b c : World} (h1 : LogExt P a b) (h2 : LogExt P b c) :
    LogExt P a c := by
  obtain ⟨n1, e1, p1⟩ := h1
  obtain ⟨n2, e2, p2⟩ := h2
  refine ⟨n1 ++ n2, by rw [e2, e1, List.append_assoc], ?_⟩
  intro x hx
  rcases List.mem_append.mp hx with h | h
  · exact p1 x h
  · exact p2 x h

theorem LogExt.of_log_eq {P : Call → Prop} {a b : World} (h : b.log = a.log) : LogExt P a b :=
  ⟨[], by simp [h], fun _ h => nomatch h⟩

theorem data_of_core {a b : World} (h : core a = core b) :
    a.digitalData.data = b.digitalData.data := by
  rw [digitalData_of_core h]

theorem logExt_call (env : Env) (S : Site → Prop) (d : Val) (site : Site) (entry : Option Nat)
    (f : Val) (args : List Arg) (w : World) (hs : S site) (hd : w.digitalData.data = d) :
    LogExt (CallIn S d) w (call env site entry f args w).1 := by
  unfold call
  cases f with
  | fn id =>
    refine ⟨[⟨site, entry, id, args, w.digitalData⟩], rfl, ?_⟩
    intro c hc
    simp only [List.mem_singleton] at hc
    subst hc
    exact ⟨hs, hd⟩
  | _ => exact LogExt.refl _ _

theorem logExt_logError (P : Call → Prop) (e : Val) (w : World) : LogExt P w (logError e w) :=
  LogExt.of_log_eq rfl

theorem logExt_beforeFireEventLoop (env : Env) (S : Site → Prop) (d : Val) (event : Event)
    (hs : S .beforeEvent) (entries : List Entry) :
    ∀ w : World, w.digitalData.data = d →
      LogExt (CallIn S d) w (beforeFireEventLoop env event entries w).1 := by
  induction entries with
  | nil => intro w _; exact LogExt.refl _ _
  | cons x rest ih =>
    intro w hd
    have hc := logExt_call env S d .beforeEvent (some x.id) x.handler [.event event] w hs hd
    have hdd := call_digitalData env .beforeEvent (some x.id) x.handler [.event event] w
    simp only [beforeFireEventLoop]
    generalize call env .beforeEvent (some x.id) x.handler [.event event] w = r at hc hdd ⊢
    rcases r with ⟨w1, c⟩
    simp only at hc hdd
    cases c with
    | threw e => exact hc
    | returned r =>
      simp only
      split
      · exact hc
      · exact hc.trans (ih w1 (by rw [hdd]; exact hd))

theorem logExt_beforeFireEvent (env : Env) (S : Site → Prop) (d : Val) (event : Event)
    (hs : S .beforeEvent) (w : World) (hd : w.digitalData.data = d) :
    LogExt (CallIn S d) w (beforeFireEvent env event w).1 := by
  unfold beforeFireEvent
  split
  · exact LogExt.refl _ _
  · exact logExt_beforeFireEventLoop env S d event hs _ w hd

theorem logExt_ready (env : Env) (S : Site → Prop) (d : Val) (i times : Nat) (hs : S .completion)
    (agg : Aggregate) (w : World) (hd : w.digitalData.data = d) :
    LogExt (CallIn S d) w (ready env i times agg w).2.1 := by
  unfold ready
  simp only
  split
  · split
    · exact logExt_call env S d .completion none _ _ w hs hd
    · exact LogExt.refl _ _
  · exact LogExt.refl _ _

theorem logExt_eventCallbackOnComplete (env : Env) (S : Site → Prop) (d : Val) (i times : Nat)
    (hs : S .completion) (error result : Val) (agg : Aggregate) (w : World)
    (hd : w.digitalData.data = d) :
    LogExt (CallIn S d) w (eventCallbackOnComplete env i times error result agg w).2.1 := by
  unfold eventCallbackOnComplete
  exact logExt_ready env S d i times hs _ w hd

theorem logExt_fireEventCatch (env : Env) (S : Site → Prop) (d : Val) (i times : Nat)
    (hs : S .completion) (e : Val) (agg : Aggregate) (w : World)
    (hd : w.digitalData.data = d) :
    LogExt (CallIn S d) w (fireEventCatch env i times e agg w).2.1 := by
  have h := logExt_eventCallbackOnComplete env S d i times hs e .undefined agg w hd
  unfold fireEventCatch
  generalize eventCallbackOnComplete env i times e .undefined agg w = r at h ⊢
  rcases r with ⟨a, w1, c⟩
  cases c with
  | threw e1 => exact h
  | returned v => exact h.trans (logExt_logError _ e w1)

theorem logExt_fireEventLoop (env : Env) (S : Site → Prop) (d : Val) (i times : Nat)
    (hse : S .event) (hsc : S .completion) (entries : List Entry) :
    ∀ (agg : Aggregate) (w : World), w.digitalData.data = d →
      LogExt (CallIn S d) w (fireEventLoop env i times entries agg w).2.1 := by
  induction entries with
  | nil => intro agg w _; exact LogExt.refl _ _
  | cons x rest ih =>
    intro agg w hd
    simp only [fireEventLoop]
    cases hev : w.digitalData.events[i]? with
    | none => exact LogExt.refl _ _
    | some event =>
      simp only
      have hc := logExt_call env S d .event (some x.id) x.handler
        [.event (eventCopyFor env event w)] w hse hd
      have hdd := call_digitalData env .event (some x.id) x.handler
        [.event (eventCopyFor env event w)] w
      generalize call env .event (some x.id) x.handler
        [.event (eventCopyFor env event w)] w = r at hc hdd ⊢
      rcases r with ⟨w1, o⟩
      simp only at hc hdd
      have hd1 : w1.digitalData.data = d := by rw [hdd]; exact hd
      cases o with
      | returned result =>
        simp only
        have h2 := logExt_eventCallbackOnComplete env S d i times hsc .null result agg w1 hd1
        have hc2 := core_eventCallbackOnComplete env i times .null result agg w1
        generalize eventCallbackOnComplete env i times .null result agg w1 = r2 at h2 hc2 ⊢
        rcases r2 with ⟨a2, w2, c2⟩
        simp only at h2 hc2
        have hd2 : w2.digitalData.data = d := (data_of_core hc2).trans hd1
        cases c2 with
        | returned v => exact (hc.trans h2).trans (ih a2 w2 hd2)
        | threw e =>
          simp only
          have h3 := logExt_fireEventCatch env S d i times hsc e a2 w2 hd2
          have hc3 := core_fireEventCatch env i times e a2 w2
          generalize fireEventCatch env i times e a2 w2 = r3 at h3 hc3 ⊢
          rcases r3 with ⟨a3, w3, c3⟩
          simp only at h3 hc3
          cases c3 with
          | threw e3 => exact (hc.trans h2).trans h3
          | returned v =>
            exact ((hc.trans h2).trans h3).trans (ih a3 w3 ((data_of_core hc3).trans hd2))
      | threw e =>
        simp only
        have h3 := logExt_fireEventCatch env S d i times hsc e agg w1 hd1
        have hc3 := core_fireEventCatch env i times e agg w1
        generalize fireEventCatch env i times e agg w1 = r3 at h3 hc3 ⊢
        rcases r3 with ⟨a3, w3, c3⟩
        simp only at h3 hc3
        cases c3 with
        | threw e3 => exact hc.trans h3
        | returned v => exact (hc.trans h3).trans (ih a3 w3 ((data_of_core hc3).trans hd1))

theorem logExt_markFired (P : Call → Prop) (i : Nat) (w : World) : LogExt P w (markFired i w) :=
  LogExt.of_log_eq (markFired_log i w)

theorem logExt_fireEventHandlers (env : Env) (S : Site → Prop) (d : Val) (i : Nat)
    (event : Event) (hse : S .event) (hsc : S .completion) (w : World)
    (hd : w.digitalData.data = d) :
    LogExt (CallIn S d) w (fireEventHandlers env i event w).1 := by
  unfold fireEventHandlers
  split
  · rename_i entries _
    have hl := logExt_fireEventLoop env S d i entries.length hse hsc entries {} w hd
    generalize fireEventLoop env i entries.length entries {} w = r at hl ⊢
    rcases r with ⟨a, w2, c⟩
    cases c with
    | threw e => exact hl
    | returned v => exact hl.trans (logExt_markFired _ i w2)
  · split
    · rename_i f _
      have hc := logExt_call env S d .completion none (.fn f) [] w hsc hd
      generalize call env .completion none (.fn f) [] w = r at hc ⊢
      rcases r with ⟨w2, c⟩
      cases c with
      | threw e => exact hc
      | returned v => exact hc.trans (logExt_markFired _ i w2)
    · exact logExt_markFired _ i w

theorem logExt_fireEvent (env : Env) (S : Site → Prop) (d : Val) (i : Nat)
    (hsb : S .beforeEvent) (hse : S .event) (hsc : S .completion) (w : World)
    (hd : w.digitalData.data = d) :
    LogExt (CallIn S d) w (fireEvent env i w).1 := by
  unfold fireEvent
  split
  · exact LogExt.refl _ _
  · rename_i e hev
    simp only
    have hb := logExt_beforeFireEvent env S d (withTimestamp w.now e) hsb
      (setEvents (w.digitalData.events.set i (withTimestamp w.now e)) w) hd
    have hcb := core_beforeFireEvent env (withTimestamp w.now e)
      (setEvents (w.digitalData.events.set i (withTimestamp w.now e)) w)
    generalize beforeFireEvent env (withTimestamp w.now e)
      (setEvents (w.digitalData.events.set i (withTimestamp w.now e)) w) = r at hb hcb ⊢
    rcases r with ⟨w1, c⟩
    simp only at hb hcb
    have hb1 : LogExt (CallIn S d) w w1 := hb
    have hd1 : w1.digitalData.data = d := (data_of_core hcb).trans hd
    cases c with
    | threw err => exact hb1
    | returned r =>
      simp only
      split
      · exact hb1
      · exact hb1.trans (logExt_fireEventHandlers env S d i _ hse hsc w1 hd1)

theorem logExt_fireUnfiredEventsFrom (env : Env) (S : Site → Prop) (d : Val)
    (hsb : S .beforeEvent) (hse : S .event) (hsc : S .completion) (fuel : Nat) :
    ∀ (i : Nat) (w : World), w.digitalData.data = d →
      LogExt (CallIn S d) w (fireUnfiredEventsFrom env fuel i w).1 := by
  induction fuel with
  | zero => intro i w _; exact LogExt.refl _ _
  | succ n ih =>
    intro i w hd
    simp only [fireUnfiredEventsFrom]
    split
    · exact LogExt.refl _ _
    · split
      · have h := logExt_fireEvent env S d i hsb hse hsc w hd
        have hc := coreE_fireEvent env i w
        generalize fireEvent env i w = r at h hc ⊢
        rcases r with ⟨w1, c⟩
        simp only at h hc
        cases c with
        | threw err => exact h
        | returned v => exact h.trans (ih _ w1 ((data_of_coreE hc).trans hd))
      · exact ih _ w hd

theorem logExt_initializeEvents (env : Env) (S : Site → Prop) (d : Val)
    (hsb : S .beforeEvent) (hse : S .event) (hsc : S .completion) (w : World)
    (hd : w.digitalData.data = d) :
    LogExt (CallIn S d) w (initializeEvents env w).1 := by
  unfold initializeEvents
  split
  · have h := logExt_fireUnfiredEventsFrom env S d hsb hse hsc w.digitalData.events.length 0 w hd
    unfold fireUnfiredEvents
    generalize fireUnfiredEventsFrom env w.digitalData.events.length 0 w = r at h ⊢
    rcases r with ⟨w1, c⟩
    cases c <;> exact h
  · split
    · have h := logExt_fireUnfiredEventsFrom env S d hsb hse hsc
        (addViewedPageEvent none w).digitalData.events.length 0 (addViewedPageEvent none w) hd
      unfold fireUnfiredEvents
      generalize fireUnfiredEventsFrom env (addViewedPageEvent none w).digitalData.events.length 0
        (addViewedPageEvent none w) = r at h ⊢
      rcases r with ⟨w1, c⟩
      cases c <;> exact h
    · exact LogExt.refl _ _

theorem callsAt_of_logExt {S : Site → Prop} {d : Val} {w w1 : World} (site : Site)
    (h : LogExt (CallIn S d) w w1) (hs : ¬ S site) : callsAt site w1.log = callsAt site w.log := by
  obtain ⟨new, hlog, hp⟩ := h
  rw [hlog, callsAt_append]
  have h1 : callsAt site new = [] := by
    unfold callsAt
    rw [List.filter_eq_nil_iff]
    intro c hc
    have h2 := (hp c hc).1
    simp only [decide_eq_true_eq]
    intro h3
    rw [h3] at h2
    exact hs h2
  rw [h1, List.append_nil]

end EventManager

namespace EventManager

section frames

variable {α : Type} {V : World → α} {S : Site → Prop} {K : String → Prop}

theorem Frame.fireDefineEntry (F : Frame V S K) (hs : S .define) (hk : K "define") (env : Env)
    (callback : Entry) (value : Arg) (w : World) :
    V (fireDefineEntry env callback value w) = V w := by
  have hc := F.call env .define (some callback.id) callback.handler [value] w hs
  unfold EventManager.fireDefineEntry
  simp only
  generalize EventManager.call env .define (some callback.id) callback.handler [value] w = r at hc ⊢
  rcases r with ⟨w1, o⟩
  cases o with
  | threw e =>
    simp only at hc ⊢
    have h1 := F.registry "define"
      (((getCallbacks "define" (EventManager.logError e w1).callbacks).getD []).eraseIdx
        (indexOfEntry callback ((getCallbacks "define" (EventManager.logError e w1).callbacks).getD [])))
      (EventManager.logError e w1).nextId (EventManager.logError e w1) hk
    exact h1.trans ((F.logError e w1).trans hc)
  | returned v =>
    simp only at hc ⊢
    have h1 := F.registry "define"
      (((getCallbacks "define" w1.callbacks).getD []).eraseIdx
        (indexOfEntry callback ((getCallbacks "define" w1.callbacks).getD [])))
      w1.nextId w1 hk
    exact h1.trans hc

theorem Frame.fireDefineLoop (F : Frame V S K) (hs : S .define) (hk : K "define") (env : Env)
    (fuel : Nat) : ∀ (i : Nat) (w : World), V (fireDefineLoop env fuel i w) = V w := by
  induction fuel with
  | zero => intro i w; rfl
  | succ n ih =>
    intro i w
    simp only [EventManager.fireDefineLoop]
    split
    · rfl
    · split
      · rw [ih]; exact F.fireDefineEntry hs hk env _ _ _
      · exact ih _ _

theorem Frame.fireDefine (F : Frame V S K) (hs : S .define) (hk : K "define") (env : Env)
    (w : World) : V (fireDefine env w) = V w := by
  unfold EventManager.fireDefine
  split
  · rfl
  · split
    · exact F.fireDefineLoop hs hk env _ _ _
    · rfl

theorem Frame.replayLoop (F : Frame V S K) (hs : S .replay) (env : Env) (handler : Val)
    (events : List Event) :
    ∀ w : World, V (applyCallbackForPastEventsLoop env handler events w) = V w := by
  induction events with
  | nil => intro w; rfl
  | cons e rest ih =>
    intro w
    simp only [applyCallbackForPastEventsLoop]
    split
    · have hc := F.call env .replay none handler [.event (eventCopyFor env e w)] w hs
      generalize EventManager.call env .replay none handler [.event (eventCopyFor env e w)] w = r at hc ⊢
      rcases r with ⟨w1, c⟩
      cases c with
      | returned v => simp only; rw [ih]; exact hc
      | threw err => simp only; rw [ih]; exact (F.logError err w1).trans hc
    · exact ih w

theorem Frame.subscribe (F : Frame V S K) (hs : S .replay) (hk : ∀ t, K t) (env : Env)
    (eventInfo handler processPastEvents : Val) (w : World) :
    V (subscribe env eventInfo handler processPastEvents w).1 = V w := by
  unfold EventManager.subscribe
  cases eventInfo <;> try rfl
  simp only
  split
  · split
    · exact F.collab _ w
    · rfl
  · split
    · rfl
    · split
      · simp only [applyCallbackForPastEvents]
        rw [F.replayLoop hs]
        exact F.registry _ _ _ w (hk _)
      · exact F.registry _ _ _ w (hk _)

theorem Frame.addCallback (F : Frame V S K) (hs : S .replay) (hk : ∀ t, K t) (env : Env)
    (callbackInfo processPastEvents : Val) (w : World) :
    V (addCallback env callbackInfo processPastEvents w).1 = V w := by
  unfold EventManager.addCallback
  simp only
  split
  · split
    · rfl
    · split
      · split
        · rfl
        · exact F.subscribe hs hk _ _ _ _ _
      · rfl
  · rfl

theorem Frame.addEarlyCallbacksLoop (F : Frame V S K) (hs : S .replay) (hk : ∀ t, K t)
    (env : Env) (commands : List Val) :
    ∀ w : World, V (addEarlyCallbacksLoop env commands w).1 = V w := by
  induction commands with
  | nil => intro w; rfl
  | cons c rest ih =>
    intro w
    have h := F.addCallback hs hk env c .undefined w
    simp only [EventManager.addEarlyCallbacksLoop]
    generalize EventManager.addCallback env c .undefined w = r at h ⊢
    rcases r with ⟨w1, o⟩
    cases o with
    | threw e => exact h
    | returned v => simp only; rw [ih]; exact h

theorem Frame.callHandler (F : Frame V S K) (hs : S .change) (env : Env) (entry : Nat)
    (handler nv pv : Val) (w : World) : V (callHandler env entry handler nv pv w) = V w := by
  have hc := F.call env .change (some entry) handler [.val nv, .val pv] w hs
  unfold EventManager.callHandler
  generalize EventManager.call env .change (some entry) handler [.val nv, .val pv] w = r at hc ⊢
  rcases r with ⟨w1, o⟩
  cases o with
  | threw e => exact (F.logError e w1).trans hc
  | returned v => exact hc

theorem Frame.fireChangeLoop (F : Frame V S K) (hs : S .change) (env : Env)
    (newValue previousValue : Val) (entries : List Entry) :
    ∀ w : World, V (fireChangeLoop env newValue previousValue entries w) = V w := by
  induction entries with
  | nil => intro w; rfl
  | cons x rest ih =>
    intro w
    simp only [EventManager.fireChangeLoop]
    split
    · split
      · rw [ih]; exact F.callHandler hs _ _ _ _ _ _
      · exact ih w
    · rw [ih]; exact F.callHandler hs _ _ _ _ _ _

theorem Frame.fireChange (F : Frame V S K) (hs : S .change) (env : Env)
    (newValue previousValue : Val) (w : World) :
    V (fireChange env newValue previousValue w) = V w := by
  unfold EventManager.fireChange
  split
  · rfl
  · split
    · exact F.fireChangeLoop hs _ _ _ _ _
    · rfl

end frames

theorem frame_startView :
    Frame startView (fun s => s = .define ∨ s = .replay ∨ s = .change) (fun _ => True) where
  call := by
    intro env site entry f args w hs
    have hne : ∀ s, DispatchSite s → site ≠ s := by
      intro s hd h
      subst h
      rcases hs with h | h | h <;> rcases hd with h1 | h1 | h1 <;> rw [h] at h1 <;> cases h1
    unfold startView
    rw [call_digitalData, callsAt_call_ne env .event site entry f args w (hne _ (Or.inr (Or.inl rfl))),
      callsAt_call_ne env .beforeEvent site entry f args w (hne _ (Or.inl rfl)),
      callsAt_call_ne env .completion site entry f args w (hne _ (Or.inr (Or.inr rfl)))]
  logError := fun _ _ => rfl
  registry := fun _ _ _ _ _ => rfl
  collab := fun _ _ => rfl

theorem applyEarlyChanges_eq (env : Env) (w : World) :
    applyEarlyChanges env w = { w with digitalData := { w.digitalData with
      data := w.digitalData.changes.foldl (fun d c => env.set c.1 c.2 d) w.digitalData.data } } := by
  unfold applyEarlyChanges
  have key : ∀ (changes : List ChangeOp) (u : World),
      changes.foldl (fun acc changeInfo => applyChange env changeInfo acc) u =
        { u with digitalData := { u.digitalData with
          data := changes.foldl (fun d c => env.set c.1 c.2 d) u.digitalData.data } } := by
    intro changes
    induction changes with
    | nil => intro u; rfl
    | cons c rest ih => intro u; simp only [List.foldl_cons]; rw [ih]; rfl
  exact key _ w

/-- The start of `initialize()`, when it returns: the queued changes have been
applied in queue order, nothing has been dispatched, and `changes.push` is the
applying one. -/
theorem initializeStart_returned (env : Env) (w0 w : World) (v : Val)
    (h : initializeStart env w0 = (w, .returned v)) :
    w.digitalData.data =
      w0.digitalData.changes.foldl (fun d c => env.set c.1 c.2 d) w0.digitalData.data ∧
    w.digitalData.changes = w0.digitalData.changes ∧
    callsAt .event w.log = callsAt .event w0.log ∧
    callsAt .beforeEvent w.log = callsAt .beforeEvent w0.log ∧
    callsAt .completion w.log = callsAt .completion w0.log ∧
    w.changesPush = .tracking := by
  unfold initializeStart at h
  simp only at h
  have h1 := frame_startView.addEarlyCallbacksLoop (Or.inr (Or.inl rfl)) (fun _ => trivial) env
    w0.ddListener
    { w0 with collab := w0.collab ++ w0.customEvents.map (fun customEvent => Collab.track customEvent) }
  unfold addEarlyCallbacks at h
  simp only at h
  generalize addEarlyCallbacksLoop env w0.ddListener
    { w0 with collab := w0.collab ++ w0.customEvents.map (fun customEvent => Collab.track customEvent) }
    = r at h h1
  rcases r with ⟨w2, o⟩
  cases o with
  | threw e => simp at h
  | returned v2 =>
    simp only [Prod.mk.injEq] at h
    have h3 := frame_startView.fireDefine (Or.inl rfl) trivial env w2
    have h4 : startView (fireDefine env w2) = startView w0 := h3.trans h1
    rw [← h.1, applyEarlyChanges_eq]
    have hdd : (fireDefine env w2).digitalData = w0.digitalData := congrArg Prod.fst h4
    have he : callsAt .event (fireDefine env w2).log = callsAt .event w0.log :=
      congrArg (fun v => v.2.1) h4
    have hb : callsAt .beforeEvent (fireDefine env w2).log = callsAt .beforeEvent w0.log :=
      congrArg (fun v => v.2.2.1) h4
    have hc : callsAt .completion (fireDefine env w2).log = callsAt .completion w0.log :=
      congrArg (fun v => v.2.2.2) h4
    simp only [enableChangesTracking]
    exact ⟨by rw [hdd], by rw [hdd], he, hb, hc, trivial⟩

end EventManager

namespace EventManager

theorem call_fn (env : Env) (site : Site) (entry : Option Nat) (id : Nat) (args : List Arg)
    (w : World) :
    call env site entry (.fn id) args w =
      ({ w with log := w.log ++ [⟨site, entry, id, args, w.digitalData⟩] },
        env.run id args w.digitalData) := rfl

theorem call_not_fn (env : Env) (site : Site) (entry : Option Nat) (f : Val) (args : List Arg)
    (w : World) (h : fnId f = none) : call env site entry f args w = (w, .threw typeError) := by
  cases f <;> first | rfl | simp [fnId] at h

/-- When every beforeEvent handler lets the event through, the loop calls all
of them, in registration order, with the event, and returns `true`. -/
theorem beforeFireEventLoop_pass_exact (env : Env) (event : Event) (entries : List Entry) :
    ∀ w : World, (∀ b ∈ entries, Passes env b.handler event) →
      beforeFireEventLoop env event entries w =
        ({ w with log := w.log ++ entries.filterMap (beforeCallOf event w.digitalData) },
          .returned (.bool true)) := by
  induction entries with
  | nil => intro w _; simp [beforeFireEventLoop]
  | cons x rest ih =>
    intro w h
    obtain ⟨v, hv, hf⟩ := h x (List.mem_cons_self _ _) (some x.id) w
    cases hid : fnId x.handler with
    | none =>
      rw [call_not_fn env _ _ _ _ _ hid] at hv
      cases hv
    | some id =>
      have hx : x.handler = .fn id := by
        cases hh : x.handler <;> rw [hh] at hid <;> simp [fnId] at hid
        rw [hid]
      simp only [beforeFireEventLoop]
      rw [hx, call_fn] at hv ⊢
      simp only at hv
      simp only [hv, hf, Bool.false_eq_true, if_false]
      rw [ih _ (fun b hb => h b (List.mem_cons_of_mem _ hb))]
      simp [beforeCallOf, hx, fnId, List.filterMap_cons]

/-- When a beforeEvent handler returns `false` and those before it let the
event through, the loop calls the handlers up to that one, in registration
order, and returns `false`. -/
theorem beforeFireEventLoop_veto_exact (env : Env) (event : Event) (post : List Entry)
    (x : Entry) (pre : List Entry) :
    ∀ w : World, (∀ b ∈ pre, Passes env b.handler event) → Vetoes env x.handler event →
      beforeFireEventLoop env event (pre ++ x :: post) w =
        ({ w with log := w.log ++ (pre ++ [x]).filterMap (beforeCallOf event w.digitalData) },
          .returned (.bool false)) := by
  induction pre with
  | nil =>
    intro w _ hx
    have hv := hx (some x.id) w
    cases hid : fnId x.handler with
    | none =>
      rw [call_not_fn env _ _ _ _ _ hid] at hv
      cases hv
    | some id =>
      have hxh : x.handler = .fn id := by
        cases hh : x.handler <;> rw [hh] at hid <;> simp [fnId] at hid
        rw [hid]
      simp only [List.nil_append, beforeFireEventLoop]
      rw [hxh, call_fn] at hv ⊢
      simp only at hv
      simp [hv, Val.isFalse, beforeCallOf, hxh, fnId]
  | cons p rest ih =>
    intro w hpre hx
    obtain ⟨v, hv, hf⟩ := hpre p (List.mem_cons_self _ _) (some p.id) w
    cases hid : fnId p.handler with
    | none =>
      rw [call_not_fn env _ _ _ _ _ hid] at hv
      cases hv
    | some id =>
      have hph : p.handler = .fn id := by
        cases hh : p.handler <;> rw [hh] at hid <;> simp [fnId] at hid
        rw [hid]
      rw [List.cons_append]
      simp only [beforeFireEventLoop]
      rw [hph, call_fn] at hv ⊢
      simp only at hv
      simp only [hv, hf, Bool.false_eq_true, if_false]
      rw [ih _ (fun b hb => hpre b (List.mem_cons_of_mem _ hb)) hx]
      simp [beforeCallOf, hph, fnId, List.filterMap_cons]

theorem isFalse_iff (v : Val) : v.isFalse = true ↔ v = .bool false := by
  cases v with
  | bool b => cases b <;> simp [Val.isFalse]
  | _ => simp [Val.isFalse]

end EventManager

namespace EventManager

theorem callsAt_beforeCalls (event : Event) (dd : DigitalData) (entries : List Entry) :
    callsAt .beforeEvent (entries.filterMap (beforeCallOf event dd)) =
      entries.filterMap (beforeCallOf event dd) := by
  unfold callsAt
  rw [List.filter_eq_self]
  intro c hc
  rw [List.mem_filterMap] at hc
  obtain ⟨x, _, hx⟩ := hc
  unfold beforeCallOf at hx
  cases hf : fnId x.handler with
  | none => rw [hf] at hx; cases hx
  | some id =>
    rw [hf] at hx
    simp only [Option.map_some', Option.some.injEq] at hx
    rw [← hx]
    simp

theorem changesPush_initializeEvents (env : Env) (w : World) :
    (initializeEvents env w).1.changesPush = w.changesPush := by
  unfold initializeEvents
  split
  · have h := changesPush_of_coreE (coreE_fireUnfiredEvents env w)
    generalize fireUnfiredEvents env w = r at h ⊢
    rcases r with ⟨w1, c⟩
    cases c <;> exact h
  · split
    · have h := changesPush_of_coreE (coreE_fireUnfiredEvents env (addViewedPageEvent none w))
      generalize fireUnfiredEvents env (addViewedPageEvent none w) = r at h ⊢
      rcases r with ⟨w1, c⟩
      cases c <;> exact h
    · rfl

theorem initializeManager_changesPush (env : Env) (w0 w : World) (v : Val)
    (h : initializeManager env w0 = (w, .returned v)) : w.changesPush = .tracking := by
  unfold initializeManager at h
  cases hs : initializeStart env w0 with
  | mk w1 c =>
    rw [hs] at h
    cases c with
    | threw e => simp at h
    | returned v1 =>
      simp only at h
      have h1 := (initializeStart_returned env w0 w1 v1 hs).2.2.2.2.2
      have h2 := changesPush_initializeEvents env w1
      generalize initializeEvents env w1 = r at h h2
      rcases r with ⟨w2, c2⟩
      cases c2 with
      | threw e => simp at h
      | returned v2 =>
        simp only [Prod.mk.injEq] at h
        rw [← h.1, changesPush_initializeEnd]
        exact h2.trans h1

end EventManager

namespace EventManager

theorem getCallbacks_setCallbacks_ne (type other : String) (entries : List Entry)
    (callbacks : List (String × List Entry)) (h : other ≠ type) :
    getCallbacks other (setCallbacks type entries callbacks) = getCallbacks other callbacks := by
  induction callbacks with
  | nil => simp [setCallbacks, getCallbacks, Ne.symm h]
  | cons kv rest ih =>
    rcases kv with ⟨k, v⟩
    simp only [setCallbacks]
    by_cases hk : k = type
    · subst hk
      simp [getCallbacks, Ne.symm h]
    · simp only [hk, if_false, getCallbacks]
      rw [ih]

theorem getCallbacks_setCallbacks_same (type : String) (entries : List Entry)
    (callbacks : List (String × List Entry)) :
    getCallbacks type (setCallbacks type entries callbacks) = some entries := by
  induction callbacks with
  | nil => simp [setCallbacks, getCallbacks]
  | cons kv rest ih =>
    rcases kv with ⟨k, v⟩
    simp only [setCallbacks]
    by_cases hk : k = type
    · simp [hk, getCallbacks]
    · simp only [hk, if_false, getCallbacks]
      exact ih

theorem frame_changeView : Frame changeView (fun s => s = .define) (fun t => t = "define") where
  call := by
    intro env site entry f args w hs
    subst hs
    unfold changeView
    rw [callsAt_call_ne env .change .define entry f args w (by decide), call_digitalData]
    have h1 := callbacks_of_core (core_call env .define entry f args w)
    have h2 : (call env .define entry f args w).1.previousDigitalData = w.previousDigitalData := by
      have h3 := congrArg World.previousDigitalData (core_call env .define entry f args w)
      exact h3
    rw [h1, h2]
  logError := fun _ _ => rfl
  registry := by
    intro type entries n w hk
    subst hk
    unfold changeView
    simp only
    rw [getCallbacks_setCallbacks_ne "define" "change" entries w.callbacks (by decide)]
  collab := fun _ _ => rfl

theorem callHandler_log (env : Env) (x : Entry) (nv pv : Val) (w : World) :
    core (callHandler env x.id x.handler nv pv w) = core w ∧
    (callHandler env x.id x.handler nv pv w).log = w.log ++ changeCallOf nv pv w.digitalData x := by
  unfold callHandler changeCallOf
  cases hf : fnId x.handler with
  | none =>
    rw [call_not_fn env _ _ _ _ _ hf]
    exact ⟨rfl, by simp [logError]⟩
  | some id =>
    have hx : x.handler = .fn id := by
      cases hh : x.handler <;> rw [hh] at hf <;> simp [fnId] at hf
      rw [hf]
    rw [hx, call_fn]
    cases env.run id [.val nv, .val pv] w.digitalData with
    | returned v => exact ⟨rfl, by simp⟩
    | threw e => exact ⟨rfl, by simp [logError]⟩

/-- `fireChange` logs, for every change entry in registration order, the calls
of `changeCallsOf`, and nothing else. -/
theorem fireChangeLoop_log (env : Env) (nv pv : Val) (entries : List Entry) :
    ∀ w : World,
      core (fireChangeLoop env nv pv entries w) = core w ∧
      (fireChangeLoop env nv pv entries w).log =
        w.log ++ entries.flatMap (changeCallsOf env nv pv w.digitalData) := by
  induction entries with
  | nil => intro w; exact ⟨rfl, by simp [fireChangeLoop]⟩
  | cons x rest ih =>
    intro w
    simp only [fireChangeLoop, List.flatMap_cons]
    by_cases hk : keyTruthy x.key = true
    · simp only [hk, if_true]
      by_cases hq : env.jsonIsEqual (env.get (x.key.getD "") nv) (env.get (x.key.getD "") pv) = true
      · simp only [hq, Bool.not_true, Bool.false_eq_true, if_false]
        obtain ⟨h1, h2⟩ := ih w
        exact ⟨h1, by rw [h2]; simp [changeCallsOf, hk, hq]⟩
      · have hq0 : env.jsonIsEqual (env.get (x.key.getD "") nv) (env.get (x.key.getD "") pv)
            = false := by simpa using hq
        simp only [hq0, Bool.not_false, if_true]
        obtain ⟨c1, c2⟩ := callHandler_log env x (env.get (x.key.getD "") nv)
          (env.get (x.key.getD "") pv) w
        obtain ⟨h1, h2⟩ := ih (callHandler env x.id x.handler (env.get (x.key.getD "") nv)
          (env.get (x.key.getD "") pv) w)
        refine ⟨h1.trans c1, ?_⟩
        rw [h2, c2, digitalData_of_core c1]
        simp [changeCallsOf, hk, hq0]
    · have hk0 : keyTruthy x.key = false := by simpa using hk
      simp only [hk0, Bool.false_eq_true, if_false]
      obtain ⟨c1, c2⟩ := callHandler_log env x nv pv w
      obtain ⟨h1, h2⟩ := ih (callHandler env x.id x.handler nv pv w)
      refine ⟨h1.trans c1, ?_⟩
      rw [h2, c2, digitalData_of_core c1]
      simp [changeCallsOf, hk0]

theorem callsAt_changeCallsOf (env : Env) (nv pv : Val) (dd : DigitalData)
    (entries : List Entry) :
    callsAt .change (entries.flatMap (changeCallsOf env nv pv dd)) =
      entries.flatMap (changeCallsOf env nv pv dd) := by
  unfold callsAt
  rw [List.filter_eq_self]
  intro c hc
  rw [List.mem_flatMap] at hc
  obtain ⟨x, _, hx⟩ := hc
  unfold changeCallsOf changeCallOf at hx
  cases hf : fnId x.handler with
  | none => rw [hf] at hx; simp at hx
  | some id =>
    rw [hf] at hx
    simp only [Option.map_some', Option.toList_some] at hx
    split at hx
    · split at hx
      · cases hx
      · simp only [List.mem_singleton] at hx
        rw [hx]; simp
    · simp only [List.mem_singleton] at hx
      rw [hx]; simp

/-- One pass of `checkForChanges` with change entries registered: when the
fresh snapshot differs from the stored one, the change calls are those of
`fireChange` for the fresh and the stored snapshot; otherwise there is none. -/
theorem checkForChanges_change_calls (env : Env) (w : World) (entries : List Entry)
    (hreg : getCallbacks "change" w.callbacks = some entries) (hne : entries ≠ []) :
    callsAt .change (checkForChanges env w).log = callsAt .change w.log ++
      (if env.jsonIsEqual w.previousDigitalData (_getCopyWithoutEvents w.digitalData) then []
       else entries.flatMap (changeCallsOf env (_getCopyWithoutEvents w.digitalData)
         w.previousDigitalData w.digitalData)) := by
  have hguard : hasChangeOrDefine w = true := by
    simp [hasChangeOrDefine, hreg, List.length_pos.mpr hne]
  unfold checkForChanges
  simp only [hguard, if_true]
  by_cases hq : env.jsonIsEqual w.previousDigitalData (_getCopyWithoutEvents w.digitalData) = true
  · simp [hq]
  · have hq0 : env.jsonIsEqual w.previousDigitalData (_getCopyWithoutEvents w.digitalData)
        = false := by simpa using hq
    simp only [hq0, Bool.not_false, if_true, Bool.false_eq_true, if_false]
    have hf := frame_changeView.fireDefine rfl rfl env
      { w with previousDigitalData := _getCopyWithoutEvents w.digitalData }
    have hlog : callsAt .change (fireDefine env
        { w with previousDigitalData := _getCopyWithoutEvents w.digitalData }).log
        = callsAt .change w.log := congrArg Prod.fst hf
    have hcb : getCallbacks "change" (fireDefine env
        { w with previousDigitalData := _getCopyWithoutEvents w.digitalData }).callbacks
        = some entries := (congrArg (fun v => v.2.1) hf).trans hreg
    have hdd : (fireDefine env
        { w with previousDigitalData := _getCopyWithoutEvents w.digitalData }).digitalData
        = w.digitalData := congrArg (fun v => v.2.2.1) hf
    unfold fireChange
    simp only [hcb, List.length_pos.mpr hne, if_true]
    rw [(fireChangeLoop_log env _ _ entries _).2, callsAt_append, hlog, hdd,
      callsAt_changeCallsOf]

theorem filter_flatMap_entry (f : Entry → List Call) (x : Entry) (entries : List Entry)
    (hf : ∀ y, ∀ c ∈ f y, c.entry = some y.id)
    (hx : x ∈ entries) (hnodup : (entries.map Entry.id).Nodup) :
    (entries.flatMap f).filter (fun c => c.entry == some x.id) = f x := by
  induction entries with
  | nil => cases hx
  | cons y rest ih =>
    simp only [List.map_cons, List.nodup_cons] at hnodup
    simp only [List.flatMap_cons, List.filter_append]
    have hother : ∀ (l : List Entry), x.id ∉ l.map Entry.id →
        (l.flatMap f).filter (fun c => c.entry == some x.id) = [] := by
      intro l hl
      rw [List.filter_eq_nil_iff]
      intro c hc
      rw [List.mem_flatMap] at hc
      obtain ⟨z, hz, hcz⟩ := hc
      have h1 := hf z c hcz
      simp only [h1, beq_iff_eq, Option.some.injEq]
      intro h2
      exact hl (List.mem_map.mpr ⟨z, hz, h2⟩)
    have hself : ∀ z, z.id = x.id → (f z).filter (fun c => c.entry == some x.id) = f z := by
      intro z hz
      rw [List.filter_eq_self]
      intro c hc
      simp [hf z c hc, hz]
    rcases List.mem_cons.mp hx with h | h
    · subst h
      rw [hself x rfl, hother rest hnodup.1, List.append_nil]
    · have hne : y.id ≠ x.id := by
        intro h2
        exact hnodup.1 (by rw [h2]; exact List.mem_map.mpr ⟨x, h, rfl⟩)
      have h3 : (f y).filter (fun c => c.entry == some x.id) = [] := by
        rw [List.filter_eq_nil_iff]
        intro c hc
        simp [hf y c hc, hne]
      rw [h3, List.nil_append, ih h hnodup.2]

theorem changeCallsOf_entry (env : Env) (nv pv : Val) (dd : DigitalData) (y : Entry) :
    ∀ c ∈ changeCallsOf env nv pv dd y, c.entry = some y.id := by
  intro c hc
  unfold changeCallsOf changeCallOf at hc
  cases hf : fnId y.handler with
  | none => rw [hf] at hc; simp at hc
  | some id =>
    rw [hf] at hc
    simp only [Option.map_some', Option.toList_some] at hc
    split at hc
    · split at hc
      · cases hc
      · simp only [List.mem_singleton] at hc
        rw [hc]
    · simp only [List.mem_singleton] at hc
      rw [hc]

end EventManager

namespace EventManager

theorem log_of_core_setEvents {w1 w : World} {events : List Event}
    (h : w1 = setEvents events w) : w1.log = w.log := by
  rw [h]; rfl

/-- The call of the event handler of the entry `x`: the record and the outcome. -/
theorem call_event_exact (env : Env) (copy : Event) (x : Entry) (w : World) :
    core (call env .event (some x.id) x.handler [.event copy] w).1 = core w ∧
    (call env .event (some x.id) x.handler [.event copy] w).1.log =
      w.log ++ (eventCallOf copy w.digitalData x).toList ∧
    (call env .event (some x.id) x.handler [.event copy] w).2 =
      outcomeOf env copy w.digitalData x := by
  refine ⟨core_call _ _ _ _ _ _, ?_, ?_⟩
  · unfold call eventCallOf
    cases x.handler <;> simp [fnId]
  · unfold call outcomeOf
    cases x.handler <;> rfl

/-- The completion call for the aggregate `agg`, if the event has a callback. -/
theorem ready_exact (env : Env) (i times : Nat) (agg : Aggregate) (w : World) (event : Event)
    (hev : w.digitalData.events[i]? = some event) (hret : CallbackReturns env event) :
    ∃ w2 v, ready env i times agg w = (counted agg, w2, .returned v) ∧ core w2 = core w ∧
      w2.log = w.log ++
        (if agg.readyCalls + 1 = times then
          (event.callback.map (fun f => (⟨.completion, none, f,
            [.list agg.results, .list agg.errors], w.digitalData⟩ : Call))).toList
         else []) := by
  by_cases h : agg.readyCalls + 1 = times
  · cases hcb : event.callback with
    | none =>
      refine ⟨w, .undefined, ?_, rfl, by simp [h]⟩
      simp [ready, afterFires, h, hev, hcb, counted]
    | some f =>
      obtain ⟨v, hv⟩ := hret f hcb [.list agg.results, .list agg.errors] w.digitalData
      rw [ready_fire env i times agg w event f h hev hcb, hv]
      exact ⟨_, v, rfl, rfl, by simp [h]⟩
  · exact ⟨w, .undefined, ready_skip env i times agg w h, rfl, by simp [h]⟩

/-- The handler loop of `fireEvent`, when the completion callback does not
throw: every handler is called once, in order; the loop returns; and after the
last handler the completion callback is called with the lists as they are
after the outcomes of all the handlers. -/
theorem fireEventLoop_exact (env : Env) (i times : Nat) (event : Event)
    (hret : CallbackReturns env event) (entries : List Entry) :
    ∀ (agg : Aggregate) (w : World), w.digitalData.events[i]? = some event →
      agg.readyCalls + entries.length = times →
      ∃ w2 v,
        fireEventLoop env i times entries agg w =
          (entries.foldl (fun a x => counted (recordOutcome
            (outcomeOf env (eventCopyFor env event w) w.digitalData x) a)) agg,
           w2, .returned v) ∧
        core w2 = core w ∧
        w2.log = w.log ++
          entries.filterMap (eventCallOf (eventCopyFor env event w) w.digitalData) ++
          (if entries.isEmpty then []
           else (event.callback.map (fun f => (⟨.completion, none, f,
             [.list (entries.foldl (fun a x => counted (recordOutcome
                (outcomeOf env (eventCopyFor env event w) w.digitalData x) a)) agg).results,
              .list (entries.foldl (fun a x => counted (recordOutcome
                (outcomeOf env (eventCopyFor env event w) w.digitalData x) a)) agg).errors],
             w.digitalData⟩ : Call))).toList) := by
  induction entries with
  | nil => intro agg w _ _; exact ⟨w, .undefined, rfl, rfl, by simp⟩
  | cons x rest ih =>
    intro agg w hev hcount
    obtain ⟨hcc, hlog, hout⟩ := call_event_exact env (eventCopyFor env event w) x w
    simp only [fireEventLoop, hev]
    generalize call env .event (some x.id) x.handler
      [.event (eventCopyFor env event w)] w = r at hcc hlog hout ⊢
    rcases r with ⟨w1, o⟩
    simp only at hcc hlog hout
    subst hout
    have hdd1 : w1.digitalData = w.digitalData := digitalData_of_core hcc
    have hev1 : w1.digitalData.events[i]? = some event := by rw [hdd1]; exact hev
    have hlen : rest.length + 1 = (x :: rest).length := rfl
    have key : ∀ (w2 : World), core w2 = core w1 →
        w2.log = w1.log ++
          (if (recordOutcome (outcomeOf env (eventCopyFor env event w) w.digitalData x)
              agg).readyCalls + 1 = times then
            (event.callback.map (fun f => (⟨.completion, none, f,
              [.list (recordOutcome (outcomeOf env (eventCopyFor env event w) w.digitalData x)
                  agg).results,
               .list (recordOutcome (outcomeOf env (eventCopyFor env event w) w.digitalData x)
                  agg).errors],
              w1.digitalData⟩ : Call))).toList
           else []) →
        ∃ w3 v,
          fireEventLoop env i times rest
            (counted (recordOutcome (outcomeOf env (eventCopyFor env event w) w.digitalData x)
              agg)) w2 =
            ((x :: rest).foldl (fun a x => counted (recordOutcome
              (outcomeOf env (eventCopyFor env event w) w.digitalData x) a)) agg,
             w3, .returned v) ∧
          core w3 = core w ∧
          w3.log = w.log ++
            (x :: rest).filterMap (eventCallOf (eventCopyFor env event w) w.digitalData) ++
            (if (x :: rest).isEmpty then []
             else (event.callback.map (fun f => (⟨.completion, none, f,
               [.list ((x :: rest).foldl (fun a x => counted (recordOutcome
                  (outcomeOf env (eventCopyFor env event w) w.digitalData x) a)) agg).results,
                .list ((x :: rest).foldl (fun a x => counted (recordOutcome
                  (outcomeOf env (eventCopyFor env event w) w.digitalData x) a)) agg).errors],
               w.digitalData⟩ : Call))).toList) := by
      intro w2 hc2 hl2
      have hdd2 : w2.digitalData = w.digitalData := (digitalData_of_core hc2).trans hdd1
      have hev2 : w2.digitalData.events[i]? = some event := by rw [hdd2]; exact hev
      obtain ⟨w3, v, heq, hc3, hl3⟩ := ih
        (counted (recordOutcome (outcomeOf env (eventCopyFor env event w) w.digitalData x) agg))
        w2 hev2 (by simp only [counted, recordOutcome_readyCalls]; simp at hcount; omega)
      rw [eventCopyFor_congr env event hdd2, hdd2] at heq hl3
      refine ⟨w3, v, by rw [heq]; rfl, hc3.trans (hc2.trans hcc), ?_⟩
      rw [hl3, hl2, hlog, hdd1]
      simp only [recordOutcome_readyCalls, List.filterMap_cons, List.foldl_cons]
      by_cases hrest : rest = []
      · subst hrest
        have hfire : agg.readyCalls + 1 = times := by simpa using hcount
        cases hf : eventCallOf (eventCopyFor env event w) w.digitalData x <;>
          simp [hfire, counted]
      · have hskip : agg.readyCalls + 1 ≠ times := by
          have := List.length_pos.mpr hrest
          simp at hcount; omega
        have hemp : rest.isEmpty = false := by
          cases rest with
          | nil => exact absurd rfl hrest
          | cons _ _ => rfl
        cases hf : eventCallOf (eventCopyFor env event w) w.digitalData x <;>
          simp [hskip, hemp]
    generalize hoeq : outcomeOf env (eventCopyFor env event w) w.digitalData x = o at key ⊢
    cases o with
    | returned result =>
      simp only [onComplete_returned]
      obtain ⟨w2, v2, heq2, hc2, hl2⟩ :=
        ready_exact env i times (recordOutcome (.returned result) agg) w1 event hev1 hret
      rw [heq2]
      exact key w2 hc2 hl2
    | threw e =>
      simp only [fireEventCatch, onComplete_threw]
      obtain ⟨w2, v2, heq2, hc2, hl2⟩ :=
        ready_exact env i times (recordOutcome (.threw e) agg) w1 event hev1 hret
      rw [heq2]
      exact key (logError e w2) hc2 hl2

theorem foldl_recordOutcome (f : Entry → Completion) (entries : List Entry) :
    ∀ agg : Aggregate,
      (entries.foldl (fun a x => counted (recordOutcome (f x) a)) agg).results =
        agg.results ++ resultsOf (entries.map f) ∧
      (entries.foldl (fun a x => counted (recordOutcome (f x) a)) agg).errors =
        agg.errors ++ errorsOf (entries.map f) := by
  induction entries with
  | nil => intro agg; simp [resultsOf, errorsOf]
  | cons x rest ih =>
    intro agg
    obtain ⟨h1, h2⟩ := ih (counted (recordOutcome (f x) agg))
    simp only [List.foldl_cons, h1, h2, List.map_cons]
    unfold recordOutcome counted resultsOf errorsOf
    cases f x with
    | returned v => by_cases hv : v.isDefined = true <;> simp [hv, List.filterMap_cons]
    | threw e => by_cases he : e.truthy = true <;> simp [he, List.filterMap_cons]

end EventManager

namespace EventManager

/-- What `fireEvent` does once the beforeEvent gate has let the event through
and event handlers are registered, with what the gate has logged. -/
theorem fireEvent_open_some_log (env : Env) (i : Nat) (w : World) (event : Event)
    (entries : List Entry)
    (hev : w.digitalData.events[i]? = some event)
    (hgate : GateOpen env (withTimestamp w.now event) w.callbacks)
    (hreg : getCallbacks "event" w.callbacks = some entries) :
    ∃ w1 before, core w1 = core (stampedWorld i event w) ∧
      w1.log = w.log ++ before ∧ (∀ c ∈ before, c.site = .beforeEvent) ∧
      fireEvent env i w =
        match fireEventLoop env i entries.length entries {} w1 with
        | (_, w2, .threw e) => (w2, .threw e)
        | (_, w2, .returned _) => (markFired i w2, .returned .undefined) := by
  have hb := beforeFireEvent_pass env (withTimestamp w.now event)
    (setEvents (w.digitalData.events.set i (withTimestamp w.now event)) w) hgate
  have hbl := logExt_beforeFireEvent env (fun s => s = .beforeEvent)
    (setEvents (w.digitalData.events.set i (withTimestamp w.now event)) w).digitalData.data
    (withTimestamp w.now event) rfl
    (setEvents (w.digitalData.events.set i (withTimestamp w.now event)) w) rfl
  have hbc := core_beforeFireEvent env (withTimestamp w.now event)
    (setEvents (w.digitalData.events.set i (withTimestamp w.now event)) w)
  simp only [fireEvent, fireEventHandlers, hev]
  generalize beforeFireEvent env (withTimestamp w.now event)
    (setEvents (w.digitalData.events.set i (withTimestamp w.now event)) w) = r at hb hbl hbc ⊢
  rcases r with ⟨w1, c⟩
  simp only at hb hbl hbc
  subst hb
  have hcbs : w1.callbacks = w.callbacks := by
    have h1 := callbacks_of_core hbc
    exact h1
  obtain ⟨before, hlog, hp⟩ := hbl
  refine ⟨w1, before, hbc, hlog, fun c hc => (hp c hc).1, ?_⟩
  simp [Val.truthy, hcbs, hreg]

theorem mem_resultsOf (outcomes : List Completion) (v : Val) :
    v ∈ resultsOf outcomes ↔ .returned v ∈ outcomes ∧ v.isDefined = true := by
  unfold resultsOf
  rw [List.mem_filterMap]
  constructor
  · rintro ⟨o, ho, h⟩
    cases o with
    | returned u =>
      by_cases hu : u.isDefined = true
      · simp only [hu, if_true, Option.some.injEq] at h
        subst h
        exact ⟨ho, hu⟩
      · simp [hu] at h
    | threw e => simp at h
  · rintro ⟨ho, hv⟩
    exact ⟨_, ho, by simp [hv]⟩

theorem mem_errorsOf (outcomes : List Completion) (e : Val) :
    e ∈ errorsOf outcomes ↔ .threw e ∈ outcomes ∧ e.truthy = true := by
  unfold errorsOf
  rw [List.mem_filterMap]
  constructor
  · rintro ⟨o, ho, h⟩
    cases o with
    | returned u => simp at h
    | threw u =>
      by_cases hu : u.truthy = true
      · simp only [hu, if_true, Option.some.injEq] at h
        subst h
        exact ⟨ho, hu⟩
      · simp [hu] at h
  · rintro ⟨ho, hv⟩
    exact ⟨_, ho, by simp [hv]⟩

end EventManager

namespace EventManager

theorem not_mem_ids_eraseIdx (callback : Entry) (entries : List Entry)
    (h : (entries.map Entry.id).Nodup) :
    callback.id ∉ (entries.eraseIdx (indexOfEntry callback entries)).map Entry.id := by
  unfold indexOfEntry
  induction entries with
  | nil => simp
  | cons x rest ih =>
    simp only [List.map_cons, List.nodup_cons] at h
    by_cases hx : x.id = callback.id
    · have h0 : List.findIdx (fun e => e.id == callback.id) (x :: rest) = 0 := by
        simp [List.findIdx_cons, hx]
      rw [h0, List.eraseIdx_cons_zero, ← hx]
      exact h.1
    · have hb : (x.id == callback.id) = false := by simpa using hx
      have h1 : List.findIdx (fun e => e.id == callback.id) (x :: rest) =
          List.findIdx (fun e => e.id == callback.id) rest + 1 := by
        simp [List.findIdx_cons, hb]
      rw [h1, List.eraseIdx_cons_succ, List.map_cons, List.mem_cons, not_or]
      exact ⟨fun h2 => hx h2.symm, ih h.2⟩

theorem nextId_of_core {a b : World} (h : core a = core b) : a.nextId = b.nextId := by
  have h1 := congrArg World.nextId h
  exact h1

theorem nextId_of_coreE {a b : World} (h : coreE a = coreE b) : a.nextId = b.nextId := by
  have h1 := congrArg World.nextId h
  exact h1

/-- What one define entry that is fired does to the registry and to the log. -/
theorem fireDefineEntry_define (env : Env) (callback : Entry) (value : Arg) (w : World) :
    defineEntries (fireDefineEntry env callback value w) =
      (defineEntries w).eraseIdx (indexOfEntry callback (defineEntries w)) ∧
    defineCalled (fireDefineEntry env callback value w) =
      defineCalled w ++ ((fnId callback.handler).map (fun _ => callback.id)).toList ∧
    (fireDefineEntry env callback value w).nextId = w.nextId := by
  have hc := callbacks_of_core (core_call env .define (some callback.id) callback.handler
    [value] w)
  have hn := nextId_of_core (core_call env .define (some callback.id) callback.handler
    [value] w)
  have hl := callsAt_call_same env .define (some callback.id) callback.handler [value] w
  unfold fireDefineEntry defineEntries defineCalled
  simp only
  generalize call env .define (some callback.id) callback.handler [value] w = r at hc hn hl ⊢
  rcases r with ⟨w1, o⟩
  simp only at hc hn hl
  have hfm : List.filterMap Call.entry (callsAt .define w1.log) =
      List.filterMap Call.entry (callsAt .define w.log) ++
        ((fnId callback.handler).map (fun _ => callback.id)).toList := by
    rw [hl, List.filterMap_append]
    cases fnId callback.handler <;> simp
  cases o with
  | threw e =>
    simp only [logError, getCallbacks_setCallbacks_same, Option.getD_some, hc]
    exact ⟨trivial, hfm, hn⟩
  | returned v =>
    simp only [getCallbacks_setCallbacks_same, Option.getD_some, hc]
    exact ⟨trivial, hfm, hn⟩

theorem defineInv_fireDefineEntry {w : World} (h : DefineInv w) (env : Env) (callback : Entry)
    (value : Arg) (hmem : callback ∈ defineEntries w) :
    DefineInv (fireDefineEntry env callback value w) := by
  obtain ⟨he, hcalled, hn⟩ := fireDefineEntry_define env callback value w
  have hsub : ((defineEntries w).eraseIdx (indexOfEntry callback (defineEntries w))).Sublist
      (defineEntries w) := List.eraseIdx_sublist _ _
  have hnot := not_mem_ids_eraseIdx callback (defineEntries w) h.entries
  constructor
  · rw [he]
    exact h.entries.sublist (hsub.map _)
  · rw [hcalled]
    cases fnId callback.handler with
    | none => simpa using h.called
    | some id =>
      simp only [Option.map_some', Option.toList_some]
      rw [List.nodup_append]
      refine ⟨h.called, List.nodup_singleton _, ?_⟩
      intro a ha hb
      rw [List.mem_singleton] at hb
      subst hb
      exact h.removed callback hmem ha
  · intro x hx
    rw [he] at hx
    rw [hcalled, List.mem_append, not_or]
    refine ⟨h.removed x (hsub.subset hx), ?_⟩
    cases fnId callback.handler with
    | none => simp
    | some id =>
      simp only [Option.map_some', Option.toList_some, List.mem_singleton]
      intro hxc
      exact hnot (by rw [← hxc]; exact List.mem_map.mpr ⟨x, hx, rfl⟩)
  · intro x hx
    rw [he] at hx
    rw [hn]
    exact h.entriesFresh x (hsub.subset hx)
  · intro id hid
    rw [hcalled, List.mem_append] at hid
    rw [hn]
    rcases hid with hid | hid
    · exact h.calledFresh id hid
    · cases hf : fnId callback.handler with
      | none => rw [hf] at hid; simp at hid
      | some f =>
        rw [hf] at hid
        simp only [Option.map_some', Option.toList_some, List.mem_singleton] at hid
        rw [hid]
        exact h.entriesFresh callback hmem

theorem defineInv_fireDefineLoop (env : Env) (fuel : Nat) :
    ∀ (i : Nat) (w : World), DefineInv w → DefineInv (fireDefineLoop env fuel i w) := by
  induction fuel with
  | zero => intro i w h; exact h
  | succ n ih =>
    intro i w h
    simp only [fireDefineLoop]
    cases hq : ((getCallbacks "define" w.callbacks).getD [])[i]? with
    | none => exact h
    | some callback =>
      simp only
      have hmem : callback ∈ defineEntries w := by
        rcases List.getElem?_eq_some.mp hq with ⟨hi, heq⟩
        rw [← heq]
        exact List.getElem_mem hi
      split
      · exact ih _ _ (defineInv_fireDefineEntry h env callback _ hmem)
      · exact ih _ _ h

theorem defineInv_fireDefine {w : World} (h : DefineInv w) (env : Env) :
    DefineInv (fireDefine env w) := by
  unfold fireDefine
  split
  · exact h
  · split
    · exact defineInv_fireDefineLoop env _ _ _ h
    · exact h

theorem defineInv_of_keep {w w1 : World} (h : DefineInv w)
    (h1 : callsAt .define w1.log = callsAt .define w.log)
    (h2 : getCallbacks "define" w1.callbacks = getCallbacks "define" w.callbacks)
    (h3 : w.nextId ≤ w1.nextId) : DefineInv w1 := by
  have he : defineEntries w1 = defineEntries w := by unfold defineEntries; rw [h2]
  have hc : defineCalled w1 = defineCalled w := by unfold defineCalled; rw [h1]
  refine ⟨by rw [he]; exact h.entries, by rw [hc]; exact h.called,
    by rw [he, hc]; exact h.removed, ?_, ?_⟩
  · intro x hx
    rw [he] at hx
    exact Nat.lt_of_lt_of_le (h.entriesFresh x hx) h3
  · intro id hid
    rw [hc] at hid
    exact Nat.lt_of_lt_of_le (h.calledFresh id hid) h3

theorem defineInv_of_view {w w1 : World} (h : DefineInv w) (hv : defineView w1 = defineView w) :
    DefineInv w1 :=
  defineInv_of_keep h (congrArg Prod.fst hv) (congrArg (fun v => v.2.1) hv)
    (Nat.le_of_eq (congrArg (fun v => v.2.2) hv).symm)

theorem frame_defineView : Frame defineView (fun s => s ≠ .define) (fun _ => False) where
  call := by
    intro env site entry f args w hs
    unfold defineView
    rw [callsAt_call_ne env .define site entry f args w hs,
      callbacks_of_core (core_call env site entry f args w),
      nextId_of_core (core_call env site entry f args w)]
  logError := fun _ _ => rfl
  registry := fun _ _ _ _ hk => absurd hk id
  collab := fun _ _ => rfl

theorem defineInv_checkForChanges {w : World} (h : DefineInv w) (env : Env) :
    DefineInv (checkForChanges env w) := by
  unfold checkForChanges
  split
  · dsimp only
    split
    · have h1 : DefineInv { w with previousDigitalData := _getCopyWithoutEvents w.digitalData } :=
        defineInv_of_view h rfl
      exact defineInv_of_view (defineInv_fireDefine h1 env)
        (frame_defineView.fireChange (by decide) env _ _ _)
    · exact h
  · exact h

theorem defineInv_tick {w : World} (h : DefineInv w) (env : Env) : DefineInv (tick env w) :=
  defineInv_checkForChanges (defineInv_fireDefine h env) env

theorem defineInv_pushChange {w : World} (h : DefineInv w) (env : Env) (c : ChangeOp) :
    DefineInv (pushChange env c w) := by
  refine defineInv_of_view h ?_
  unfold pushChange
  simp only
  split <;> rfl

/-- A new registry entry gets the next fresh identity, which no define entry
and no define call has. -/
theorem defineInv_register {w : World} (h : DefineInv w) (type : String) (key : Option String)
    (handler : Val) :
    DefineInv { w with
      callbacks := setCallbacks type
        ((getCallbacks type w.callbacks).getD [] ++ [⟨w.nextId, key, handler⟩]) w.callbacks
      nextId := w.nextId + 1 } := by
  by_cases ht : type = "define"
  · subst ht
    have he : defineEntries { w with
        callbacks := setCallbacks "define"
          ((getCallbacks "define" w.callbacks).getD [] ++ [⟨w.nextId, key, handler⟩]) w.callbacks
        nextId := w.nextId + 1 } = defineEntries w ++ [⟨w.nextId, key, handler⟩] := by
      unfold defineEntries
      simp only [getCallbacks_setCallbacks_same, Option.getD_some]
    have hc : defineCalled { w with
        callbacks := setCallbacks "define"
          ((getCallbacks "define" w.callbacks).getD [] ++ [⟨w.nextId, key, handler⟩]) w.callbacks
        nextId := w.nextId + 1 } = defineCalled w := rfl
    refine ⟨?_, by rw [hc]; exact h.called, ?_, ?_, ?_⟩
    · rw [he, List.map_append, List.nodup_append]
      refine ⟨h.entries, List.nodup_singleton _, ?_⟩
      intro a ha hb
      simp only [List.map_cons, List.map_nil, List.mem_singleton] at hb
      obtain ⟨x, hx, hxa⟩ := List.mem_map.mp ha
      have := h.entriesFresh x hx
      omega
    · intro x hx
      rw [he, List.mem_append, List.mem_singleton] at hx
      rw [hc]
      rcases hx with hx | hx
      · exact h.removed x hx
      · rw [hx]
        intro hin
        exact Nat.lt_irrefl _ (h.calledFresh _ hin)
    · intro x hx
      rw [he, List.mem_append, List.mem_singleton] at hx
      rcases hx with hx | hx
      · exact Nat.lt_succ_of_lt (h.entriesFresh x hx)
      · rw [hx]; exact Nat.lt_succ_self _
    · intro id hid
      rw [hc] at hid
      exact Nat.lt_succ_of_lt (h.calledFresh id hid)
  · exact defineInv_of_keep h rfl
      (getCallbacks_setCallbacks_ne type "define" _ w.callbacks (fun h1 => ht h1.symm))
      (Nat.le_succ _)

theorem defineInv_subscribe {w : World} (h : DefineInv w) (env : Env)
    (eventInfo handler processPastEvents : Val) :
    DefineInv (subscribe env eventInfo handler processPastEvents w).1 := by
  unfold subscribe
  cases eventInfo <;> try exact h
  rename_i info
  simp only
  split
  · split
    · exact defineInv_of_view h rfl
    · exact h
  · split
    · exact h
    · have h1 := defineInv_register h ((splitColon info).headD "") (splitColon info)[1]? handler
      split
      · simp only [applyCallbackForPastEvents]
        exact defineInv_of_view h1 (frame_defineView.replayLoop (by decide) env handler _ _)
      · exact h1

theorem defineInv_addCallback {w : World} (h : DefineInv w) (env : Env)
    (callbackInfo processPastEvents : Val) :
    DefineInv (addCallback env callbackInfo processPastEvents w).1 := by
  unfold addCallback
  simp only
  split
  · split
    · exact h
    · split
      · split
        · exact h
        · exact defineInv_subscribe h _ _ _ _
      · exact h
  · exact h

theorem defineInv_addEarlyCallbacksLoop (env : Env) (commands : List Val) :
    ∀ w : World, DefineInv w → DefineInv (addEarlyCallbacksLoop env commands w).1 := by
  induction commands with
  | nil => intro w h; exact h
  | cons c rest ih =>
    intro w h
    have h1 := defineInv_addCallback h env c .undefined
    simp only [addEarlyCallbacksLoop]
    generalize addCallback env c .undefined w = r at h1 ⊢
    rcases r with ⟨w1, o⟩
    cases o with
    | threw e => exact h1
    | returned v => exact ih w1 h1

theorem defineInv_pushListener {w : World} (h : DefineInv w) (env : Env) (c : Val) :
    DefineInv (pushListener env c w).1 := by
  unfold pushListener
  split
  · exact defineInv_of_view h rfl
  · have h1 := defineInv_addCallback h env c .undefined
    generalize addCallback env c .undefined w = r at h1 ⊢
    rcases r with ⟨w1, o⟩
    cases o with
    | threw e => exact h1
    | returned v => exact defineInv_of_view h1 rfl

theorem defineView_of_dispatch {a b : World} {d : Val} (hc : coreE a = coreE b)
    (hl : LogExt (CallIn DispatchSite d) b a) : defineView a = defineView b := by
  unfold defineView
  rw [callsAt_of_logExt .define hl (by intro h; rcases h with h | h | h <;> cases h),
    callbacks_of_coreE hc, nextId_of_coreE hc]

theorem defineView_fireEvent (env : Env) (i : Nat) (w : World) :
    defineView (fireEvent env i w).1 = defineView w :=
  defineView_of_dispatch (coreE_fireEvent env i w)
    (logExt_fireEvent env DispatchSite w.digitalData.data i (Or.inl rfl) (Or.inr (Or.inl rfl))
      (Or.inr (Or.inr rfl)) w rfl)

theorem defineView_fireUnfiredEvents (env : Env) (w : World) :
    defineView (fireUnfiredEvents env w).1 = defineView w :=
  defineView_of_dispatch (coreE_fireUnfiredEvents env w)
    (logExt_fireUnfiredEventsFrom env DispatchSite w.digitalData.data (Or.inl rfl)
      (Or.inr (Or.inl rfl)) (Or.inr (Or.inr rfl)) _ 0 w rfl)

theorem defineView_pushEvent (env : Env) (e : Event) (w : World) :
    defineView (pushEvent env e w).1 = defineView w := by
  unfold pushEvent
  split
  · rfl
  · split
    · exact (defineView_fireUnfiredEvents env _).trans rfl
    · rfl
  · exact (defineView_fireEvent env _ _).trans rfl

theorem defineView_initializeEvents (env : Env) (w : World) :
    defineView (initializeEvents env w).1 = defineView w := by
  unfold initializeEvents
  split
  · have h := defineView_fireUnfiredEvents env w
    generalize fireUnfiredEvents env w = r at h ⊢
    rcases r with ⟨w1, o⟩
    cases o with
    | threw e => exact h
    | returned v => exact h
  · split
    · have h := defineView_fireUnfiredEvents env (addViewedPageEvent none w)
      generalize fireUnfiredEvents env (addViewedPageEvent none w) = r at h ⊢
      rcases r with ⟨w1, o⟩
      cases o with
      | threw e => exact h
      | returned v => exact h
    · rfl

theorem defineView_initializeEnd (w : World) : defineView (initializeEnd w) = defineView w := by
  unfold initializeEnd
  simp only
  split <;> rfl

theorem defineView_applyEarlyChanges (env : Env) (w : World) :
    defineView (applyEarlyChanges env w) = defineView w := by
  unfold applyEarlyChanges
  generalize w.digitalData.changes = changes
  induction changes generalizing w with
  | nil => rfl
  | cons c rest ih => simp only [List.foldl_cons]; rw [ih]; rfl

theorem defineInv_initializeStart {w : World} (h : DefineInv w) (env : Env) :
    DefineInv (initializeStart env w).1 := by
  unfold initializeStart
  simp only
  have h0 : DefineInv
      { w with collab := w.collab ++ w.customEvents.map (fun customEvent => Collab.track customEvent) } :=
    defineInv_of_view h rfl
  have h1 := defineInv_addEarlyCallbacksLoop env w.ddListener _ h0
  unfold addEarlyCallbacks
  simp only
  generalize addEarlyCallbacksLoop env w.ddListener
    { w with collab := w.collab ++ w.customEvents.map (fun customEvent => Collab.track customEvent) }
    = r at h1 ⊢
  rcases r with ⟨w2, o⟩
  cases o with
  | threw e => exact h1
  | returned v =>
    simp only
    have h3 := defineInv_fireDefine h1 env
    have h4 : DefineInv { fireDefine env w2 with ddListenerPush := .live } :=
      defineInv_of_view h3 rfl
    have h5 := defineInv_of_view h4 (defineView_applyEarlyChanges env _)
    exact defineInv_of_keep h5 rfl rfl (Nat.le_succ _)

theorem defineInv_initializeManager {w : World} (h : DefineInv w) (env : Env) :
    DefineInv (initializeManager env w).1 := by
  have h1 := defineInv_initializeStart h env
  unfold initializeManager
  generalize initializeStart env w = r at h1 ⊢
  rcases r with ⟨w1, o⟩
  cases o with
  | threw e => exact h1
  | returned v =>
    simp only
    have h2 := defineInv_of_view h1 (defineView_initializeEvents env w1)
    generalize initializeEvents env w1 = r2 at h2 ⊢
    rcases r2 with ⟨w2, o2⟩
    cases o2 with
    | threw e => exact h2
    | returned v2 => exact defineInv_of_view h2 (defineView_initializeEnd w2)

theorem defineInv_reset {w : World} (h : DefineInv w) : DefineInv (reset w) := by
  have he : defineEntries (reset w) = [] := rfl
  have hc : defineCalled (reset w) = defineCalled w := rfl
  refine ⟨by rw [he]; exact List.nodup_nil, by rw [hc]; exact h.called,
    (by rw [he]; intro x hx; cases hx), (by rw [he]; intro x hx; cases hx), ?_⟩
  intro id hid
  rw [hc] at hid
  exact h.calledFresh id hid

theorem defineInv_step {w : World} (h : DefineInv w) (env : Env) (op : Op) :
    DefineInv (step env op w) := by
  cases op with
  | append e => exact defineInv_of_view h (defineView_pushEvent env e w)
  | init => exact defineInv_initializeManager h env
  | reset => exact defineInv_reset h
  | change c => exact defineInv_pushChange h env c
  | command c => exact defineInv_pushListener h env c
  | tick => exact defineInv_tick h env
  | subscribe eventInfo handler processPastEvents =>
    exact defineInv_subscribe h env eventInfo handler processPastEvents

theorem defineInv_run (env : Env) (ops : List Op) :
    ∀ w : World, DefineInv w → DefineInv (run env ops w) := by
  induction ops with
  | nil => intro w h; exact h
  | cons op rest ih =>
    intro w h
    unfold run
    rw [List.foldl_cons]
    exact ih _ (defineInv_step h env op)

end EventManager

namespace EventManager

/-- What `ready` leaves behind, whatever the completion callback does. -/
theorem ready_log (env : Env) (i times : Nat) (agg : Aggregate) (w : World) (event : Event)
    (hev : w.digitalData.events[i]? = some event) :
    (ready env i times agg w).1 = counted agg ∧
    (ready env i times agg w).2.1.log = w.log ++
      (if agg.readyCalls + 1 = times then
        (event.callback.map (fun f => (⟨.completion, none, f,
          [.list agg.results, .list agg.errors], w.digitalData⟩ : Call))).toList
       else []) := by
  by_cases h : agg.readyCalls + 1 = times
  · cases hcb : event.callback with
    | none => simp [ready, afterFires, h, hev, hcb, counted]
    | some f =>
      rw [ready_fire env i times agg w event f h hev hcb]
      simp [h]
  · rw [ready_skip env i times agg w h]
    simp [h]

/-- The log of the handler loop of `fireEvent`, whatever the handlers and the
completion callback do: every handler that is a function is called once, in
order, and after the last one the completion callback is called with the
lists as they are after the outcomes of all the handlers. -/
theorem fireEventLoop_calls (env : Env) (i times : Nat) (event : Event) (entries : List Entry) :
    ∀ (agg : Aggregate) (w : World), w.digitalData.events[i]? = some event →
      agg.readyCalls + entries.length = times →
      (fireEventLoop env i times entries agg w).2.1.log = w.log ++
        entries.filterMap (eventCallOf (eventCopyFor env event w) w.digitalData) ++
        (if entries.isEmpty then []
         else (event.callback.map (fun f => (⟨.completion, none, f,
           [.list (entries.foldl (fun a x => counted (recordOutcome
              (outcomeOf env (eventCopyFor env event w) w.digitalData x) a)) agg).results,
            .list (entries.foldl (fun a x => counted (recordOutcome
              (outcomeOf env (eventCopyFor env event w) w.digitalData x) a)) agg).errors],
           w.digitalData⟩ : Call))).toList) := by
  induction entries with
  | nil => intro agg w _ _; simp [fireEventLoop]
  | cons x rest ih =>
    intro agg w hev hcount
    obtain ⟨hcc, hlog, hout⟩ := call_event_exact env (eventCopyFor env event w) x w
    simp only [fireEventLoop, hev]
    generalize call env .event (some x.id) x.handler
      [.event (eventCopyFor env event w)] w = r at hcc hlog hout ⊢
    rcases r with ⟨w1, o⟩
    simp only at hcc hlog hout
    subst hout
    have hdd1 : w1.digitalData = w.digitalData := digitalData_of_core hcc
    have hev1 : w1.digitalData.events[i]? = some event := by rw [hdd1]; exact hev
    have hcall : w.log ++ (eventCallOf (eventCopyFor env event w) w.digitalData x).toList =
        w.log ++ [x].filterMap (eventCallOf (eventCopyFor env event w) w.digitalData) := by
      cases hf : eventCallOf (eventCopyFor env event w) w.digitalData x <;>
        simp [List.filterMap_cons, hf]
    by_cases hrest : rest = []
    · subst hrest
      have hfire : agg.readyCalls + 1 = times := by simpa using hcount
      obtain ⟨hr1, hr3⟩ := ready_log env i times
        (recordOutcome (outcomeOf env (eventCopyFor env event w) w.digitalData x) agg) w1 event hev1
      rw [recordOutcome_readyCalls] at hr3
      simp only [hfire, if_true] at hr3
      generalize hoeq : outcomeOf env (eventCopyFor env event w) w.digitalData x = o at hr1 hr3 ⊢
      cases o with
      | returned result =>
        simp only [onComplete_returned]
        generalize ready env i times (recordOutcome (.returned result) agg) w1 = r at hr1 hr3 ⊢
        rcases r with ⟨a2, w2, c2⟩
        simp only at hr1 hr3
        subst hr1
        cases c2 with
        | returned v =>
          simp only [fireEventLoop]
          rw [hr3, hlog, hcall, hdd1]
          simp [counted, hoeq]
        | threw e =>
          simp only
          rw [fireEventCatch_skip _ _ _ _ _ _ (by
            simp only [counted, recordOutcome_readyCalls]; omega)]
          simp only [fireEventLoop, logError]
          rw [hr3, hlog, hcall, hdd1]
          simp [counted, hoeq]
      | threw e =>
        simp only [fireEventCatch, onComplete_threw]
        generalize ready env i times (recordOutcome (.threw e) agg) w1 = r at hr1 hr3 ⊢
        rcases r with ⟨a2, w2, c2⟩
        simp only at hr1 hr3
        subst hr1
        cases c2 with
        | returned v =>
          simp only [fireEventLoop, logError]
          rw [hr3, hlog, hcall, hdd1]
          simp [counted, hoeq]
        | threw e2 =>
          simp only
          rw [hr3, hlog, hcall, hdd1]
          simp [counted, hoeq]
    · have hskip : agg.readyCalls + 1 ≠ times := by
        have := List.length_pos.mpr hrest
        simp at hcount; omega
      have hemp : rest.isEmpty = false := by
        cases rest with
        | nil => exact absurd rfl hrest
        | cons _ _ => rfl
      have key : ∀ (w2 : World), w2.digitalData = w.digitalData → w2.log = w1.log →
          (fireEventLoop env i times rest
            (counted (recordOutcome (outcomeOf env (eventCopyFor env event w) w.digitalData x)
              agg)) w2).2.1.log = w.log ++
            (x :: rest).filterMap (eventCallOf (eventCopyFor env event w) w.digitalData) ++
            (if (x :: rest).isEmpty then []
             else (event.callback.map (fun f => (⟨.completion, none, f,
               [.list ((x :: rest).foldl (fun a x => counted (recordOutcome
                  (outcomeOf env (eventCopyFor env event w) w.digitalData x) a)) agg).results,
                .list ((x :: rest).foldl (fun a x => counted (recordOutcome
                  (outcomeOf env (eventCopyFor env event w) w.digitalData x) a)) agg).errors],
               w.digitalData⟩ : Call))).toList) := by
        intro w2 hdd2 hl2
        have hev2 : w2.digitalData.events[i]? = some event := by rw [hdd2]; exact hev
        have h3 := ih
          (counted (recordOutcome (outcomeOf env (eventCopyFor env event w) w.digitalData x) agg))
          w2 hev2 (by simp only [counted, recordOutcome_readyCalls]; simp at hcount; omega)
        rw [eventCopyFor_congr env event hdd2, hdd2] at h3
        rw [h3, hl2, hlog]
        cases hf : eventCallOf (eventCopyFor env event w) w.digitalData x <;>
          simp [hemp, List.filterMap_cons, hf]
      generalize hoeq : outcomeOf env (eventCopyFor env event w) w.digitalData x = o at key ⊢
      cases o with
      | returned result =>
        simp only [onComplete_returned]
        rw [ready_skip _ _ _ _ _ (by rw [recordOutcome_readyCalls]; exact hskip)]
        exact key w1 hdd1 rfl
      | threw e =>
        simp only
        rw [fireEventCatch_skip _ _ _ _ _ _ hskip]
        exact key (logError e w1) hdd1 rfl

/-- The log of one `fireEvent` with event handlers registered and the
beforeEvent gate open, whatever the handlers and the completion callback do. -/
theorem fireEvent_calls (env : Env) (i : Nat) (w : World) (event : Event)
    (entries : List Entry)
    (hev : w.digitalData.events[i]? = some event)
    (hgate : GateOpen env (withTimestamp w.now event) w.callbacks)
    (hreg : getCallbacks "event" w.callbacks = some entries)
    (hne : entries ≠ []) :
    ∃ before : List Call, (∀ c ∈ before, c.site = .beforeEvent) ∧
      (fireEvent env i w).1.log = w.log ++ before ++
        entries.filterMap
          (eventCallOf (handlerCopy env i event w) (stampedWorld i event w).digitalData) ++
        (event.callback.map (fun f => (⟨.completion, none, f,
          [.list (resultsOf (handlerOutcomes env i event w entries)),
           .list (errorsOf (handlerOutcomes env i event w entries))],
          (stampedWorld i event w).digitalData⟩ : Call))).toList := by
  obtain ⟨w1, before, hcore, hlog1, hbefore, heq⟩ :=
    fireEvent_open_some_log env i w event entries hev hgate hreg
  have hdd1 : w1.digitalData = (stampedWorld i event w).digitalData := digitalData_of_core hcore
  have hev1 : w1.digitalData.events[i]? = some (withTimestamp w.now event) := by
    rw [hdd1]
    exact getElem?_set_of_getElem? _ _ _ _ hev
  have hl2 := fireEventLoop_calls env i entries.length (withTimestamp w.now event) entries {} w1
    hev1 (by simp)
  have hemp : entries.isEmpty = false := by
    cases entries with
    | nil => exact absurd rfl hne
    | cons _ _ => rfl
  obtain ⟨hres, herr⟩ := foldl_recordOutcome
    (outcomeOf env (handlerCopy env i event w) (stampedWorld i event w).digitalData) entries {}
  rw [eventCopyFor_congr env _ hdd1, hdd1] at hl2
  refine ⟨before, hbefore, ?_⟩
  have hfin : (fireEvent env i w).1.log =
      (fireEventLoop env i entries.length entries {} w1).2.1.log := by
    rw [heq]
    generalize fireEventLoop env i entries.length entries {} w1 = r
    rcases r with ⟨a2, w2, c⟩
    cases c with
    | returned v => simp only [markFired_log]
    | threw e => rfl
  rw [hfin, hl2, hlog1, withTimestamp_callback]
  simp only [hemp, Bool.false_eq_true, if_false]
  unfold handlerOutcomes
  unfold handlerCopy at hres herr ⊢
  rw [hres, herr]
  simp

/-- What `fireEvent` does once the beforeEvent gate has let the event through
and no event handler is registered, with what the gate has logged. -/
theorem fireEvent_open_none_log (env : Env) (i : Nat) (w : World) (event : Event)
    (hev : w.digitalData.events[i]? = some event)
    (hgate : GateOpen env (withTimestamp w.now event) w.callbacks)
    (hreg : getCallbacks "event" w.callbacks = none) :
    ∃ w1 before, core w1 = core (stampedWorld i event w) ∧
      w1.log = w.log ++ before ∧ (∀ c ∈ before, c.site = .beforeEvent) ∧
      fireEvent env i w =
        match event.callback with
        | some f =>
          match call env .completion none (.fn f) [] w1 with
          | (w2, .threw e) => (w2, .threw e)
          | (w2, .returned _) => (markFired i w2, .returned .undefined)
        | none => (markFired i w1, .returned .undefined) := by
  have hb := beforeFireEvent_pass env (withTimestamp w.now event)
    (setEvents (w.digitalData.events.set i (withTimestamp w.now event)) w) hgate
  have hbl := logExt_beforeFireEvent env (fun s => s = .beforeEvent)
    (setEvents (w.digitalData.events.set i (withTimestamp w.now event)) w).digitalData.data
    (withTimestamp w.now event) rfl
    (setEvents (w.digitalData.events.set i (withTimestamp w.now event)) w) rfl
  have hbc := core_beforeFireEvent env (withTimestamp w.now event)
    (setEvents (w.digitalData.events.set i (withTimestamp w.now event)) w)
  simp only [fireEvent, fireEventHandlers, hev]
  generalize beforeFireEvent env (withTimestamp w.now event)
    (setEvents (w.digitalData.events.set i (withTimestamp w.now event)) w) = r at hb hbl hbc ⊢
  rcases r with ⟨w1, c⟩
  simp only at hb hbl hbc
  subst hb
  have hcbs : w1.callbacks = w.callbacks := by
    have h1 := callbacks_of_core hbc
    exact h1
  obtain ⟨before, hlog, hp⟩ := hbl
  refine ⟨w1, before, hbc, hlog, fun c hc => (hp c hc).1, ?_⟩
  simp [Val.truthy, hcbs, hreg, withTimestamp_callback]

theorem erased_of_coreE {a b : World} (h : coreE a = coreE b) :
    a.digitalData.events.map eraseFiring = b.digitalData.events.map eraseFiring := by
  have h2 := congrArg (fun w => w.digitalData.events) h
  exact h2

theorem previousDigitalData_of_coreE {a b : World} (h : coreE a = coreE b) :
    a.previousDigitalData = b.previousDigitalData := by
  have h1 := congrArg World.previousDigitalData h
  exact h1

end EventManager

namespace EventManager

theorem callsAt_eventCalls (copy : Event) (dd : DigitalData) (entries : List Entry) :
    callsAt .event (entries.filterMap (eventCallOf copy dd)) =
      entries.filterMap (eventCallOf copy dd) := by
  unfold callsAt
  rw [List.filter_eq_self]
  intro c hc
  rw [List.mem_filterMap] at hc
  obtain ⟨x, _, hx⟩ := hc
  unfold eventCallOf at hx
  cases hf : fnId x.handler with
  | none => rw [hf] at hx; cases hx
  | some id =>
    rw [hf] at hx
    simp only [Option.map_some', Option.some.injEq] at hx
    rw [← hx]
    simp

theorem callsAt_of_site_ne (site : Site) (calls : List Call)
    (h : ∀ c ∈ calls, c.site ≠ site) : callsAt site calls = [] := by
  unfold callsAt
  rw [List.filter_eq_nil_iff]
  intro c hc
  simpa using h c hc

theorem callsAt_event_completion (callback : Option Nat) (args : List Arg) (dd : DigitalData) :
    callsAt .event
      (callback.map (fun f => (⟨.completion, none, f, args, dd⟩ : Call))).toList = [] := by
  cases callback <;> simp [callsAt]

theorem callsAt_completion_beforeCalls (event : Event) (dd : DigitalData)
    (entries : List Entry) :
    callsAt .completion (entries.filterMap (beforeCallOf event dd)) = [] := by
  apply callsAt_of_site_ne
  intro c hc
  rw [List.mem_filterMap] at hc
  obtain ⟨y, _, hy⟩ := hc
  unfold beforeCallOf at hy
  cases hf : fnId y.handler with
  | none => rw [hf] at hy; cases hy
  | some id =>
    rw [hf] at hy
    simp only [Option.map_some', Option.some.injEq] at hy
    rw [← hy]
    simp

theorem withTimestamp_enrichEventData (now : Nat) (event : Event) :
    (withTimestamp now event).enrichEventData = event.enrichEventData := by
  unfold withTimestamp; split <;> rfl

theorem frame_snapshotView : Frame snapshotView (fun _ => True) (fun _ => True) where
  call := by
    intro env site entry f args w _
    unfold snapshotView
    have h1 := digitalData_of_core (core_call env site entry f args w)
    have h2 : (call env site entry f args w).1.previousDigitalData = w.previousDigitalData := by
      have h3 := congrArg World.previousDigitalData (core_call env site entry f args w)
      exact h3
    rw [h1, h2]
  logError := fun _ _ => rfl
  registry := fun _ _ _ _ _ => rfl
  collab := fun _ _ => rfl

/-- A pass of `checkForChanges` that finds the stored snapshot equal to the
fresh one does nothing. -/
theorem checkForChanges_of_equal (env : Env) (w : World)
    (h : env.jsonIsEqual w.previousDigitalData (_getCopyWithoutEvents w.digitalData) = true) :
    checkForChanges env w = w := by
  unfold checkForChanges
  simp [h]

/-- A pass of `checkForChanges` that detects a difference stores the fresh
snapshot and leaves the shared state as it is. -/
theorem checkForChanges_snapshot (env : Env) (w : World) (h : detectsDifference env w = true) :
    snapshotView (checkForChanges env w) = (w.digitalData, _getCopyWithoutEvents w.digitalData) := by
  unfold detectsDifference at h
  simp only [Bool.and_eq_true, Bool.not_eq_true'] at h
  unfold checkForChanges
  simp only [h.1, h.2, if_true, Bool.not_false]
  rw [frame_snapshotView.fireChange trivial env, frame_snapshotView.fireDefine trivial trivial env]
  rfl

theorem passView_of_coreE {a b : World} (h : coreE a = coreE b) : passView a = passView b := by
  unfold passView
  rw [callbacks_of_coreE h, data_of_coreE h, previousDigitalData_of_coreE h]

theorem passView_pushEvent (env : Env) (e : Event) (w : World) :
    passView (pushEvent env e w).1 = passView w := by
  unfold pushEvent
  split
  · rfl
  · split
    · exact (passView_of_coreE (coreE_fireUnfiredEvents env _)).trans rfl
    · rfl
  · exact (passView_of_coreE (coreE_fireEvent env _ _)).trans rfl

theorem detectsDifference_of_passView (env : Env) {a b : World} (h : passView a = passView b) :
    detectsDifference env a = detectsDifference env b := by
  have h1 : a.callbacks = b.callbacks := congrArg Prod.fst h
  have h2 : a.digitalData.data = b.digitalData.data := congrArg (fun v => v.2.1) h
  have h3 : a.previousDigitalData = b.previousDigitalData := congrArg (fun v => v.2.2) h
  unfold detectsDifference hasChangeOrDefine _getCopyWithoutEvents
  rw [h1, h2, h3]

end EventManager

namespace EventManager

/-- C2, counterexample: the beforeEvent handler `f3` returns `false` for the
event, and after `fireEvent` the event's `hasFired` is still `false`. -/
theorem veto_marks_fired_counterexample :
    Vetoes sampleEnv (.fn 3) (withTimestamp vetoWorld.now clickedButton) ∧
    (getCallbacks "beforeEvent" vetoWorld.callbacks).map (fun l => l.map Entry.handler)
      = some [.fn 3] ∧
    (fireEvent sampleEnv 0 vetoWorld).1.digitalData.events.map Event.hasFired = [false] :=
  ⟨fun _ _ => rfl, rfl, by decide⟩

/-- C2, amended: when a beforeEvent handler returns `false` for the event (and
the handlers registered before it let the event through), `fireEvent` returns
`false` and leaves the event's `hasFired` as it was. -/
theorem fireEvent_veto_keeps_hasFired (env : Env) (i : Nat) (w : World) (event : Event)
    (pre post : List Entry) (x : Entry)
    (hev : w.digitalData.events[i]? = some event)
    (hreg : getCallbacks "beforeEvent" w.callbacks = some (pre ++ x :: post))
    (hpre : ∀ b ∈ pre, Passes env b.handler (withTimestamp w.now event))
    (hx : Vetoes env x.handler (withTimestamp w.now event)) :
    (fireEvent env i w).2 = .returned (.bool false) ∧
    ((fireEvent env i w).1.digitalData.events[i]?).map Event.hasFired = some event.hasFired := by
  have hb : (beforeFireEvent env (withTimestamp w.now event)
      (setEvents (w.digitalData.events.set i (withTimestamp w.now event)) w)).2
      = .returned (.bool false) := by
    unfold beforeFireEvent
    have hreg1 : getCallbacks "beforeEvent"
        (setEvents (w.digitalData.events.set i (withTimestamp w.now event)) w).callbacks
        = some (pre ++ x :: post) := hreg
    rw [hreg1]
    exact beforeFireEventLoop_veto env _ pre post x _ hpre hx
  have hbc := core_beforeFireEvent env (withTimestamp w.now event)
    (setEvents (w.digitalData.events.set i (withTimestamp w.now event)) w)
  simp only [fireEvent, fireEventHandlers, hev]
  generalize beforeFireEvent env (withTimestamp w.now event)
    (setEvents (w.digitalData.events.set i (withTimestamp w.now event)) w) = r at hb hbc ⊢
  rcases r with ⟨w1, c⟩
  simp only at hb hbc
  subst hb
  simp only [Val.truthy, Bool.not_false, if_true, true_and]
  rw [events_of_core_setEvents hbc, getElem?_set_of_getElem? _ _ _ _ hev]
  simp [withTimestamp_hasFired]

theorem fireEvent_veto_keeps_hasFired_witness :
    (fireEvent sampleEnv 0 vetoWorld).2 = .returned (.bool false) ∧
    ((fireEvent sampleEnv 0 vetoWorld).1.digitalData.events[0]?).map Event.hasFired
      = some clickedButton.hasFired :=
  fireEvent_veto_keeps_hasFired sampleEnv 0 vetoWorld clickedButton [] [] ⟨0, none, .fn 3⟩
    rfl rfl (fun _ h => nomatch h) (fun _ _ => rfl)

end EventManager

namespace EventManager

theorem recordOutcome_length_le (o : Completion) (a : Aggregate) :
    (recordOutcome o a).results.length + (recordOutcome o a).errors.length
      ≤ a.results.length + a.errors.length + 1 := by
  unfold recordOutcome
  cases o <;> simp only <;> split <;> simp <;> omega

theorem recordOutcome_length_eq (o : Completion) (a : Aggregate)
    (h : (match o with
      | .returned v => v.isDefined
      | .threw e => e.truthy) = true) :
    (recordOutcome o a).results.length + (recordOutcome o a).errors.length
      = a.results.length + a.errors.length + 1 := by
  unfold recordOutcome
  cases o <;> simp only at h <;> simp [h] <;> omega

/-- C4, counterexample: one event handler is registered and returns
`undefined`; the completion callback is given `results` and `errors` with no
entry at all. -/
theorem outcomes_equal_handlers_counterexample :
    (getCallbacks "event" silentWorld.callbacks).map List.length = some 1 ∧
    (callsAt .completion (fireEvent sampleEnv 0 silentWorld).1.log).map recordedOutcomes = [0] ∧
    (0 : Nat) ≠ 1 :=
  ⟨by decide, by decide, by decide⟩

/-- C4, amended: with `N >= 1` event handlers registered and the gate open,
the completion callback is called with `results` and `errors` such that
`results.length + errors.length <= N`; the sum is `N` when every handler returns
a value other than `undefined` or throws a truthy value. -/
theorem completion_lists_bound (env : Env) (i : Nat) (w : World) (event : Event) (f : Nat)
    (entries : List Entry)
    (hev : w.digitalData.events[i]? = some event)
    (hcb : event.callback = some f)
    (hgate : GateOpen env (withTimestamp w.now event) w.callbacks)
    (hreg : getCallbacks "event" w.callbacks = some entries)
    (hne : entries ≠ []) :
    ∃ c results errors,
      callsAt .completion (fireEvent env i w).1.log = callsAt .completion w.log ++ [c] ∧
      c.fn = f ∧ c.args = [.list results, .list errors] ∧
      results.length + errors.length ≤ entries.length ∧
      ((∀ x ∈ entries, Recorded env x.handler) →
        results.length + errors.length = entries.length) := by
  obtain ⟨a, ⟨hle, heq⟩, hat, hcalls⟩ := fireEvent_completion_call env i w event f entries
    (fun a => a.results.length + a.errors.length ≤ a.readyCalls ∧
      ((∀ x ∈ entries, Recorded env x.handler) →
        a.results.length + a.errors.length = a.readyCalls))
    hev hcb hgate hreg hne ⟨Nat.le_refl _, fun _ => rfl⟩
    (by
      intro x hx args w1 a ⟨hle, heq⟩
      constructor
      · have h1 := recordOutcome_length_le (call env .event (some x.id) x.handler args w1).2 a
        simp only [counted, recordOutcome_readyCalls]
        omega
      · intro hall
        have h1 := recordOutcome_length_eq (call env .event (some x.id) x.handler args w1).2 a
          (hall x hx (some x.id) args w1)
        have h2 := heq hall
        simp only [counted, recordOutcome_readyCalls]
        omega)
  exact ⟨_, a.results, a.errors, hcalls, rfl, rfl, by omega, fun hall => by rw [heq hall, hat]⟩

theorem completion_lists_bound_witness :
    ∃ c results errors,
      callsAt .completion (fireEvent sampleEnv 0 silentWorld).1.log =
        callsAt .completion silentWorld.log ++ [c] ∧
      c.fn = 9 ∧ c.args = [.list results, .list errors] ∧
      results.length + errors.length ≤ [(⟨0, none, .fn 0⟩ : Entry)].length ∧
      ((∀ x ∈ [(⟨0, none, .fn 0⟩ : Entry)], Recorded sampleEnv x.handler) →
        results.length + errors.length = [(⟨0, none, .fn 0⟩ : Entry)].length) :=
  completion_lists_bound sampleEnv 0 silentWorld clickedButton 9 [⟨0, none, .fn 0⟩]
    rfl rfl (fun _ h => nomatch h) rfl (by simp)

/-- C5, counterexample: the event carries the completion callback `f9`, the
beforeEvent handler `f3` returns `false`, and `fireEvent` makes no completion
call. -/
theorem completion_once_counterexample :
    clickedButton.callback = some 9 ∧
    (callsAt .completion (fireEvent sampleEnv 0 vetoWorld).1.log).length = 0 :=
  ⟨rfl, by decide⟩

/-- C5, amended: for an event that carries a completion callback, when the
beforeEvent gate lets the event through, one call of `fireEvent` makes exactly
one completion call, to that callback; when a beforeEvent handler returns
`false` (those before it letting the event through), `fireEvent` makes no
completion call. -/
theorem completion_callback_once (env : Env) (i : Nat) (w : World) (event : Event) (f : Nat)
    (hev : w.digitalData.events[i]? = some event)
    (hcb : event.callback = some f) :
    (GateOpen env (withTimestamp w.now event) w.callbacks →
      getCallbacks "event" w.callbacks ≠ some [] →
      (callsAt .completion (fireEvent env i w).1.log).map Call.fn =
        (callsAt .completion w.log).map Call.fn ++ [f]) ∧
    (∀ pre x post, getCallbacks "beforeEvent" w.callbacks = some (pre ++ x :: post) →
      (∀ b ∈ pre, Passes env b.handler (withTimestamp w.now event)) →
      Vetoes env x.handler (withTimestamp w.now event) →
      callsAt .completion (fireEvent env i w).1.log = callsAt .completion w.log) := by
  constructor
  · intro hgate hreg
    cases hr : getCallbacks "event" w.callbacks with
    | some entries =>
      have hne : entries ≠ [] := fun h => hreg (by rw [hr, h])
      obtain ⟨a, _, _, hcalls⟩ := fireEvent_completion_call env i w event f entries
        (fun _ => True) hev hcb hgate hr hne trivial (fun _ _ _ _ _ _ => trivial)
      rw [hcalls]
      simp
    | none =>
      obtain ⟨w1, _, hlog, heq⟩ := fireEvent_open_none env i w event hev hgate hr
      rw [heq, hcb, ← hlog .completion (by decide)]
      simp only [call]
      cases env.run f [] w1.digitalData with
      | returned v => simp [markFired_log, callsAt_append, callsAt_single]
      | threw e => simp [callsAt_append, callsAt_single]
  · intro pre x post hreg hpre hx
    have hreg0 : getCallbacks "beforeEvent"
        (setEvents (w.digitalData.events.set i (withTimestamp w.now event)) w).callbacks
        = some (pre ++ x :: post) := hreg
    simp only [fireEvent, hev, beforeFireEvent, hreg0]
    rw [beforeFireEventLoop_veto_exact env _ post x pre _ hpre hx]
    simp only [Val.truthy, Bool.not_false, if_true, callsAt_append,
      callsAt_completion_beforeCalls, List.append_nil]
    rfl

theorem completion_callback_once_witness :
    (callsAt .completion (fireEvent sampleEnv 0 silentWorld).1.log).map Call.fn =
      (callsAt .completion silentWorld.log).map Call.fn ++ [9] ∧
    callsAt .completion (fireEvent sampleEnv 0 vetoWorld).1.log =
      callsAt .completion vetoWorld.log :=
  ⟨(completion_callback_once sampleEnv 0 silentWorld clickedButton 9 rfl rfl).1
      (fun _ h => nomatch h)
      (fun h => absurd (congrArg (fun o => o.map List.length) h) (by decide)),
    (completion_callback_once sampleEnv 0 vetoWorld clickedButton 9 rfl rfl).2
      [] ⟨0, none, .fn 3⟩ [] rfl (fun _ h => nomatch h) (fun _ _ => rfl)⟩

end EventManager

namespace EventManager

/-- C1, counterexample: after `initialize()` without "Viewed Page" and with the
flag off, "Clicked Button" is appended and then "Viewed Page"; the handler `f0`
gets "Viewed Page" first and "Clicked Button" second, not the append order. -/
theorem gate_append_order_counterexample :
    waitingWorld.eventsPush = .waiting ∧
    dispatched (pushEvent sampleEnv viewedPage
      (pushEvents sampleEnv [clickedButton] waitingWorld)).1.log
      = [(0, "Viewed Page"), (0, "Clicked Button")] ∧
    dispatched (pushEvent sampleEnv viewedPage
      (pushEvents sampleEnv [clickedButton] waitingWorld)).1.log
      ≠ [(0, "Clicked Button"), (0, "Viewed Page")] :=
  ⟨by decide, by decide, by decide⟩

/-- C1, amended: while the events queue waits for "Viewed Page" (the state
`initialize()` leaves when none is queued and the flag is off), non-gate events
`evs` are appended and then the gate event `g`. With the beforeEvent gate open
and completion callbacks that return, the unfired events are dispatched to the
event handlers with the gate event first and then the buffered events in their
append order, and the queue is then in dispatching mode. -/
theorem gate_append_dispatch_order (env : Env) (w : World) (evs : List Event) (g : Event)
    (henrich : ∀ e dd, (env.enrich e dd).name = e.name)
    (hmode : w.eventsPush = .waiting)
    (hg : g.name = VIEWED_PAGE)
    (hevs : ∀ e ∈ evs, e.name ≠ VIEWED_PAGE)
    (hgate : ∀ e ∈ g :: (w.digitalData.events ++ evs),
      GateOpen env (withTimestamp w.now e) w.callbacks)
    (hret : ∀ e ∈ g :: (w.digitalData.events ++ evs), CallbackReturns env e) :
    dispatched (pushEvent env g (pushEvents env evs w)).1.log =
      dispatched w.log ++ dispatchesOf w.callbacks (g :: (w.digitalData.events ++ evs)) ∧
    (pushEvent env g (pushEvents env evs w)).1.eventsPush = .tracking := by
  rw [pushEvents_waiting env evs w hmode hevs]
  rw [pushEvent_waiting_gate env g (setEvents (w.digitalData.events ++ evs) w) hmode hg]
  obtain ⟨w1, heq, hcore, hdisp⟩ := fireUnfiredEvents_dispatch env henrich
    (enableEventsTracking (addViewedPageEvent (some g)
      (setEvents (w.digitalData.events ++ evs) w))) hgate hret
  rw [heq]
  refine ⟨hdisp, ?_⟩
  have h1 := eventsPush_of_core hcore
  exact h1

theorem gate_append_dispatch_order_witness :
    dispatched (pushEvent sampleEnv viewedPage
      (pushEvents sampleEnv [clickedButton] waitingWorld)).1.log =
      dispatched waitingWorld.log ++ dispatchesOf waitingWorld.callbacks
        (viewedPage :: (waitingWorld.digitalData.events ++ [clickedButton])) ∧
    (pushEvent sampleEnv viewedPage
      (pushEvents sampleEnv [clickedButton] waitingWorld)).1.eventsPush = .tracking :=
  gate_append_dispatch_order sampleEnv waitingWorld [clickedButton] viewedPage
    (fun _ _ => rfl) rfl rfl (by decide)
    (fun _ _ _ h => nomatch h)
    (by
      intro e he f hf args dd
      have hq : waitingWorld.digitalData.events = [] := rfl
      have he1 : e = viewedPage ∨ e = clickedButton := by
        rw [hq] at he
        simpa using he
      rcases he1 with rfl | rfl
      · cases hf
      · cases hf
        exact ⟨.undefined, rfl⟩)

end EventManager

namespace EventManager

/-- C3, the code at the failing input: two define entries, both with a value
that is not `undefined`; one `fireDefine` pass calls the handler of the first
entry only and leaves the second entry in the registry. -/
theorem fireDefine_skips_next_entry :
    (getCallbacks "define" twoDefinesWorld.callbacks).map (fun l => l.map Entry.id)
      = some [0, 1] ∧
    (getCallbacks "define" twoDefinesWorld.callbacks).map (fun l => l.map Entry.key)
      = some [none, none] ∧
    (callsAt .define (fireDefine sampleEnv twoDefinesWorld).log).map Call.entry = [some 0] ∧
    (getCallbacks "define" (fireDefine sampleEnv twoDefinesWorld).callbacks).map
      (fun l => l.map Entry.id) = some [1] := by
  decide

/-- C6, the code at the failing input: the first beforeEvent handler throws;
`fireEvent` throws, the second beforeEvent handler is not called, and
`initialize()` and an append to the dispatching events queue throw as well. -/
theorem beforeEvent_throw_propagates :
    (getCallbacks "beforeEvent" throwWorld.callbacks).map (fun l => l.map Entry.handler)
      = some [.fn 2, .fn 0] ∧
    (fireEvent sampleEnv 0 throwWorld).2 = .threw (.str "boom") ∧
    (callsAt .beforeEvent (fireEvent sampleEnv 0 throwWorld).1.log).map Call.fn = [2] ∧
    (initializeManager sampleEnv throwWorld).2 = .threw (.str "boom") ∧
    (initializeManager sampleEnv throwWorld).1.isInitialized = false ∧
    (pushEvent sampleEnv clickedButton (enableEventsTracking throwWorld)).2
      = .threw (.str "boom") :=
  ⟨rfl, rfl, by decide, rfl, by decide, rfl⟩

/-- C7, the code at the failing input: after `initialize()` and `reset()` the
`push` of the events queue is still the dispatching one; an appended event is
fired (timestamp, completion callback, `hasFired`), and a handler subscribed
after `reset()` is called for it. The other two queues are plain again. -/
theorem reset_keeps_events_push :
    activeWorld.eventsPush = .tracking ∧
    (reset activeWorld).eventsPush = .tracking ∧
    (reset activeWorld).changesPush = .native ∧
    (reset activeWorld).ddListenerPush = .native ∧
    (pushEvent sampleEnv clickedButton (reset activeWorld)).1.digitalData.events.map
      (fun e => (e.name, e.hasFired, e.timestamp))
      = [("Viewed Page", true, some 1), ("Clicked Button", true, some 1)] ∧
    (callsAt .completion (pushEvent sampleEnv clickedButton (reset activeWorld)).1.log).map
      Call.fn = [9] ∧
    dispatched (pushEvent sampleEnv clickedButton
      (subscribe sampleEnv (.str "event") (.fn 0) .undefined (reset activeWorld)).1).1.log
      = [(0, "Clicked Button")] := by
  decide

end EventManager

namespace EventManager

/-- C8, counterexample: on an initialized coordinator whose queue holds a fired
event, `on('event', f0)` without third argument replays nothing, while
`on('event', f0, true)` calls `f0` for the fired event. -/
theorem subscribe_default_counterexample :
    activeWorld.isInitialized = true ∧
    activeWorld.digitalData.events.map Event.hasFired = [true] ∧
    (callsAt .replay
      (subscribe sampleEnv (.str "event") (.fn 0) .undefined activeWorld).1.log).length = 0 ∧
    (callsAt .replay
      (subscribe sampleEnv (.str "event") (.fn 0) (.bool true) activeWorld).1.log).length = 1 := by
  decide

/-- C8, amended: `on` with the third argument left out behaves as with `false`:
the handler is registered and nothing is replayed. The default `true` is that of
`addCallback`: on an initialized coordinator the command `['on', 'event', h]`
calls `h` at once for every fired event of the queue, in queue order. -/
theorem subscribe_default (env : Env) (descriptor handler command : Val) (h : Nat) (w : World)
    (hinit : w.isInitialized = true) :
    subscribe env descriptor handler .undefined w
      = subscribe env descriptor handler (.bool false) w ∧
    addCallback env command .undefined w = addCallback env command (.bool true) w ∧
    (subscribe env (.str "event") (.fn h) .undefined w).1.log = w.log ∧
    (addCallback env (.arr [.str "on", .str "event", .fn h]) .undefined w).1.log = w.log ++
      (w.digitalData.events.filter (fun e => e.hasFired)).map
        (fun e => (⟨.replay, none, h, [.event (eventCopyFor env e w)], w.digitalData⟩ : Call)) := by
  refine ⟨?_, rfl, ?_, ?_⟩
  · cases descriptor <;> simp [subscribe, Val.truthy]
  · rw [subscribe_event]
    simp [Val.truthy]
  · have h1 : addCallback env (.arr [.str "on", .str "event", .fn h]) .undefined w =
        subscribe env (.str "event") (.fn h) (.bool true) w := by
      simp [addCallback, Val.isFalse]
    rw [h1, subscribe_event]
    simp only [hinit, Val.truthy, Bool.and_self, if_true, applyCallbackForPastEvents]
    rw [(applyCallbackForPastEventsLoop_log env h _ _).2]
    simp [eventCopyFor]

theorem subscribe_default_witness :
    subscribe sampleEnv (.str "event") (.fn 0) .undefined activeWorld
      = subscribe sampleEnv (.str "event") (.fn 0) (.bool false) activeWorld ∧
    addCallback sampleEnv (.arr [.str "on", .str "event", .fn 0]) .undefined activeWorld
      = addCallback sampleEnv (.arr [.str "on", .str "event", .fn 0]) (.bool true) activeWorld ∧
    (subscribe sampleEnv (.str "event") (.fn 0) .undefined activeWorld).1.log = activeWorld.log ∧
    (addCallback sampleEnv (.arr [.str "on", .str "event", .fn 0]) .undefined activeWorld).1.log
      = activeWorld.log ++
      (activeWorld.digitalData.events.filter (fun e => e.hasFired)).map
        (fun e => (⟨.replay, none, 0, [.event (eventCopyFor sampleEnv e activeWorld)],
          activeWorld.digitalData⟩ : Call)) :=
  subscribe_default sampleEnv (.str "event") (.fn 0) (.arr [.str "on", .str "event", .fn 0]) 0
    activeWorld (by decide)

end EventManager

namespace EventManager

/-- C9: after an `initialize()` with no "Viewed Page" queued and the flag
off, the appends of non-gate events only store the events at the end of the
queue, as they are (so with their `hasFired` unchanged); no function is called
for them, and the queue goes on waiting. -/
theorem waiting_appends_only_store (env : Env) (w0 : World) (v : Val) (evs : List Event)
    (hinit : (initializeManager env w0).2 = .returned v)
    (hsent : isViewedPageSent w0 = false)
    (hflag : w0.sendViewedPageEvent = false)
    (hevs : ∀ e ∈ evs, e.name ≠ VIEWED_PAGE) :
    (pushEvents env evs (initializeManager env w0).1).digitalData.events
      = w0.digitalData.events ++ evs ∧
    (pushEvents env evs (initializeManager env w0).1).log = (initializeManager env w0).1.log ∧
    callsAt .event (pushEvents env evs (initializeManager env w0).1).log
      = callsAt .event (initializeStart env w0).1.log ∧
    (pushEvents env evs (initializeManager env w0).1).eventsPush = .waiting := by
  obtain ⟨hmode, hq, hlog⟩ := initializeManager_waiting env w0 v hinit hsent hflag
  rw [pushEvents_waiting env evs _ hmode hevs]
  exact ⟨by rw [← hq]; rfl, rfl, hlog, hmode⟩

theorem waiting_appends_only_store_witness :
    (pushEvents sampleEnv [clickedButton] (initializeManager sampleEnv freshWorld).1).digitalData.events
      = freshWorld.digitalData.events ++ [clickedButton] ∧
    (pushEvents sampleEnv [clickedButton] (initializeManager sampleEnv freshWorld).1).log
      = (initializeManager sampleEnv freshWorld).1.log ∧
    callsAt .event (pushEvents sampleEnv [clickedButton] (initializeManager sampleEnv freshWorld).1).log
      = callsAt .event (initializeStart sampleEnv freshWorld).1.log ∧
    (pushEvents sampleEnv [clickedButton] (initializeManager sampleEnv freshWorld).1).eventsPush
      = .waiting :=
  waiting_appends_only_store sampleEnv freshWorld .undefined [clickedButton] rfl (by decide)
    (by decide) (by decide)

/-- C10: once the gate event has been observed, whatever happens afterwards
(appends, `initialize()`, `reset()`, changes, commands, ticks, subscriptions),
the events queue dispatches: an append is `fireEvent` on the event stored at the
end of the queue, and the `push` of the queue stays the dispatching one. -/
theorem dispatching_is_permanent (env : Env) (w : World) (hobs : GateObserved env w)
    (ops : List Op) (e : Event) :
    (run env ops w).eventsPush = .tracking ∧
    pushEvent env e (run env ops w) =
      fireEvent env (run env ops w).digitalData.events.length
        (setEvents ((run env ops w).digitalData.events ++ [e]) (run env ops w)) ∧
    (pushEvent env e (run env ops w)).1.digitalData.events.map Event.name =
      (run env ops w).digitalData.events.map Event.name ++ [e.name] ∧
    (pushEvent env e (run env ops w)).1.eventsPush = .tracking := by
  have hd := run_dispatching env ops w (dispatching_of_gateObserved env w hobs)
  have hp := pushEvent_dispatching env e _ hd
  exact ⟨hd.1, pushEvent_tracking env e _ hd.1, hp.2, hp.1.1⟩

theorem dispatching_is_permanent_witness :
    (run sampleEnv [.init, .reset, .append clickedButton] activeWorld).eventsPush = .tracking ∧
    pushEvent sampleEnv clickedButton
        (run sampleEnv [.init, .reset, .append clickedButton] activeWorld) =
      fireEvent sampleEnv
        (run sampleEnv [.init, .reset, .append clickedButton] activeWorld).digitalData.events.length
        (setEvents ((run sampleEnv [.init, .reset, .append clickedButton]
          activeWorld).digitalData.events ++ [clickedButton])
          (run sampleEnv [.init, .reset, .append clickedButton] activeWorld)) ∧
    (pushEvent sampleEnv clickedButton
        (run sampleEnv [.init, .reset, .append clickedButton] activeWorld)).1.digitalData.events.map
        Event.name =
      (run sampleEnv [.init, .reset, .append clickedButton] activeWorld).digitalData.events.map
        Event.name ++ [clickedButton.name] ∧
    (pushEvent sampleEnv clickedButton
        (run sampleEnv [.init, .reset, .append clickedButton] activeWorld)).1.eventsPush
      = .tracking :=
  dispatching_is_permanent sampleEnv activeWorld
    (Or.inl ⟨construct (some { events := some [viewedPage] }) (some []) {}, .undefined, rfl,
      Or.inl (by decide)⟩)
    [.init, .reset, .append clickedButton] clickedButton

end EventManager

namespace EventManager

/-- C11, counterexample: the flag is on and no "Viewed Page" is queued. With
nothing subscribed and a queued event whose completion callback throws,
`initialize()` throws and the events queue keeps the `push` of `Array.prototype`:
it does not dispatch. With a beforeEvent handler that returns `false`,
`initialize()` returns, but the synthetic "Viewed Page" and the queued event
are dispatched to no event handler and are left without `hasFired`. -/
theorem forced_gate_counterexample :
    forcedFailingWorld.sendViewedPageEvent = true ∧
    isViewedPageSent forcedFailingWorld = false ∧
    (initializeManager sampleEnv forcedFailingWorld).2 = .threw (.str "boom") ∧
    (initializeManager sampleEnv forcedFailingWorld).1.eventsPush = .native ∧
    (initializeManager sampleEnv forcedFailingWorld).1.digitalData.events.map
      (fun e => (e.name, e.hasFired)) = [("Viewed Page", true), ("Clicked Button", false)] ∧
    forcedVetoWorld.sendViewedPageEvent = true ∧
    isViewedPageSent forcedVetoWorld = false ∧
    (eventHandlers forcedVetoWorld.callbacks = [0]) ∧
    (initializeManager sampleEnv forcedVetoWorld).2 = .returned .undefined ∧
    dispatched (initializeManager sampleEnv forcedVetoWorld).1.log = [] ∧
    (initializeManager sampleEnv forcedVetoWorld).1.digitalData.events.map
      (fun e => (e.name, e.hasFired)) = [("Viewed Page", false), ("Clicked Button", false)] :=
  ⟨rfl, by decide, rfl, rfl, by decide, rfl, by decide, by decide, rfl, by decide, by decide⟩

/-- C11, amended: when `initialize()` reaches the events with the flag on and
no "Viewed Page" in the queue, and the beforeEvent gate is open for every
event, no completion callback throws and the enricher keeps the name of an
event, then the synthetic "Viewed Page" is put in front of the queue and is
dispatched first to the event handlers, then the other unfired events in queue
order; `initialize()` returns and the queue dispatches. -/
theorem forced_gate_dispatched_first (env : Env) (w0 w : World) (v : Val)
    (henrich : ∀ e dd, (env.enrich e dd).name = e.name)
    (hstart : initializeStart env w0 = (w, .returned v))
    (hsent : isViewedPageSent w0 = false)
    (hflag : w0.sendViewedPageEvent = true)
    (hgate : ∀ e ∈ syntheticViewedPage :: w0.digitalData.events,
      GateOpen env (withTimestamp w0.now e) w.callbacks)
    (hret : ∀ e ∈ w0.digitalData.events, CallbackReturns env e) :
    (initializeManager env w0).2 = .returned .undefined ∧
    (initializeManager env w0).1.digitalData.events =
      (syntheticViewedPage :: w0.digitalData.events).map (afterFiring w0.now) ∧
    dispatched (initializeManager env w0).1.log =
      dispatched w.log ++ (eventHandlers w.callbacks).map (fun id => (id, VIEWED_PAGE))
        ++ dispatchesOf w.callbacks w0.digitalData.events ∧
    (initializeManager env w0).1.eventsPush = .tracking := by
  have hq := queueView_of_start env w0 w _ hstart
  have hev : w.digitalData.events = w0.digitalData.events := congrArg Prod.fst hq
  have hnow : w.now = w0.now := congrArg (fun v => v.2.2.2.1) hq
  have hflag1 : w.sendViewedPageEvent = true :=
    (congrArg (fun v => v.2.2.1) hq : w.sendViewedPageEvent = w0.sendViewedPageEvent).trans hflag
  have hsent1 : isViewedPageSent w = false := (isViewedPageSent_of_queueView hq).trans hsent
  obtain ⟨w1, heq, hcore, hdisp⟩ := fireUnfiredEvents_dispatch env henrich
    (addViewedPageEvent none w)
    (by
      intro e he
      have he1 : e ∈ syntheticViewedPage :: w0.digitalData.events := by
        rw [← hev]; exact he
      have h1 := hgate e he1
      rw [← hnow] at h1
      exact h1)
    (by
      intro e he
      have he1 : e ∈ syntheticViewedPage :: w0.digitalData.events := by
        rw [← hev]; exact he
      rcases List.mem_cons.mp he1 with h1 | h1
      · rw [h1]; intro f hf; cases hf
      · exact hret e h1)
  rw [initializeManager_of_start env w0 w v hstart,
    initializeEvents_forced env w hsent1 hflag1, heq]
  refine ⟨rfl, ?_, ?_, ?_⟩
  · simp only [digitalData_initializeEnd]
    have h1 := events_of_core_setEvents hcore
    have h2 : (enableEventsTracking w1).digitalData.events = w1.digitalData.events := rfl
    rw [h2, h1]
    simp [addViewedPageEvent, setEvents, hev, hnow]
  · simp only [log_initializeEnd]
    have h2 : (enableEventsTracking w1).log = w1.log := rfl
    rw [h2, hdisp]
    have h3 : (addViewedPageEvent none w).digitalData.events
        = syntheticViewedPage :: w0.digitalData.events := by
      simp [addViewedPageEvent, setEvents, hev]
    rw [h3, dispatchesOf_cons_unfired _ _ _ rfl]
    simp [addViewedPageEvent, setEvents, syntheticViewedPage, List.append_assoc]
  · simp only [eventsPush_initializeEnd]
    rfl

theorem forced_gate_dispatched_first_witness :
    (initializeManager sampleEnv forcedWorld).2 = .returned .undefined ∧
    (initializeManager sampleEnv forcedWorld).1.digitalData.events =
      (syntheticViewedPage :: forcedWorld.digitalData.events).map (afterFiring forcedWorld.now) ∧
    dispatched (initializeManager sampleEnv forcedWorld).1.log =
      dispatched (initializeStart sampleEnv forcedWorld).1.log ++
        (eventHandlers (initializeStart sampleEnv forcedWorld).1.callbacks).map
          (fun id => (id, VIEWED_PAGE))
        ++ dispatchesOf (initializeStart sampleEnv forcedWorld).1.callbacks
          forcedWorld.digitalData.events ∧
    (initializeManager sampleEnv forcedWorld).1.eventsPush = .tracking :=
  forced_gate_dispatched_first sampleEnv forcedWorld (initializeStart sampleEnv forcedWorld).1
    .undefined (fun _ _ => rfl) rfl (by decide) (by decide)
    (fun _ _ _ h => nomatch h)
    (by
      intro e he f hf args dd
      have hq : forcedWorld.digitalData.events = [clickedButton] := rfl
      rw [hq] at he
      have he1 : e = clickedButton := by simpa using he
      subst he1
      cases hf
      exact ⟨.undefined, rfl⟩)

/-- C12, counterexample: "Viewed Page" is queued. With nothing subscribed and
a second queued event whose completion callback throws, `initialize()` throws,
the second event is left without `hasFired` and the events queue keeps the
`push` of `Array.prototype`: it does not dispatch. With a beforeEvent handler
that returns `false`, `initialize()` returns, but no queued event is dispatched
to the event handler and none gets `hasFired`. -/
theorem queued_gate_counterexample :
    isViewedPageSent failingQueueWorld = true ∧
    (initializeManager sampleEnv failingQueueWorld).2 = .threw (.str "boom") ∧
    (initializeManager sampleEnv failingQueueWorld).1.eventsPush = .native ∧
    (initializeManager sampleEnv failingQueueWorld).1.digitalData.events.map
      (fun e => (e.name, e.hasFired)) = [("Viewed Page", true), ("Clicked Button", false)] ∧
    isViewedPageSent vetoQueueWorld = true ∧
    (eventHandlers vetoQueueWorld.callbacks = [0]) ∧
    (initializeManager sampleEnv vetoQueueWorld).2 = .returned .undefined ∧
    dispatched (initializeManager sampleEnv vetoQueueWorld).1.log = [] ∧
    (initializeManager sampleEnv vetoQueueWorld).1.digitalData.events.map
      (fun e => (e.name, e.hasFired)) = [("Viewed Page", false), ("Clicked Button", false)] :=
  ⟨by decide, rfl, rfl, by decide, by decide, by decide, rfl, by decide, by decide⟩

/-- C12, amended: when `initialize()` reaches the events and the queue holds
"Viewed Page", and the beforeEvent gate is open for every queued event, no
completion callback throws and the enricher keeps the name of an event, then
exactly the queued events whose `hasFired` is not set are fired, once each and
in queue order (they get `hasFired` and are dispatched to the event handlers);
the events that had fired already stay as they are; `initialize()` returns and
the queue dispatches. -/
theorem queued_gate_fires_unfired (env : Env) (w0 w : World) (v : Val)
    (henrich : ∀ e dd, (env.enrich e dd).name = e.name)
    (hstart : initializeStart env w0 = (w, .returned v))
    (hsent : isViewedPageSent w0 = true)
    (hgate : ∀ e ∈ w0.digitalData.events, GateOpen env (withTimestamp w0.now e) w.callbacks)
    (hret : ∀ e ∈ w0.digitalData.events, CallbackReturns env e) :
    (initializeManager env w0).2 = .returned .undefined ∧
    (initializeManager env w0).1.digitalData.events =
      w0.digitalData.events.map (afterFiring w0.now) ∧
    dispatched (initializeManager env w0).1.log =
      dispatched w.log ++ dispatchesOf w.callbacks w0.digitalData.events ∧
    (initializeManager env w0).1.eventsPush = .tracking := by
  have hq := queueView_of_start env w0 w _ hstart
  have hev : w.digitalData.events = w0.digitalData.events := congrArg Prod.fst hq
  have hnow : w.now = w0.now := congrArg (fun v => v.2.2.2.1) hq
  have hsent1 : isViewedPageSent w = true := (isViewedPageSent_of_queueView hq).trans hsent
  obtain ⟨w1, heq, hcore, hdisp⟩ := fireUnfiredEvents_dispatch env henrich w
    (by intro e he; rw [hnow]; exact hgate e (by rw [← hev]; exact he))
    (by intro e he; exact hret e (by rw [← hev]; exact he))
  rw [initializeManager_of_start env w0 w v hstart, initializeEvents_sent env w hsent1, heq]
  refine ⟨rfl, ?_, ?_, ?_⟩
  · simp only [digitalData_initializeEnd]
    have h1 := events_of_core_setEvents hcore
    have h2 : (enableEventsTracking w1).digitalData.events = w1.digitalData.events := rfl
    rw [h2, h1, hev, hnow]
  · simp only [log_initializeEnd]
    have h2 : (enableEventsTracking w1).log = w1.log := rfl
    rw [h2, hdisp, hev]
  · simp only [eventsPush_initializeEnd]
    rfl

theorem queued_gate_fires_unfired_witness :
    (initializeManager sampleEnv queuedWorld).2 = .returned .undefined ∧
    (initializeManager sampleEnv queuedWorld).1.digitalData.events =
      queuedWorld.digitalData.events.map (afterFiring queuedWorld.now) ∧
    dispatched (initializeManager sampleEnv queuedWorld).1.log =
      dispatched (initializeStart sampleEnv queuedWorld).1.log ++
        dispatchesOf (initializeStart sampleEnv queuedWorld).1.callbacks
          queuedWorld.digitalData.events ∧
    (initializeManager sampleEnv queuedWorld).1.eventsPush = .tracking :=
  queued_gate_fires_unfired sampleEnv queuedWorld (initializeStart sampleEnv queuedWorld).1
    .undefined (fun _ _ => rfl) rfl (by decide)
    (fun _ _ _ h => nomatch h)
    (by
      intro e he f hf args dd
      have hq : queuedWorld.digitalData.events = [addedProduct, viewedPage, clickedButton] := rfl
      rw [hq] at he
      simp only [List.mem_cons, List.mem_singleton, List.not_mem_nil, or_false] at he
      rcases he with rfl | rfl | rfl
      · cases hf
      · cases hf
      · cases hf
        exact ⟨.undefined, rfl⟩)

end EventManager

namespace EventManager

/-- C13: in `fireEvent` the beforeEvent handlers are called in registration
order with the event. When one returns `false` (those before it letting the
event through), `fireEvent` returns `false` and the only calls it has made are
those of the beforeEvent handlers up to that one: no later beforeEvent handler,
no event handler, no completion callback. When all let the event through, all
are called, in order. A value vetoes only if it is `false` itself. -/
theorem beforeEvent_gate_order (env : Env) (i : Nat) (w : World) (event : Event)
    (entries : List Entry)
    (hev : w.digitalData.events[i]? = some event)
    (hreg : getCallbacks "beforeEvent" w.callbacks = some entries) :
    (∀ pre x post, entries = pre ++ x :: post →
      (∀ b ∈ pre, Passes env b.handler (withTimestamp w.now event)) →
      Vetoes env x.handler (withTimestamp w.now event) →
      (fireEvent env i w).2 = .returned (.bool false) ∧
      (fireEvent env i w).1.log = w.log ++ (pre ++ [x]).filterMap
        (beforeCallOf (withTimestamp w.now event)
          (setEvents (w.digitalData.events.set i (withTimestamp w.now event)) w).digitalData)) ∧
    ((∀ b ∈ entries, Passes env b.handler (withTimestamp w.now event)) →
      callsAt .beforeEvent (fireEvent env i w).1.log = callsAt .beforeEvent w.log ++
        entries.filterMap (beforeCallOf (withTimestamp w.now event)
          (setEvents (w.digitalData.events.set i (withTimestamp w.now event)) w).digitalData)) ∧
    (∀ v : Val, v.isFalse = true ↔ v = .bool false) := by
  have hreg0 : getCallbacks "beforeEvent"
      (setEvents (w.digitalData.events.set i (withTimestamp w.now event)) w).callbacks
      = some entries := hreg
  refine ⟨?_, ?_, isFalse_iff⟩
  · intro pre x post hsplit hpre hx
    simp only [fireEvent, hev, beforeFireEvent, hreg0]
    rw [hsplit, beforeFireEventLoop_veto_exact env _ post x pre _ hpre hx]
    simp [Val.truthy, setEvents]
  · intro hall
    simp only [fireEvent, hev, beforeFireEvent, hreg0]
    rw [beforeFireEventLoop_pass_exact env _ entries _ hall]
    simp only [Val.truthy, Bool.not_true, Bool.false_eq_true, if_false]
    have hl := logExt_fireEventHandlers env (fun s => s = .event ∨ s = .completion)
      w.digitalData.data i (withTimestamp w.now event) (Or.inl rfl) (Or.inr rfl)
      { setEvents (w.digitalData.events.set i (withTimestamp w.now event)) w with
        log := (setEvents (w.digitalData.events.set i (withTimestamp w.now event)) w).log ++
          entries.filterMap (beforeCallOf (withTimestamp w.now event)
            (setEvents (w.digitalData.events.set i (withTimestamp w.now event)) w).digitalData) }
      rfl
    rw [callsAt_of_logExt .beforeEvent hl (by intro h; rcases h with h | h <;> cases h)]
    simp only [callsAt_append, callsAt_beforeCalls]
    rfl

theorem beforeEvent_gate_order_witness :
    (∀ pre x post, [(⟨0, none, .fn 3⟩ : Entry)] = pre ++ x :: post →
      (∀ b ∈ pre, Passes sampleEnv b.handler (withTimestamp vetoWorld.now clickedButton)) →
      Vetoes sampleEnv x.handler (withTimestamp vetoWorld.now clickedButton) →
      (fireEvent sampleEnv 0 vetoWorld).2 = .returned (.bool false) ∧
      (fireEvent sampleEnv 0 vetoWorld).1.log = vetoWorld.log ++ (pre ++ [x]).filterMap
        (beforeCallOf (withTimestamp vetoWorld.now clickedButton)
          (setEvents (vetoWorld.digitalData.events.set 0
            (withTimestamp vetoWorld.now clickedButton)) vetoWorld).digitalData)) ∧
    ((∀ b ∈ [(⟨0, none, .fn 3⟩ : Entry)],
        Passes sampleEnv b.handler (withTimestamp vetoWorld.now clickedButton)) →
      callsAt .beforeEvent (fireEvent sampleEnv 0 vetoWorld).1.log =
        callsAt .beforeEvent vetoWorld.log ++
        [(⟨0, none, .fn 3⟩ : Entry)].filterMap
          (beforeCallOf (withTimestamp vetoWorld.now clickedButton)
          (setEvents (vetoWorld.digitalData.events.set 0
            (withTimestamp vetoWorld.now clickedButton)) vetoWorld).digitalData)) ∧
    (∀ v : Val, v.isFalse = true ↔ v = .bool false) :=
  beforeEvent_gate_order sampleEnv 0 vetoWorld clickedButton [⟨0, none, .fn 3⟩] rfl rfl

/-- C18: when the start of `initialize()` has returned, the shared data is the
fold of `set` over the queued changes, in queue order, and no beforeEvent
handler, event handler or completion callback has been called yet; every such
call that `initialize()` makes afterwards sees that data. -/
theorem changes_applied_before_events (env : Env) (w0 w : World) (v : Val)
    (hstart : initializeStart env w0 = (w, .returned v)) :
    w.digitalData.data =
      w0.digitalData.changes.foldl (fun d c => env.set c.1 c.2 d) w0.digitalData.data ∧
    callsAt .event w.log = callsAt .event w0.log ∧
    callsAt .beforeEvent w.log = callsAt .beforeEvent w0.log ∧
    callsAt .completion w.log = callsAt .completion w0.log ∧
    LogExt (CallIn DispatchSite
      (w0.digitalData.changes.foldl (fun d c => env.set c.1 c.2 d) w0.digitalData.data))
      w (initializeManager env w0).1 := by
  obtain ⟨hd, _, he, hb, hc, _⟩ := initializeStart_returned env w0 w v hstart
  refine ⟨hd, he, hb, hc, ?_⟩
  rw [initializeManager_of_start env w0 w v hstart]
  have hl := logExt_initializeEvents env DispatchSite _ (Or.inl rfl) (Or.inr (Or.inl rfl))
    (Or.inr (Or.inr rfl)) w hd
  generalize initializeEvents env w = r at hl ⊢
  rcases r with ⟨w2, c2⟩
  cases c2 with
  | threw e => exact hl
  | returned v2 => exact hl.trans (LogExt.of_log_eq (log_initializeEnd w2))

theorem changes_applied_before_events_witness :
    initializeStart sampleEnv changesWorld =
      ((initializeStart sampleEnv changesWorld).1, .returned .undefined) ∧
    (initializeStart sampleEnv changesWorld).1.digitalData.data =
      changesWorld.digitalData.changes.foldl (fun d c => sampleEnv.set c.1 c.2 d)
        changesWorld.digitalData.data ∧
    callsAt .event (initializeStart sampleEnv changesWorld).1.log =
      callsAt .event changesWorld.log ∧
    callsAt .beforeEvent (initializeStart sampleEnv changesWorld).1.log =
      callsAt .beforeEvent changesWorld.log ∧
    callsAt .completion (initializeStart sampleEnv changesWorld).1.log =
      callsAt .completion changesWorld.log ∧
    LogExt (CallIn DispatchSite
      (changesWorld.digitalData.changes.foldl (fun d c => sampleEnv.set c.1 c.2 d)
        changesWorld.digitalData.data))
      (initializeStart sampleEnv changesWorld).1 (initializeManager sampleEnv changesWorld).1 :=
  ⟨rfl, changes_applied_before_events sampleEnv changesWorld
    (initializeStart sampleEnv changesWorld).1 .undefined rfl⟩

/-- C19: after an `initialize()` that returned, `changes.push([key, value])`
stores the change at the end of the changes queue and sets the shared data to
`set(key, value, data)` in the same step; the events queue and the log are
untouched. -/
theorem change_applied_on_push (env : Env) (w0 w : World) (v : Val) (changeInfo : ChangeOp)
    (hinit : initializeManager env w0 = (w, .returned v)) :
    (pushChange env changeInfo w).digitalData.changes = w.digitalData.changes ++ [changeInfo] ∧
    (pushChange env changeInfo w).digitalData.data =
      env.set changeInfo.1 changeInfo.2 w.digitalData.data ∧
    (pushChange env changeInfo w).digitalData.events = w.digitalData.events ∧
    (pushChange env changeInfo w).log = w.log ∧
    (pushChange env changeInfo w).changesPush = .tracking := by
  have h := initializeManager_changesPush env w0 w v hinit
  simp [pushChange, h, applyChange]

theorem change_applied_on_push_witness :
    initializeManager sampleEnv freshWorld = (waitingWorld, .returned .undefined) ∧
    (pushChange sampleEnv ("user.id", .str "42") waitingWorld).digitalData.changes =
      waitingWorld.digitalData.changes ++ [("user.id", .str "42")] ∧
    (pushChange sampleEnv ("user.id", .str "42") waitingWorld).digitalData.data =
      sampleEnv.set "user.id" (.str "42") waitingWorld.digitalData.data ∧
    (pushChange sampleEnv ("user.id", .str "42") waitingWorld).digitalData.events =
      waitingWorld.digitalData.events ∧
    (pushChange sampleEnv ("user.id", .str "42") waitingWorld).log = waitingWorld.log ∧
    (pushChange sampleEnv ("user.id", .str "42") waitingWorld).changesPush = .tracking :=
  ⟨rfl, change_applied_on_push sampleEnv freshWorld waitingWorld .undefined
    ("user.id", .str "42") rfl⟩

/-- C20: `reset()` twice in a row leaves the world as one `reset()` does, and
`reset()` does not touch the data and the events of the shared state. -/
theorem reset_idempotent (w : World) :
    reset (reset w) = reset w ∧
    (reset w).digitalData.data = w.digitalData.data ∧
    (reset w).digitalData.events = w.digitalData.events ∧
    (reset w).isInitialized = w.isInitialized := by
  refine ⟨?_, rfl, rfl, rfl⟩
  simp [reset, List.filter_filter]

end EventManager

namespace EventManager

/-- C16. In one pass of `checkForChanges` with the key-scoped change entry `x`
registered (entry identities distinct, the handler the function `h`), and with
a `jsonIsEqual` for which equal snapshots have equal values at the key: the
handler of `x` is invoked iff the value at its key in the fresh snapshot is
not equal to the value at that key in the stored snapshot, and it is invoked
once, with exactly these two values, the new one first. -/
theorem keyed_change_handler (env : Env) (w : World) (entries : List Entry) (x : Entry)
    (key : String) (h : Nat)
    (hreg : getCallbacks "change" w.callbacks = some entries)
    (hx : x ∈ entries) (hnodup : (entries.map Entry.id).Nodup)
    (hkey : x.key = some key) (hkt : key ≠ "") (hh : x.handler = .fn h)
    (hcong : env.jsonIsEqual w.previousDigitalData (_getCopyWithoutEvents w.digitalData) = true →
      env.jsonIsEqual (env.get key (_getCopyWithoutEvents w.digitalData))
        (env.get key w.previousDigitalData) = true) :
    ∃ new : List Call,
      callsAt .change (checkForChanges env w).log = callsAt .change w.log ++ new ∧
      new.filter (fun c => c.entry == some x.id) =
        if env.jsonIsEqual (env.get key (_getCopyWithoutEvents w.digitalData))
            (env.get key w.previousDigitalData)
        then []
        else [⟨.change, some x.id, h,
          [.val (env.get key (_getCopyWithoutEvents w.digitalData)),
           .val (env.get key w.previousDigitalData)], w.digitalData⟩] := by
  have hne : entries ≠ [] := List.ne_nil_of_mem hx
  refine ⟨_, checkForChanges_change_calls env w entries hreg hne, ?_⟩
  have hk : keyTruthy x.key = true := by
    rw [hkey]; simp [keyTruthy, hkt]
  have hone : changeCallsOf env (_getCopyWithoutEvents w.digitalData) w.previousDigitalData
      w.digitalData x =
      if env.jsonIsEqual (env.get key (_getCopyWithoutEvents w.digitalData))
            (env.get key w.previousDigitalData)
      then []
      else [⟨.change, some x.id, h,
          [.val (env.get key (_getCopyWithoutEvents w.digitalData)),
           .val (env.get key w.previousDigitalData)], w.digitalData⟩] := by
    unfold changeCallsOf changeCallOf
    rw [hkey] at hk
    simp only [hkey, hk, if_true, Option.getD_some, hh, fnId, Option.map_some',
      Option.toList_some]
  by_cases hq : env.jsonIsEqual w.previousDigitalData (_getCopyWithoutEvents w.digitalData) = true
  · simp only [hq, if_true, hcong hq, List.filter_nil]
  · have hq0 : env.jsonIsEqual w.previousDigitalData (_getCopyWithoutEvents w.digitalData)
        = false := by simpa using hq
    simp only [hq0, Bool.false_eq_true, if_false]
    rw [filter_flatMap_entry _ x entries (changeCallsOf_entry env _ _ _) hx hnodup, hone]

theorem keyed_change_handler_witness :
    ∃ new : List Call,
      callsAt .change (checkForChanges structEnv changedWorld).log =
        callsAt .change changedWorld.log ++ new ∧
      new.filter (fun c => c.entry == some 0) =
        if structEnv.jsonIsEqual
            (structEnv.get "user.id" (_getCopyWithoutEvents changedWorld.digitalData))
            (structEnv.get "user.id" changedWorld.previousDigitalData)
        then []
        else [⟨.change, some 0, 0,
          [.val (structEnv.get "user.id" (_getCopyWithoutEvents changedWorld.digitalData)),
           .val (structEnv.get "user.id" changedWorld.previousDigitalData)],
          changedWorld.digitalData⟩] :=
  keyed_change_handler structEnv changedWorld
    [⟨0, some "user.id", .fn 0⟩, ⟨1, none, .fn 1⟩] ⟨0, some "user.id", .fn 0⟩ "user.id" 0
    rfl (List.mem_cons_self _ _) (by decide) rfl (by decide) rfl (by decide)

/-- C17. In one pass of `checkForChanges` with the change entry `x` without key
registered (entry identities distinct, the handler the function `h`): when the
fresh snapshot is not equal to the stored one, the handler of `x` is invoked
once, with the full fresh snapshot and the full stored snapshot, neither of
which holds `events` or `changes`; when the two are equal it is not invoked. -/
theorem keyless_change_handler (env : Env) (w : World) (entries : List Entry) (x : Entry)
    (h : Nat)
    (hreg : getCallbacks "change" w.callbacks = some entries)
    (hx : x ∈ entries) (hnodup : (entries.map Entry.id).Nodup)
    (hkey : keyTruthy x.key = false) (hh : x.handler = .fn h) :
    ∃ new : List Call,
      callsAt .change (checkForChanges env w).log = callsAt .change w.log ++ new ∧
      new.filter (fun c => c.entry == some x.id) =
        if env.jsonIsEqual w.previousDigitalData (_getCopyWithoutEvents w.digitalData)
        then []
        else [⟨.change, some x.id, h,
          [.val (_getCopyWithoutEvents w.digitalData), .val w.previousDigitalData],
          w.digitalData⟩] := by
  have hne : entries ≠ [] := List.ne_nil_of_mem hx
  refine ⟨_, checkForChanges_change_calls env w entries hreg hne, ?_⟩
  have hone : changeCallsOf env (_getCopyWithoutEvents w.digitalData) w.previousDigitalData
      w.digitalData x =
      [⟨.change, some x.id, h,
          [.val (_getCopyWithoutEvents w.digitalData), .val w.previousDigitalData],
          w.digitalData⟩] := by
    unfold changeCallsOf changeCallOf
    simp only [hkey, Bool.false_eq_true, if_false, hh, fnId, Option.map_some',
      Option.toList_some]
  by_cases hq : env.jsonIsEqual w.previousDigitalData (_getCopyWithoutEvents w.digitalData) = true
  · simp only [hq, if_true, List.filter_nil]
  · have hq0 : env.jsonIsEqual w.previousDigitalData (_getCopyWithoutEvents w.digitalData)
        = false := by simpa using hq
    simp only [hq0, Bool.false_eq_true, if_false]
    rw [filter_flatMap_entry _ x entries (changeCallsOf_entry env _ _ _) hx hnodup, hone]

theorem keyless_change_handler_witness :
    ∃ new : List Call,
      callsAt .change (checkForChanges structEnv changedWorld).log =
        callsAt .change changedWorld.log ++ new ∧
      new.filter (fun c => c.entry == some 1) =
        if structEnv.jsonIsEqual changedWorld.previousDigitalData
            (_getCopyWithoutEvents changedWorld.digitalData)
        then []
        else [⟨.change, some 1, 1,
          [.val (_getCopyWithoutEvents changedWorld.digitalData),
           .val changedWorld.previousDigitalData], changedWorld.digitalData⟩] :=
  keyless_change_handler structEnv changedWorld
    [⟨0, some "user.id", .fn 0⟩, ⟨1, none, .fn 1⟩] ⟨1, none, .fn 1⟩ 1
    rfl (List.mem_cons_of_mem _ (List.mem_cons_self _ _)) (by decide) rfl rfl

end EventManager

namespace EventManager

/-- C14, counterexample: the only event handler, `f4`, throws the falsy value
`0`; the completion callback is called with an empty `errors` (and an empty
`results`): the error of the handler that threw is not in `errors`. -/
theorem thrown_error_recorded_counterexample :
    (getCallbacks "event" falsyThrowWorld.callbacks).map (fun l => l.map Entry.handler)
      = some [.fn 4] ∧
    handlerOutcomes sampleEnv 0 clickedButton falsyThrowWorld [⟨0, none, .fn 4⟩]
      = [.threw (.num 0)] ∧
    (fireEvent sampleEnv 0 falsyThrowWorld).2 = .returned .undefined ∧
    (callsAt .completion (fireEvent sampleEnv 0 falsyThrowWorld).1.log).map Call.args
      = [[.list [], .list []]] :=
  ⟨rfl, rfl, rfl, rfl⟩

/-- C14, amended: with event handlers registered, the beforeEvent gate open and
a completion callback that does not throw, `fireEvent` returns; after the calls
of the gate it calls every handler that is a function once, in registration
order, also after handlers that threw, and then, last, the completion
callback, once. `errors` holds the values thrown that are truthy, `results` the
values returned that are not `undefined`, both in the order of the handlers:
a handler that throws adds nothing to `results`, and a thrown falsy value is
in neither list. -/
theorem handler_errors_isolated (env : Env) (i : Nat) (w : World) (event : Event)
    (entries : List Entry)
    (hev : w.digitalData.events[i]? = some event)
    (hgate : GateOpen env (withTimestamp w.now event) w.callbacks)
    (hret : CallbackReturns env event)
    (hreg : getCallbacks "event" w.callbacks = some entries)
    (hne : entries ≠ []) :
    (fireEvent env i w).2 = .returned .undefined ∧
    (∃ before : List Call, (∀ c ∈ before, c.site = .beforeEvent) ∧
      (fireEvent env i w).1.log = w.log ++ before ++
        entries.filterMap
          (eventCallOf (handlerCopy env i event w) (stampedWorld i event w).digitalData) ++
        (event.callback.map (fun f => (⟨.completion, none, f,
          [.list (resultsOf (handlerOutcomes env i event w entries)),
           .list (errorsOf (handlerOutcomes env i event w entries))],
          (stampedWorld i event w).digitalData⟩ : Call))).toList) ∧
    (∀ e, e ∈ errorsOf (handlerOutcomes env i event w entries) ↔
      .threw e ∈ handlerOutcomes env i event w entries ∧ e.truthy = true) ∧
    (∀ v, v ∈ resultsOf (handlerOutcomes env i event w entries) ↔
      .returned v ∈ handlerOutcomes env i event w entries ∧ v.isDefined = true) := by
  have hret1 := CallbackReturns_withTimestamp env w.now event hret
  obtain ⟨w1, before, hcore, hlog1, hbefore, heq⟩ :=
    fireEvent_open_some_log env i w event entries hev hgate hreg
  have hdd1 : w1.digitalData = (stampedWorld i event w).digitalData := digitalData_of_core hcore
  have hev1 : w1.digitalData.events[i]? = some (withTimestamp w.now event) := by
    rw [hdd1]
    exact getElem?_set_of_getElem? _ _ _ _ hev
  obtain ⟨w2, v, hloop, _, hl2⟩ := fireEventLoop_exact env i entries.length
    (withTimestamp w.now event) hret1 entries {} w1 hev1 (by simp)
  have hemp : entries.isEmpty = false := by
    cases entries with
    | nil => exact absurd rfl hne
    | cons _ _ => rfl
  obtain ⟨hres, herr⟩ := foldl_recordOutcome
    (outcomeOf env (handlerCopy env i event w) (stampedWorld i event w).digitalData) entries {}
  rw [eventCopyFor_congr env _ hdd1, hdd1] at hloop hl2
  refine ⟨by rw [heq, hloop], ⟨before, hbefore, ?_⟩, fun e => mem_errorsOf _ e,
    fun v => mem_resultsOf _ v⟩
  rw [heq, hloop]
  simp only [markFired_log]
  rw [hl2, hlog1, withTimestamp_callback]
  simp only [hemp, Bool.false_eq_true, if_false]
  unfold handlerOutcomes
  unfold handlerCopy at hres herr ⊢
  rw [hres, herr]
  simp

theorem handler_errors_isolated_witness :
    (fireEvent sampleEnv 0 mixedWorld).2 = .returned .undefined ∧
    (∃ before : List Call, (∀ c ∈ before, c.site = .beforeEvent) ∧
      (fireEvent sampleEnv 0 mixedWorld).1.log = mixedWorld.log ++ before ++
        [(⟨0, none, .fn 2⟩ : Entry), ⟨1, none, .fn 1⟩, ⟨2, none, .fn 0⟩].filterMap
          (eventCallOf (handlerCopy sampleEnv 0 clickedButton mixedWorld)
            (stampedWorld 0 clickedButton mixedWorld).digitalData) ++
        (clickedButton.callback.map (fun f => (⟨.completion, none, f,
          [.list (resultsOf (handlerOutcomes sampleEnv 0 clickedButton mixedWorld
            [⟨0, none, .fn 2⟩, ⟨1, none, .fn 1⟩, ⟨2, none, .fn 0⟩])),
           .list (errorsOf (handlerOutcomes sampleEnv 0 clickedButton mixedWorld
            [⟨0, none, .fn 2⟩, ⟨1, none, .fn 1⟩, ⟨2, none, .fn 0⟩]))],
          (stampedWorld 0 clickedButton mixedWorld).digitalData⟩ : Call))).toList) ∧
    (∀ e, e ∈ errorsOf (handlerOutcomes sampleEnv 0 clickedButton mixedWorld
        [⟨0, none, .fn 2⟩, ⟨1, none, .fn 1⟩, ⟨2, none, .fn 0⟩]) ↔
      .threw e ∈ handlerOutcomes sampleEnv 0 clickedButton mixedWorld
        [⟨0, none, .fn 2⟩, ⟨1, none, .fn 1⟩, ⟨2, none, .fn 0⟩] ∧ e.truthy = true) ∧
    (∀ v, v ∈ resultsOf (handlerOutcomes sampleEnv 0 clickedButton mixedWorld
        [⟨0, none, .fn 2⟩, ⟨1, none, .fn 1⟩, ⟨2, none, .fn 0⟩]) ↔
      .returned v ∈ handlerOutcomes sampleEnv 0 clickedButton mixedWorld
        [⟨0, none, .fn 2⟩, ⟨1, none, .fn 1⟩, ⟨2, none, .fn 0⟩] ∧ v.isDefined = true) :=
  handler_errors_isolated sampleEnv 0 mixedWorld clickedButton
    [⟨0, none, .fn 2⟩, ⟨1, none, .fn 1⟩, ⟨2, none, .fn 0⟩] rfl (fun _ h => nomatch h)
    (by
      intro f hf args dd
      cases hf
      exact ⟨.undefined, rfl⟩)
    rfl (by simp)

end EventManager

namespace EventManager

/-- C15: from a world in which the define entries are distinct, no define
entry was called twice, none that was called is still registered and the
identities in use are older than the next fresh one, every sequence of
operations on the coordinator (`initialize()` with its first define pass,
ticks, changes of the state, and also appended events, subscriptions, commands
and `reset()`) leads to a world in which, again, no define entry was called
twice, whether its handler returned or threw, and no entry that was called is
still registered. -/
theorem define_handler_at_most_once (env : Env) (ops : List Op) (w : World)
    (hentries : ((defineEntries w).map Entry.id).Nodup)
    (hcalled : (defineCalled w).Nodup)
    (hremoved : ∀ x ∈ defineEntries w, x.id ∉ defineCalled w)
    (hentriesFresh : ∀ x ∈ defineEntries w, x.id < w.nextId)
    (hcalledFresh : ∀ id ∈ defineCalled w, id < w.nextId) :
    (defineCalled (run env ops w)).Nodup ∧
    (∀ x ∈ defineEntries (run env ops w), x.id ∉ defineCalled (run env ops w)) ∧
    ((defineEntries (run env ops w)).map Entry.id).Nodup := by
  have h := defineInv_run env ops w ⟨hentries, hcalled, hremoved, hentriesFresh, hcalledFresh⟩
  exact ⟨h.called, h.removed, h.entries⟩

theorem define_handler_at_most_once_witness :
    (defineCalled (run sampleEnv
      [.init, .subscribe (.str "define:user.id") (.fn 0) .undefined,
        .change ("user.id", .str "42"), .tick] twoDefinesWorld)).Nodup ∧
    (∀ x ∈ defineEntries (run sampleEnv
        [.init, .subscribe (.str "define:user.id") (.fn 0) .undefined,
          .change ("user.id", .str "42"), .tick] twoDefinesWorld),
      x.id ∉ defineCalled (run sampleEnv
        [.init, .subscribe (.str "define:user.id") (.fn 0) .undefined,
          .change ("user.id", .str "42"), .tick] twoDefinesWorld)) ∧
    ((defineEntries (run sampleEnv
      [.init, .subscribe (.str "define:user.id") (.fn 0) .undefined,
        .change ("user.id", .str "42"), .tick] twoDefinesWorld)).map Entry.id).Nodup :=
  define_handler_at_most_once sampleEnv
    [.init, .subscribe (.str "define:user.id") (.fn 0) .undefined,
      .change ("user.id", .str "42"), .tick]
    twoDefinesWorld (by decide) (by decide) (by decide) (by decide) (by decide)

end EventManager

namespace EventManager

/-- C21, evaluation: `reset()` leaves `_isInitialized` set. After `initialize()`
and `reset()`, `on('event', f1, true)` calls `f1` at once for the fired "Viewed
Page", and that call is the only handler call up to the end of the following
`initialize()`; on a coordinator constructed anew over the same shared state,
the same subscription and `initialize()` call no handler at all. -/
theorem reset_keeps_initialized :
    (reset activeWorld).isInitialized = true ∧
    rebuiltWorld.isInitialized = false ∧
    rebuiltWorld.digitalData.events.map Event.name =
      (reset activeWorld).digitalData.events.map Event.name ∧
    rebuiltWorld.digitalData.events.map Event.hasFired = [true] ∧
    (reset activeWorld).log.length = 0 ∧
    (subscribe sampleEnv (.str "event") (.fn 1) (.bool true) (reset activeWorld)).1.log.map
      (fun c => (decide (c.site = .replay), c.fn)) = [(true, 1)] ∧
    (initializeManager sampleEnv
      (subscribe sampleEnv (.str "event") (.fn 1) (.bool true) (reset activeWorld)).1).1.log.map
      (fun c => (decide (c.site = .replay), c.fn)) = [(true, 1)] ∧
    (subscribe sampleEnv (.str "event") (.fn 1) (.bool true) rebuiltWorld).1.log.length = 0 ∧
    (initializeManager sampleEnv
      (subscribe sampleEnv (.str "event") (.fn 1) (.bool true) rebuiltWorld).1).1.log.length
      = 0 := by
  decide

/-- C22: `addCallback` returns without any effect on the world (registry, log
and all) for every command other than an array of three or more elements whose
first element is `'on'`: what is not an array, an array of fewer than two
elements, `['on', x]`, an `'off'` command, an unknown verb. For an array
`['on', descriptor, handler, ...]` it is the call of `on` with these two
elements. -/
theorem addCallback_drops_malformed (env : Env) (callbackInfo processPastEvents : Val)
    (w : World)
    (h : ∀ items, callbackInfo = .arr items → items[0]? = some (.str "on") →
      items.length < 3) :
    addCallback env callbackInfo processPastEvents w = (w, .returned .undefined) ∧
    (∀ descriptor handler more,
      addCallback env (.arr (.str "on" :: descriptor :: handler :: more)) processPastEvents w =
        subscribe env descriptor handler
          (if processPastEvents.isFalse then processPastEvents else .bool true) w) := by
  constructor
  · unfold addCallback
    cases callbackInfo with
    | arr items =>
      simp only
      by_cases h2 : items.length < 2
      · simp [h2]
      · simp only [h2, if_false]
        cases h0 : items[0]? with
        | none => rfl
        | some v =>
          cases v with
          | str s =>
            by_cases hs : s = "on"
            · subst hs
              have h3 := h items rfl h0
              simp [h3]
            · split
              · rename_i heq
                simp only [Option.some.injEq, Val.str.injEq] at heq
                exact absurd heq hs
              · rfl
          | _ => rfl
    | _ => rfl
  · intro descriptor handler more
    unfold addCallback
    cases hf : processPastEvents.isFalse <;> simp <;>
      rw [if_neg (by omega), if_neg (by omega)]

theorem addCallback_drops_malformed_witness :
    addCallback sampleEnv (.arr [.str "off", .str "event", .fn 0]) .undefined activeWorld =
      (activeWorld, .returned .undefined) ∧
    (∀ descriptor handler more,
      addCallback sampleEnv (.arr (.str "on" :: descriptor :: handler :: more)) .undefined
          activeWorld =
        subscribe sampleEnv descriptor handler
          (if Val.undefined.isFalse then Val.undefined else .bool true) activeWorld) :=
  addCallback_drops_malformed sampleEnv (.arr [.str "off", .str "event", .fn 0]) .undefined
    activeWorld (by
      intro items h1 h2
      cases h1
      simp at h2)

/-- C23: on an initialized coordinator, `on` with the kind `event` and a truthy
`processPastEvents` returns and calls the handler once for every queued event
whose `hasFired` is set, in queue order, and for no other event, whether the
handler returns or throws; the argument is the copy of the event without
`callback`, passed through the enricher unless `enrichEventData` is `false`.
On a coordinator that is not initialized, with a falsy `processPastEvents`, or
for another kind, `on` calls nothing. -/
theorem replay_on_subscribe (env : Env) (info : String) (handler processPastEvents : Val)
    (w : World) :
    ((splitColon info).headD "" = "event" → w.isInitialized = true →
      processPastEvents.truthy = true → ∀ h, handler = .fn h →
      (subscribe env (.str info) handler processPastEvents w).2 = .returned .undefined ∧
      (subscribe env (.str info) handler processPastEvents w).1.log = w.log ++
        (w.digitalData.events.filter (fun e => e.hasFired)).map
          (fun e => (⟨.replay, none, h, [.event (eventCopyFor env e w)], w.digitalData⟩ : Call))) ∧
    (((splitColon info).headD "" ≠ "event" ∨ w.isInitialized = false ∨
        processPastEvents.truthy = false) →
      (subscribe env (.str info) handler processPastEvents w).1.log = w.log) ∧
    (∀ e, eventCopyFor env e w =
      if e.enrichEventData then env.enrich { e with callback := none } w.digitalData
      else { e with callback := none }) := by
  refine ⟨?_, ?_, fun e => rfl⟩
  · intro hkind hinit htruthy h hh
    subst hh
    unfold subscribe
    simp only [hkind, hinit, htruthy, beq_self_eq_true, Bool.and_self, if_true,
      applyCallbackForPastEvents]
    have hp : objectPrototypeKeys.contains "event" = false := by decide
    simp only [hp, Bool.false_eq_true, if_false]
    rw [if_neg (by decide), (applyCallbackForPastEventsLoop_log env h _ _).2]
    simp [eventCopyFor]
  · intro hno
    unfold subscribe
    simp only
    split
    · split <;> rfl
    · split
      · rfl
      · split
        · rename_i hc
          simp only [Bool.and_eq_true, beq_iff_eq] at hc
          rcases hno with h1 | h1 | h1
          · exact absurd hc.1.2 h1
          · rw [hc.1.1] at h1; cases h1
          · rw [hc.2] at h1; cases h1
        · rfl

theorem replay_on_subscribe_witness :
    ((splitColon "event").headD "" = "event" → replayWorld.isInitialized = true →
      (Val.bool true).truthy = true → ∀ h, Val.fn 2 = .fn h →
      (subscribe sampleEnv (.str "event") (.fn 2) (.bool true) replayWorld).2
        = .returned .undefined ∧
      (subscribe sampleEnv (.str "event") (.fn 2) (.bool true) replayWorld).1.log =
        replayWorld.log ++
        (replayWorld.digitalData.events.filter (fun e => e.hasFired)).map
          (fun e => (⟨.replay, none, h, [.event (eventCopyFor sampleEnv e replayWorld)],
            replayWorld.digitalData⟩ : Call))) ∧
    (((splitColon "event").headD "" ≠ "event" ∨ replayWorld.isInitialized = false ∨
        (Val.bool true).truthy = false) →
      (subscribe sampleEnv (.str "event") (.fn 2) (.bool true) replayWorld).1.log
        = replayWorld.log) ∧
    (∀ e, eventCopyFor sampleEnv e replayWorld =
      if e.enrichEventData then sampleEnv.enrich { e with callback := none }
        replayWorld.digitalData
      else { e with callback := none }) :=
  replay_on_subscribe sampleEnv "event" (.fn 2) (.bool true) replayWorld

end EventManager

namespace EventManager

/-- C24, counterexample: nothing is subscribed and the completion callback of
the event, `f2`, throws `'boom'`: `fireEvent` calls `f2` with no arguments and
throws `'boom'`, and the event is left with `hasFired` unset. -/
theorem callback_throw_keeps_unfired_counterexample :
    (getCallbacks "event" failingWorld.callbacks).isNone = true ∧
    (getCallbacks "beforeEvent" failingWorld.callbacks).isNone = true ∧
    failingWorld.digitalData.events.map Event.callback = [some 2] ∧
    (callsAt .completion (fireEvent sampleEnv 0 failingWorld).1.log).map
      (fun c => (c.fn, c.args.length)) = [(2, 0)] ∧
    (fireEvent sampleEnv 0 failingWorld).2 = .threw (.str "boom") ∧
    (fireEvent sampleEnv 0 failingWorld).1.digitalData.events.map Event.hasFired = [false] :=
  ⟨rfl, rfl, rfl, rfl, rfl, rfl⟩

/-- C24, amended: with no event handler registered and the beforeEvent gate
open, `fireEvent` calls, after the gate, the completion callback of the event,
if it has one, with no arguments, and nothing else. When the callback returns
(or there is none), `fireEvent` returns and the queued event has `hasFired`
set; when the callback throws, `fireEvent` throws the same value and the
queued event is left without `hasFired`. -/
theorem fireEvent_without_handlers (env : Env) (i : Nat) (w : World) (event : Event)
    (hev : w.digitalData.events[i]? = some event)
    (hgate : GateOpen env (withTimestamp w.now event) w.callbacks)
    (hreg : getCallbacks "event" w.callbacks = none) :
    (∃ before : List Call, (∀ c ∈ before, c.site = .beforeEvent) ∧
      (fireEvent env i w).1.log = w.log ++ before ++
        (event.callback.map (fun f => (⟨.completion, none, f, [],
          (stampedWorld i event w).digitalData⟩ : Call))).toList) ∧
    (CallbackReturns env event →
      (fireEvent env i w).2 = .returned .undefined ∧
      (fireEvent env i w).1.digitalData.events =
        w.digitalData.events.set i { withTimestamp w.now event with hasFired := true }) ∧
    (∀ f e, event.callback = some f →
      env.run f [] (stampedWorld i event w).digitalData = .threw e →
      (fireEvent env i w).2 = .threw e ∧
      (fireEvent env i w).1.digitalData.events =
        w.digitalData.events.set i (withTimestamp w.now event)) := by
  obtain ⟨w1, before, hcore, hlog1, hbefore, heq⟩ :=
    fireEvent_open_none_log env i w event hev hgate hreg
  have hdd1 : w1.digitalData = (stampedWorld i event w).digitalData := digitalData_of_core hcore
  have hevs : w1.digitalData.events = w.digitalData.events.set i (withTimestamp w.now event) := by
    rw [hdd1]; rfl
  have hev1 : w1.digitalData.events[i]? = some (withTimestamp w.now event) := by
    rw [hevs]
    exact getElem?_set_of_getElem? _ _ _ _ hev
  have hfired : ∀ w2 : World, w2.digitalData = w1.digitalData →
      (markFired i w2).digitalData.events =
        w.digitalData.events.set i { withTimestamp w.now event with hasFired := true } := by
    intro w2 h2
    rw [markFired_of_getElem? i w2 _ (by rw [h2]; exact hev1), h2, hevs]
    simp [setEvents, List.set_set]
  rw [heq]
  cases hcb : event.callback with
  | none =>
    refine ⟨⟨before, hbefore, ?_⟩, fun _ => ⟨rfl, hfired w1 rfl⟩, fun f e hf => nomatch hf⟩
    simp [markFired_log, hlog1]
  | some f =>
    simp only [call_fn]
    cases hrun : env.run f [] w1.digitalData with
    | returned v =>
      refine ⟨⟨before, hbefore, ?_⟩, fun _ => ⟨rfl, hfired _ rfl⟩, ?_⟩
      · simp [markFired_log, hlog1, hdd1]
      · intro f1 e1 hf1 he1
        cases hf1
        rw [← hdd1, hrun] at he1
        cases he1
    | threw e =>
      refine ⟨⟨before, hbefore, ?_⟩, ?_, ?_⟩
      · simp [hlog1, hdd1]
      · intro hret
        obtain ⟨v, hv⟩ := hret f hcb [] w1.digitalData
        rw [hrun] at hv
        cases hv
      · intro f1 e1 hf1 he1
        cases hf1
        rw [← hdd1, hrun] at he1
        cases he1
        exact ⟨rfl, hevs⟩

theorem fireEvent_without_handlers_witness :
    (∃ before : List Call, (∀ c ∈ before, c.site = .beforeEvent) ∧
      (fireEvent sampleEnv 0 plainWorld).1.log = plainWorld.log ++ before ++
        (clickedButton.callback.map (fun f => (⟨.completion, none, f, [],
          (stampedWorld 0 clickedButton plainWorld).digitalData⟩ : Call))).toList) ∧
    (CallbackReturns sampleEnv clickedButton →
      (fireEvent sampleEnv 0 plainWorld).2 = .returned .undefined ∧
      (fireEvent sampleEnv 0 plainWorld).1.digitalData.events =
        plainWorld.digitalData.events.set 0
          { withTimestamp plainWorld.now clickedButton with hasFired := true }) ∧
    (∀ f e, clickedButton.callback = some f →
      sampleEnv.run f [] (stampedWorld 0 clickedButton plainWorld).digitalData = .threw e →
      (fireEvent sampleEnv 0 plainWorld).2 = .threw e ∧
      (fireEvent sampleEnv 0 plainWorld).1.digitalData.events =
        plainWorld.digitalData.events.set 0 (withTimestamp plainWorld.now clickedButton)) :=
  fireEvent_without_handlers sampleEnv 0 plainWorld clickedButton rfl (fun _ h => nomatch h) rfl

/-- C25, counterexample: the queue dispatches to the handlers `f4`, which
throws `0`, and `f2`, which throws `'boom'`; for an appended event the
completion callback is given `errors = ['boom']`, without the `0` that `f4`
threw. -/
theorem completion_errors_counterexample :
    dispatchingWorld.eventsPush = .tracking ∧
    (getCallbacks "event" dispatchingWorld.callbacks).map (fun l => l.map Entry.handler)
      = some [.fn 4, .fn 2] ∧
    handlerOutcomes sampleEnv 1 clickedButton (withAppended clickedButton dispatchingWorld)
      [⟨0, none, .fn 4⟩, ⟨1, none, .fn 2⟩] = [.threw (.num 0), .threw (.str "boom")] ∧
    (callsAt .completion (pushEvent sampleEnv clickedButton dispatchingWorld).1.log).map Call.args
      = [[.list [], .list [.str "boom"]]] :=
  ⟨rfl, rfl, rfl, rfl⟩

/-- C25, amended: an event appended while the queue dispatches, with event
handlers registered and the beforeEvent gate open: after the calls of the gate,
every handler that is a function is called once, in registration order, and
only then, last, the completion callback of the event, if it has one. It is
given `results`, the values the handlers returned that are not `undefined`, and
`errors`, the values the handlers threw that are truthy, both in registration
order. -/
theorem completion_after_all_handlers (env : Env) (e : Event) (w : World)
    (entries : List Entry)
    (hmode : w.eventsPush = .tracking)
    (hgate : GateOpen env (withTimestamp w.now e) w.callbacks)
    (hreg : getCallbacks "event" w.callbacks = some entries)
    (hne : entries ≠ []) :
    ∃ before : List Call, (∀ c ∈ before, c.site = .beforeEvent) ∧
      (pushEvent env e w).1.log = w.log ++ before ++
        entries.filterMap
          (eventCallOf (handlerCopy env w.digitalData.events.length e (withAppended e w))
            (stampedWorld w.digitalData.events.length e (withAppended e w)).digitalData) ++
        (e.callback.map (fun f => (⟨.completion, none, f,
          [.list (resultsOf
            (handlerOutcomes env w.digitalData.events.length e (withAppended e w) entries)),
           .list (errorsOf
            (handlerOutcomes env w.digitalData.events.length e (withAppended e w) entries))],
          (stampedWorld w.digitalData.events.length e (withAppended e w)).digitalData⟩ :
            Call))).toList := by
  have hev : (withAppended e w).digitalData.events[w.digitalData.events.length]? = some e := by
    simp [withAppended, setEvents]
  have hpush : pushEvent env e w = fireEvent env w.digitalData.events.length (withAppended e w) := by
    unfold pushEvent
    rw [hmode]
    rfl
  rw [hpush]
  exact fireEvent_calls env _ (withAppended e w) e entries hev hgate hreg hne

theorem completion_after_all_handlers_witness :
    ∃ before : List Call, (∀ c ∈ before, c.site = .beforeEvent) ∧
      (pushEvent sampleEnv clickedButton dispatchingWorld).1.log =
        dispatchingWorld.log ++ before ++
        [(⟨0, none, .fn 4⟩ : Entry), ⟨1, none, .fn 2⟩].filterMap
          (eventCallOf
            (handlerCopy sampleEnv dispatchingWorld.digitalData.events.length clickedButton
              (withAppended clickedButton dispatchingWorld))
            (stampedWorld dispatchingWorld.digitalData.events.length clickedButton
              (withAppended clickedButton dispatchingWorld)).digitalData) ++
        (clickedButton.callback.map (fun f => (⟨.completion, none, f,
          [.list (resultsOf
            (handlerOutcomes sampleEnv dispatchingWorld.digitalData.events.length clickedButton
              (withAppended clickedButton dispatchingWorld)
              [⟨0, none, .fn 4⟩, ⟨1, none, .fn 2⟩])),
           .list (errorsOf
            (handlerOutcomes sampleEnv dispatchingWorld.digitalData.events.length clickedButton
              (withAppended clickedButton dispatchingWorld)
              [⟨0, none, .fn 4⟩, ⟨1, none, .fn 2⟩]))],
          (stampedWorld dispatchingWorld.digitalData.events.length clickedButton
            (withAppended clickedButton dispatchingWorld)).digitalData⟩ : Call))).toList :=
  completion_after_all_handlers sampleEnv clickedButton dispatchingWorld
    [⟨0, none, .fn 4⟩, ⟨1, none, .fn 2⟩] rfl (fun _ h => nomatch h) rfl (by simp)

/-- C26: with event handlers registered and the beforeEvent gate open, every
call of an event handler in `fireEvent` has one argument, the copy of the
queued event (with its timestamp) without `callback`: passed through the
enricher with the shared state when `enrichEventData` is not `false`, and as it
is when `enrichEventData` is `false`. The queue itself keeps its events but for
`timestamp` and `hasFired`: the fired event keeps its completion callback and
is not the enriched copy. -/
theorem handler_gets_event_copy (env : Env) (i : Nat) (w : World) (event : Event)
    (entries : List Entry)
    (hev : w.digitalData.events[i]? = some event)
    (hgate : GateOpen env (withTimestamp w.now event) w.callbacks)
    (hreg : getCallbacks "event" w.callbacks = some entries)
    (hne : entries ≠ []) :
    callsAt .event (fireEvent env i w).1.log = callsAt .event w.log ++
      entries.filterMap
        (eventCallOf (handlerCopy env i event w) (stampedWorld i event w).digitalData) ∧
    handlerCopy env i event w =
      (if event.enrichEventData
        then env.enrich { withTimestamp w.now event with callback := none }
          (stampedWorld i event w).digitalData
        else { withTimestamp w.now event with callback := none }) ∧
    (fireEvent env i w).1.digitalData.events.map eraseFiring =
      w.digitalData.events.map eraseFiring ∧
    ((fireEvent env i w).1.digitalData.events[i]?).map Event.callback = some event.callback := by
  have herased := erased_of_coreE (coreE_fireEvent env i w)
  refine ⟨?_, ?_, herased, ?_⟩
  · obtain ⟨before, hbefore, hlog⟩ := fireEvent_calls env i w event entries hev hgate hreg hne
    have hb : callsAt .event before = [] :=
      callsAt_of_site_ne .event before (by intro c hc; rw [hbefore c hc]; decide)
    rw [hlog]
    simp only [callsAt_append, callsAt_eventCalls, callsAt_event_completion, hb]
    simp
  · unfold handlerCopy eventCopyFor
    simp only [withTimestamp_enrichEventData]
  · have h1 := congrArg (fun l => (l[i]?).map Event.callback) herased
    simp only [List.getElem?_map, Option.map_map] at h1
    have h2 : Event.callback ∘ eraseFiring = Event.callback := rfl
    rw [h2] at h1
    rw [h1, hev]
    rfl

theorem handler_gets_event_copy_witness :
    callsAt .event (fireEvent sampleEnv 0 mixedWorld).1.log = callsAt .event mixedWorld.log ++
      [(⟨0, none, .fn 2⟩ : Entry), ⟨1, none, .fn 1⟩, ⟨2, none, .fn 0⟩].filterMap
        (eventCallOf (handlerCopy sampleEnv 0 clickedButton mixedWorld)
          (stampedWorld 0 clickedButton mixedWorld).digitalData) ∧
    handlerCopy sampleEnv 0 clickedButton mixedWorld =
      (if clickedButton.enrichEventData
        then sampleEnv.enrich { withTimestamp mixedWorld.now clickedButton with callback := none }
          (stampedWorld 0 clickedButton mixedWorld).digitalData
        else { withTimestamp mixedWorld.now clickedButton with callback := none }) ∧
    (fireEvent sampleEnv 0 mixedWorld).1.digitalData.events.map eraseFiring =
      mixedWorld.digitalData.events.map eraseFiring ∧
    ((fireEvent sampleEnv 0 mixedWorld).1.digitalData.events[0]?).map Event.callback
      = some clickedButton.callback :=
  handler_gets_event_copy sampleEnv 0 mixedWorld clickedButton
    [⟨0, none, .fn 2⟩, ⟨1, none, .fn 1⟩, ⟨2, none, .fn 0⟩] rfl (fun _ h => nomatch h) rfl
    (by simp)

end EventManager

namespace EventManager

/-- C27: a pass of `checkForChanges` that detects a difference leaves the
shared state as it is and stores the fresh snapshot, the state without `events`
and `changes`; with a `jsonIsEqual` that finds this snapshot equal to itself,
the pass that follows at once changes nothing and calls no handler. An append
to the events queue, in every world, changes neither the registry, nor the
data, nor the stored snapshot, so a pass detects a difference after it only if
it did before. -/
theorem change_not_reported_twice (env : Env) (w : World) (e : Event) :
    (env.jsonIsEqual (_getCopyWithoutEvents w.digitalData)
        (_getCopyWithoutEvents w.digitalData) = true →
      detectsDifference env w = true →
      (checkForChanges env w).digitalData = w.digitalData ∧
      (checkForChanges env w).previousDigitalData =
        _getCopyWithoutEvents (checkForChanges env w).digitalData ∧
      checkForChanges env (checkForChanges env w) = checkForChanges env w) ∧
    passView (pushEvent env e w).1 = passView w ∧
    detectsDifference env (pushEvent env e w).1 = detectsDifference env w := by
  refine ⟨?_, passView_pushEvent env e w,
    detectsDifference_of_passView env (passView_pushEvent env e w)⟩
  intro hrefl hdet
  have hs := checkForChanges_snapshot env w hdet
  have h1 : (checkForChanges env w).digitalData = w.digitalData := congrArg Prod.fst hs
  have h2 : (checkForChanges env w).previousDigitalData = _getCopyWithoutEvents w.digitalData :=
    congrArg Prod.snd hs
  refine ⟨h1, by rw [h2, h1], ?_⟩
  exact checkForChanges_of_equal env _ (by rw [h2, h1]; exact hrefl)

theorem change_not_reported_twice_witness :
    ((checkForChanges structEnv changedWorld).digitalData = changedWorld.digitalData ∧
      (checkForChanges structEnv changedWorld).previousDigitalData =
        _getCopyWithoutEvents (checkForChanges structEnv changedWorld).digitalData ∧
      checkForChanges structEnv (checkForChanges structEnv changedWorld) =
        checkForChanges structEnv changedWorld) ∧
    passView (pushEvent structEnv clickedButton changedWorld).1 = passView changedWorld ∧
    detectsDifference structEnv (pushEvent structEnv clickedButton changedWorld).1 =
      detectsDifference structEnv changedWorld :=
  ⟨(change_not_reported_twice structEnv changedWorld clickedButton).1 (by decide) (by decide),
    (change_not_reported_twice structEnv changedWorld clickedButton).2⟩

end EventManager
